import Mathlib

/-!
# minipypeg: indentation normalizer, value model, environments and evaluator

A shallow embedding of `src/Indent.hpp` and `src/Interpreter.hpp`.

Modelling conventions.

* `std::string` is a list of characters; `int` and `size_t` loop counters are
  natural numbers (sources and lists are shorter than `2^31`).
* `long` is an `Int` kept in the signed 64-bit range by `wrap64` after every
  arithmetic operation (two's complement wrap-around).
* `std::shared_ptr<Env>` is an address into `State.heap`; a `Function` is either
  one of the two built-ins of `interpret` or the closure of `declare_function`,
  which captures its `Ast` and the address of its defining environment.
* A thrown `std::runtime_error` is `Err.runtime_error` with the message; reading
  a vector outside its bounds is `Err.undefined_behaviour`; a failed `assert`
  is `Err.assertion_failed`; `Err.out_of_fuel` stands for a computation that
  has not finished within the given number of nested evaluations.
* The trace, variable-history and error logs (`traceLog`, `varLog`,
  `errorLog`) are not modelled, nor is the formatting done only for them (the
  calls of `Value::str` in `set_value`, `eval_block` and the lambda of
  `declare_function`); `State.os` is the standard-output stream handed to
  `interpret`.
-/

namespace MiniPy

/-! ## Indent.hpp -/

/-- The scan of lines 19-23: counts the spaces that follow the newline and
returns the count `n` together with the characters after the last space. -/
def skipSpaces : List Char → Nat × List Char
  | [] => (0, [])
  | c :: t => if c = ' ' then ((skipSpaces t).1 + 1, (skipSpaces t).2) else (0, c :: t)

/-- Embeds `levels.top()`. The stack always holds its bottom element `0`
(`pythonCFLLoop_levelsOk` below), so the default is never used. -/
def top (levels : List Nat) : Nat := levels.headD 0

/-- Lines 30-36: `while(n < levels.top())` emits a newline and a closing
brace and pops. The `std::runtime_error` of line 35 is constructed and
dropped (there is no `throw`), so it has no effect. -/
def popLevels (n : Nat) : List Nat → List Char → List Nat × List Char
  | [], output => ([], output)
  | l :: levels, output =>
    if n < l then popLevels n levels (output ++ ['\n', '}'])
    else (l :: levels, output)

/-- One iteration of the `for` loop of lines 12-42 at a position holding `c`,
with `rest` the characters after it. Returns the characters after the
position the iteration ends on, the level stack and the output. -/
def forBody (c : Char) (rest : List Char) (levels : List Nat) (output : List Char) :
    List Char × List Nat × List Char :=
  if c = '\n' then
    let output := output ++ ['\n']
    -- line 17: `src[i+1]` past the end is the terminating NUL, which is not a newline
    if rest.head? ≠ some '\n' then
      let n := (skipSpaces rest).1
      let rest := (skipSpaces rest).2
      -- `src[i]` after the scan: the last space consumed, or still the newline
      let cur : Char := if n = 0 then '\n' else ' '
      let pushed : List Nat × List Char :=
        if n > top levels then (n :: levels, output ++ ['{', '\n']) else (levels, output)
      let popped := popLevels n pushed.1 pushed.2
      -- line 40
      (rest, popped.1, if cur ≠ '\n' then popped.2 ++ [cur] else popped.2)
    else (rest, levels, output)
  else (rest, levels, output ++ [c])

/-- The `for` loop of lines 12-42 over the characters still to be read. Every
iteration consumes at least one character, so `fuel = src.size()` iterations
are enough (`pythonCFLLoop_fuel`). -/
def pythonCFLLoop : Nat → List Char → List Nat → List Char → List Nat × List Char
  | 0, _, levels, output => (levels, output)
  | _, [], levels, output => (levels, output)
  | fuel + 1, c :: rest, levels, output =>
    let r := forBody c rest levels output
    pythonCFLLoop fuel r.1 r.2.1 r.2.2

/-- Lines 43-46: `while(levels.top() != 0)`. -/
def closeLevels : List Nat → List Char → List Char
  | [], output => output
  | l :: levels, output =>
    if l ≠ 0 then closeLevels levels (output ++ ['\n', '}']) else output

/-- The normalizer on character lists. -/
def pythonCFLChars (src : List Char) : List Char :=
  let r := pythonCFLLoop src.length src [0] []
  closeLevels r.1 r.2

/-- Embeds `string pythonCFL(string src)`. -/
def pythonCFL (src : String) : String := ⟨pythonCFLChars src.data⟩

/-- The level stack after each iteration of the `for` loop (the scan of
`pythonCFLLoop`, keeping every intermediate stack). -/
def levelHistory : Nat → List Char → List Nat → List Char → List (List Nat)
  | 0, _, _, _ => []
  | _, [], _, _ => []
  | fuel + 1, c :: rest, levels, output =>
    let r := forBody c rest levels output
    r.2.1 :: levelHistory fuel r.1 r.2.1 r.2.2

/-- Number of indentation levels open in a stack (its bottom `0` is no level). -/
def depthOf (levels : List Nat) : Nat := levels.length - 1

/-- The maximum indentation depth reached while `src` is scanned. -/
def maxDepth (src : List Char) : Nat :=
  ((levelHistory src.length src [0] []).map depthOf).foldl max 0

/-- The number of iterations that open a level (the stack grows). -/
def opened : List Nat → List (List Nat) → Nat
  | _, [] => 0
  | prev, cur :: hist => (if prev.length < cur.length then 1 else 0) + opened cur hist

/-- The number of indentation levels opened while `src` is scanned. -/
def openedLevels (src : List Char) : Nat :=
  opened [0] (levelHistory src.length src [0] [])

/-- Running brace depth of a text read from depth `d`: `none` as soon as a
closing brace has no open partner. -/
def braceDepth : Nat → List Char → Option Nat
  | d, [] => some d
  | d, c :: cs =>
    if c = '{' then braceDepth (d + 1) cs
    else if c = '}' then (if d = 0 then none else braceDepth (d - 1) cs)
    else braceDepth d cs

/-- The deepest brace nesting of a text read from depth `d`. -/
def maxNesting : Nat → List Char → Nat
  | d, [] => d
  | d, c :: cs =>
    if c = '{' then max d (maxNesting (d + 1) cs)
    else if c = '}' then max d (maxNesting (d - 1) cs)
    else maxNesting d cs

/-- Every line start of the scan lands on a width that is on the level stack:
after the push or the pops of lines 24-36 the top of the stack is the width
`n` of the line. -/
def wellIndented : Nat → List Char → List Nat → Bool
  | 0, _, _ => true
  | _, [], _ => true
  | fuel + 1, c :: rest, levels =>
    let r := forBody c rest levels []
    (decide (c ≠ '\n') || decide (rest.head? = some '\n') ||
      decide (top r.2.1 = (skipSpaces rest).1)) && wellIndented fuel r.1 r.2.1

/-! ## Interpreter.hpp: values -/

/-- The ways an evaluation stops without a value. -/
inductive Err where
  | runtime_error (what : String)
  | undefined_behaviour
  | assertion_failed
  | out_of_fuel
deriving DecidableEq

/-- Modelled from the spec: the `peg::Ast` node of `Include/peglib.h`, which is
not among the sources: a rule tag, the token text (empty when the node is no
token) and the ordered children. `str2tag` hashes rule names; tags are kept
as the names themselves. -/
inductive Ast where
  | mk (tag : String) (token : String) (nodes : List Ast)

/-- Embeds `ast->tag`. -/
def Ast.tag : Ast → String
  | .mk t _ _ => t

/-- Embeds `ast->token_to_string()`. -/
def Ast.token_to_string : Ast → String
  | .mk _ t _ => t

/-- Embeds `ast->nodes`. -/
def Ast.nodes : Ast → List Ast
  | .mk _ _ n => n

/-- Two's complement wrap-around of a `long`. -/
def wrap64 (x : Int) : Int :=
  (x + 9223372036854775808) % 18446744073709551616 - 9223372036854775808

/-- Two's complement wrap-around of an `int`. -/
def wrap32 (x : Int) : Int := (x + 2147483648) % 4294967296 - 2147483648

/-- Decimal value of a run of digits. -/
def digitsToNat : List Char → Nat → Nat
  | [], acc => acc
  | c :: cs, acc => digitsToNat cs (acc * 10 + (c.toNat - '0'.toNat))

/-- Modelled from the spec: `ast->token_to_number<long>()` reads a `NUMBER`
token, a run of ASCII digits, as a signed 64-bit decimal. -/
def Ast.token_to_number (a : Ast) : Int :=
  wrap64 (digitsToNat a.token_to_string.data 0)

/-- Embeds `s[0]` of a `std::string`: the terminating NUL when `s` is empty. -/
def firstChar (s : String) : Char := s.data.headD (Char.ofNat 0)

/-- Embeds `nodes[i]` of a `std::vector`; a read past the end is undefined. -/
def nodeAt {α : Type} (nodes : List α) (i : Nat) : Except Err α :=
  match nodes[i]? with
  | some a => .ok a
  | none => .error .undefined_behaviour

/-- Address of an `Env` object (a `shared_ptr<Env>`). -/
abbrev Addr := Nat

/-- Embeds `using Function = function<Value(List&)>`: the callables the interpreter
creates are the two built-ins of `interpret` and the lambda of
`declare_function`, which captures `ast` and `env` by copy. -/
inductive Function where
  | print
  | len
  | closure (ast : Ast) (env : Addr)

/-- Embeds `struct Value`: the variant over `nullptr_t`, `bool`, `long`, `string`,
`Function` and `List`. -/
inductive Value where
  | nullptr
  | bool (b : Bool)
  | long (l : Int)
  | string (s : String)
  | function (f : Function)
  | list (l : List Value)

/-- Embeds `v.index()`. -/
def Value.index : Value → Nat
  | .nullptr => 0
  | .bool _ => 1
  | .long _ => 2
  | .string _ => 3
  | .function _ => 4
  | .list _ => 5

/-- Embeds `Value::getTypeName`. -/
def getTypeName (type : Nat) : String :=
  if type = 0 then "None"
  else if type = 1 then "bool"
  else if type = 2 then "int"
  else if type = 3 then "string"
  else if type = 4 then "function"
  else if type = 5 then "list"
  else "Unknown"

/-- The `std::runtime_error` thrown by `Value::get<T>` on another variant. -/
def typeError (v : Value) : Err :=
  .runtime_error ("TypeError: Got unexpected type " ++ getTypeName v.index)

/-- Embeds `get<long>()`. -/
def Value.get_long : Value → Except Err Int
  | .long l => .ok l
  | v => .error (typeError v)

/-- Embeds `get<string>()`. -/
def Value.get_string : Value → Except Err String
  | .string s => .ok s
  | v => .error (typeError v)

/-- Embeds `get<Function>()`. -/
def Value.get_Function : Value → Except Err Function
  | .function f => .ok f
  | v => .error (typeError v)

/-- Embeds `get<List>()`. -/
def Value.get_List : Value → Except Err (List Value)
  | .list l => .ok l
  | v => .error (typeError v)

mutual
/-- Embeds `Value::str`. -/
def Value.str : Value → Except Err String
  | .nullptr => .ok "nil"
  | .bool b => .ok (if b then "true" else "false")
  | .long l => .ok (toString l)
  | .string s => .ok s
  | .function _ => .ok "Function"
  | .list l => Value.strLoop l "["
/-- Lines 113-118 of `Value::str` on the elements still to be shown. On an
empty list `list.size() - 1` wraps around and `list[0]`, `list.back()` are
read outside the vector. -/
def Value.strLoop : List Value → String → Except Err String
  | [], _ => .error .undefined_behaviour
  | [last], out => do
    let s ← Value.str last
    .ok (out ++ s ++ "]")
  | v :: w :: rest, out =>
    if v.index ≠ 0 then do
      let s ← Value.str v
      Value.strLoop (w :: rest) (out ++ s ++ ", ")
    else Value.strLoop (w :: rest) out
end

/-! ## Interpreter.hpp: environments -/

/-- Embeds `struct Env`: the parent pointer and the `unordered_map` of bindings. -/
structure Env where
  outer : Option Addr
  values : String → Option Value

/-- The `Env` objects created so far and the standard-output stream. -/
structure State where
  heap : List Env
  os : String

/-- The `std::runtime_error` thrown by `Env::get_value`. -/
def nameError (s : String) : Err :=
  .runtime_error ("undefined symbol '" ++ s ++ "'...")

/-- Embeds `Env::get_value` on the object at `env`, following `outer` at most `fuel`
times. -/
def get_value_from (heap : List Env) (s : String) : Nat → Addr → Except Err Value
  | 0, _ => .error .out_of_fuel
  | fuel + 1, env =>
    match heap[env]? with
    | none => .error .undefined_behaviour
    | some e =>
      match e.values s with
      | some v => .ok v
      | none =>
        match e.outer with
        | some outer => get_value_from heap s fuel outer
        | none => .error (nameError s)

/-- Embeds `env->get_value(s)`. A parent is always an older object, so a chain has
at most `heap.length` members. -/
def get_value (heap : List Env) (env : Addr) (s : String) : Except Err Value :=
  get_value_from heap s heap.length env

/-- Embeds `env->set_value(s, val)`: `values[s] = Value(val)`. The two lines
before it write to the logs and are not modelled. -/
def set_value (heap : List Env) (env : Addr) (s : String) (val : Value) : List Env :=
  match heap[env]? with
  | some e => heap.set env { e with values := fun k => if k = s then some val else e.values k }
  | none => heap

/-! ## Interpreter.hpp: the evaluator -/

/-- The type of `eval`: the value and the state the evaluation leaves. -/
abbrev Eval := Ast → Addr → State → Except Err (Value × State)

/-- Evaluates nodes in order (`push_back(eval(k, env))` in a loop). -/
def evalNodes (ev : Eval) (env : Addr) : List Ast → State → Except Err (List Value × State)
  | [], s => .ok ([], s)
  | k :: ks, s => do
    let r ← ev k env s
    let rs ← evalNodes ev env ks r.2
    .ok (r.1 :: rs.1, rs.2)

/-- Lines 299-303: binds the actual values to the names at `ast->nodes[1+i]`. -/
def bindParams (ast : Ast) (context : Addr) : Nat → List Value → List Env →
    Except Err (List Env)
  | _, [], heap => .ok heap
  | i, v :: vs, heap => do
    let node ← nodeAt ast.nodes (1 + i)
    bindParams ast context (i + 1) vs (set_value heap context node.token_to_string v)

/-- Lines 612-617 of the `print` built-in. -/
def printLoop : Nat → List Value → String → Except Err String
  | _, [], os => .ok os
  | count, v :: vs, os => do
    let s ← v.str
    printLoop (count + 1) vs (if count > 0 then os ++ " " ++ s else os ++ s)

/-- A call `fn(values)` of a `Function`. -/
def callFunction (ev : Eval) (fn : Function) (values : List Value) (s : State) : Except Err (Value × State) :=
  match fn with
  | .print => do
    let os ← printLoop 0 values s.os
    .ok (.nullptr, { s with os := os ++ "\n" })
  | .len =>
    if values.length ≠ 1 then .error .assertion_failed
    else do
      let back ← nodeAt values (values.length - 1)
      let l ← back.get_List
      .ok (.long l.length, s)
  | .closure ast env => do
    let context := s.heap.length
    let heap ← bindParams ast context 0 values (s.heap ++ [{ outer := some env, values := fun _ => none }])
    let block ← nodeAt ast.nodes (ast.nodes.length - 1)
    ev block context { s with heap := heap }

/-- Embeds `eval_call`. -/
def eval_call (ev : Eval) (ast : Ast) (env : Addr) (s : State) : Except Err (Value × State) := do
  let callee ← nodeAt ast.nodes 0
  let fn ← (← get_value s.heap env callee.token_to_string).get_Function
  let values ← evalNodes ev env (ast.nodes.drop 1) s
  callFunction ev fn values.1 values.2

/-- Embeds `eval_assign`. -/
def eval_assign (ev : Eval) (ast : Ast) (env : Addr) (s : State) : Except Err (Value × State) := do
  let name := (← nodeAt ast.nodes 0).token_to_string
  let value ← ev (← nodeAt ast.nodes 1) env s
  .ok (.nullptr, { value.2 with heap := set_value value.2.heap env name value.1 })

/-- The loop of `eval_block`. -/
def eval_block (ev : Eval) (env : Addr) : List Ast → State → Except Err (Value × State)
  | [], s => .ok (.nullptr, s)
  | node :: nodes, s =>
    if node.tag = "return_stmt" then ev node env s
    else if node.tag = "if" then do
      let v ← ev node env s
      if v.1.index ≠ 0 then .ok v else eval_block ev env nodes v.2
    else do
      let v ← ev node env s
      eval_block ev env nodes v.2

/-- The loops of lines 201-216 and 224-239: list concatenation. -/
def concatLoop (ev : Eval) (env : Addr) : List Ast → List Value → State → Except Err (List Value × State)
  | [], master, s => .ok (master, s)
  | [op], master, s =>
    if firstChar op.token_to_string = '+' then .error .undefined_behaviour
    else .ok (master, s)
  | op :: next :: rest, master, s =>
    if firstChar op.token_to_string = '+' then
      if next.tag = "raw_list" then do
        let vs ← evalNodes ev env next.nodes s
        concatLoop ev env rest (master ++ vs.1) vs.2
      else do
        let l2 ← (← get_value s.heap env next.token_to_string).get_List
        concatLoop ev env rest (master ++ l2.filter (fun k => k.index ≠ 0)) s
    else concatLoop ev env rest master s

/-- The loop of lines 245-250: string concatenation. -/
def stringLoop (ev : Eval) (env : Addr) : List Ast → String → State → Except Err (String × State)
  | [], result, s => .ok (result, s)
  | [op], result, s =>
    if firstChar op.token_to_string = '+' then .error .undefined_behaviour
    else .ok (result, s)
  | op :: next :: rest, result, s =>
    if firstChar op.token_to_string = '+' then do
      let s2 ← ev next env s
      let str ← s2.1.get_string
      stringLoop ev env rest (result ++ str) s2.2
    else stringLoop ev env rest result s

/-- The loop of lines 258-269: `+` and `-` on `long`. -/
def sumLoop (ev : Eval) (env : Addr) : List Ast → Int → State → Except Err (Int × State)
  | [], val, s => .ok (val, s)
  | [_], _, _ => .error .undefined_behaviour
  | op :: next :: rest, val, s => do
    let oper := firstChar op.token_to_string
    let r ← ev next env s
    let rval ← r.1.get_long
    sumLoop ev env rest
      (if oper = '+' then wrap64 (val + rval)
       else if oper = '-' then wrap64 (val - rval) else val) r.2

/-- Lines 255-271 of `eval_expr`: regular arithmetic expression. -/
def eval_arith (ev : Eval) (sign : String) (first : Ast) (rest : List Ast) (env : Addr)
    (s : State) : Except Err (Value × State) := do
  let sign_val : Int := if sign = "" ∨ sign = "+" then 1 else -1
  let v ← ev first env s
  let val := wrap64 ((← v.1.get_long) * sign_val)
  let r ← sumLoop ev env rest val v.2
  .ok (.long r.1, r.2)

/-- Embeds `eval_expr`. -/
def eval_expr (ev : Eval) (ast : Ast) (env : Addr) (s : State) : Except Err (Value × State) := do
  let nodes := ast.nodes
  let sign := (← nodeAt nodes 0).token_to_string
  let first ← nodeAt nodes 1
  if nodes.length = 2 ∧ (first.tag = "call" ∨ first.tag = "list_value") then ev first env s
  else if nodes.length = 2 ∧ first.tag = "STRING" then .ok (.string first.token_to_string, s)
  else if first.tag = "raw_list" then do
    let master ← evalNodes ev env first.nodes s
    let r ← concatLoop ev env (nodes.drop 2) master.1 master.2
    .ok (.list r.1, r.2)
  else if first.tag = "NAME" then do
    let val ← get_value s.heap env first.token_to_string
    match val with
    | .list master => do
      let r ← concatLoop ev env (nodes.drop 2) master s
      .ok (.list r.1, r.2)
    | .string result => do
      let r ← stringLoop ev env (nodes.drop 2) result s
      .ok (.string r.1, r.2)
    | _ => eval_arith ev sign first (nodes.drop 2) env s
  else eval_arith ev sign first (nodes.drop 2) env s

/-- The loop of lines 276-289: `*` and `/` on `long`. -/
def termLoop (ev : Eval) (env : Addr) : List Ast → Int → State → Except Err (Int × State)
  | [], val, s => .ok (val, s)
  | [_], _, _ => .error .undefined_behaviour
  | op :: next :: rest, val, s => do
    let oper := firstChar op.token_to_string
    let r ← ev next env s
    let rval ← r.1.get_long
    if oper = '*' then termLoop ev env rest (wrap64 (val * rval)) r.2
    else if oper = '/' then
      if rval = 0 then .error (.runtime_error "Divide by zero")
      else termLoop ev env rest (wrap64 (Int.tdiv val rval)) r.2
    else termLoop ev env rest val r.2

/-- Embeds `eval_term`. -/
def eval_term (ev : Eval) (ast : Ast) (env : Addr) (s : State) : Except Err (Value × State) := do
  let v ← ev (← nodeAt ast.nodes 0) env s
  let val ← v.1.get_long
  let r ← termLoop ev env (ast.nodes.drop 1) val v.2
  .ok (.long r.1, r.2)

/-- Embeds `declare_function`. -/
def declare_function (ast : Ast) (env : Addr) (s : State) : Except Err (Value × State) := do
  let name := (← nodeAt ast.nodes 0).token_to_string
  .ok (.nullptr, { s with heap := set_value s.heap env name (.function (.closure ast env)) })

/-- Embeds `declare_list`. -/
def declare_list (ev : Eval) (ast : Ast) (env : Addr) (s : State) : Except Err (Value × State) := do
  let name := (← nodeAt ast.nodes 0).token_to_string
  if ast.nodes.length > 1 then do
    let temp ← evalNodes ev env (ast.nodes.drop 1) s
    .ok (.nullptr, { temp.2 with heap := set_value temp.2.heap env name (.list temp.1) })
  else
    .ok (.nullptr, { s with heap := set_value s.heap env name (.list [.nullptr]) })

/-- Lines 340-347 and 381-388: the endpoints of a splice, `-1` when absent. -/
def spliceEnds (ev : Eval) (env : Addr) : List Ast → Int → Int → State → Except Err ((Int × Int) × State)
  | [], l, r, s => .ok ((l, r), s)
  | k :: ks, l, r, s =>
    if k.tag = "leftSp" then do
      let v ← ev k env s
      spliceEnds ev env ks (← v.1.get_long) r v.2
    else if k.tag = "rightSp" then do
      let v ← ev k env s
      spliceEnds ev env ks l (← v.1.get_long) v.2
    else spliceEnds ev env ks l r s

/-- Lines 348-357 and 389-398: the span a splice stands for. -/
def spliceRange (l r : Int) (size : Nat) : Int × Int :=
  if l ≠ -1 ∧ r = -1 then (l, size)
  else if l = -1 ∧ r ≠ -1 then (0, r)
  else if l ≠ -1 ∧ r ≠ -1 then (l, r)
  else (0, size)

/-- Lines 360-361: `for(int i = l; i < r; i ++) t.push_back(vList[i])`, with
`count` iterations left. -/
def sliceLoop (vList : List Value) (r : Int) : Nat → Int → List Value →
    Except Err (List Value)
  | 0, _, t => .ok t
  | count + 1, i, t =>
    if i < r then
      if 0 ≤ i then do
        let x ← nodeAt vList i.toNat
        sliceLoop vList r count (i + 1) (t ++ [x])
      else .error .undefined_behaviour
    else .ok t

/-- Embeds `access_list`. -/
def access_list (ev : Eval) (ast : Ast) (env : Addr) (s : State) : Except Err (Value × State) := do
  let name := (← nodeAt ast.nodes 0).token_to_string
  let vList ← (← get_value s.heap env name).get_List
  let sub ← nodeAt ast.nodes 1
  if sub.tag = "list_splice" then do
    let ends ← spliceEnds ev env sub.nodes (-1) (-1) s
    let range := spliceRange ends.1.1 ends.1.2 vList.length
    let i := wrap32 range.1
    let t ← sliceLoop vList range.2 (range.2 - i).toNat i []
    .ok (.list t, ends.2)
  else do
    let v ← ev sub env s
    let index ← v.1.get_long
    if index < 0 ∨ index ≥ vList.length then .error (.runtime_error "Accessing invalid element")
    else do
      let x ← nodeAt vList index.toNat
      .ok (x, v.2)

/-- Lines 400-402: `for(int i = l, j = 0; i < r; i ++, j++) v[i] = fromList[j]`,
with `count` iterations left. -/
def spliceLoop (fromList : List Value) (r : Int) : Nat → Int → Nat → List Value →
    Except Err (List Value)
  | 0, _, _, v => .ok v
  | count + 1, i, j, v =>
    if i < r then
      if 0 ≤ i ∧ i.toNat < v.length then do
        let x ← nodeAt fromList j
        spliceLoop fromList r count (i + 1) (j + 1) (v.set i.toNat x)
      else .error .undefined_behaviour
    else .ok v

/-- Embeds `list_assign`. -/
def list_assign (ev : Eval) (ast : Ast) (env : Addr) (s : State) : Except Err (Value × State) := do
  let name := (← nodeAt ast.nodes 0).token_to_string
  let v ← (← get_value s.heap env name).get_List
  let sub ← nodeAt ast.nodes 1
  if sub.tag = "list_splice" then do
    let ends ← spliceEnds ev env sub.nodes (-1) (-1) s
    let range := spliceRange ends.1.1 ends.1.2 v.length
    let rhs ← ev (← nodeAt ast.nodes 2) env ends.2
    let fromList ← rhs.1.get_List
    let i := wrap32 range.1
    let v ← spliceLoop fromList range.2 (range.2 - i).toNat i 0 v
    .ok (.nullptr, { rhs.2 with heap := set_value rhs.2.heap env name (.list v) })
  else do
    let upper := (v.filter (fun x => x.index ≠ 0)).length
    let iv ← ev sub env s
    let index ← iv.1.get_long
    if index < 0 ∨ index ≥ upper then
      .error (.runtime_error "IndexError: list assignment index out of range")
    else do
      let rhs ← ev (← nodeAt ast.nodes 2) env iv.2
      .ok (.nullptr,
        { rhs.2 with heap := set_value rhs.2.heap env name (.list (v.set index.toNat rhs.1)) })

/-- The comparator `switch` of `eval_if` and `eval_while`; `none` is its
`default:` branch. -/
def compare (oper : String) (lhs rhs : Int) : Option Bool :=
  if oper = "==" then some (decide (lhs = rhs))
  else if oper = "<" then some (decide (lhs < rhs))
  else if oper = "<=" then some (decide (lhs ≤ rhs))
  else if oper = ">" then some (decide (lhs > rhs))
  else if oper = ">=" then some (decide (lhs ≥ rhs))
  else if oper = "!=" then some (decide (lhs ≠ rhs))
  else none

/-- The `while(done == false)` loop of `eval_while`, with `count` iterations
left. In the `default:` branch the `std::runtime_error` is constructed and
dropped, `done` stays `false` and the loop goes on. -/
def whileLoop (ev : Eval) (ifNode : List Ast) (oper : String) (block : Ast) (env : Addr) :
    Nat → State → Except Err (Value × State)
  | 0, _ => .error .out_of_fuel
  | count + 1, s => do
    let lv ← ev (← nodeAt ifNode 0) env s
    let lhs ← lv.1.get_long
    let rv ← ev (← nodeAt ifNode 2) env lv.2
    let rhs ← rv.1.get_long
    match compare oper lhs rhs with
    | some true => do
      let b ← ev block env rv.2
      whileLoop ev ifNode oper block env count b.2
    | some false => .ok (.nullptr, rv.2)
    | none => whileLoop ev ifNode oper block env count rv.2

/-- Embeds `eval_while`. -/
def eval_while (ev : Eval) (count : Nat) (ast : Ast) (env : Addr) (s : State) : Except Err (Value × State) := do
  let ifNode := (← nodeAt ast.nodes 0).nodes
  let oper := (← nodeAt ifNode 1).token_to_string
  let block ← nodeAt ast.nodes 1
  whileLoop ev ifNode oper block env count s

/-- Embeds `eval_if`. -/
def eval_if (ev : Eval) (ast : Ast) (env : Addr) (s : State) : Except Err (Value × State) := do
  let ifNode := (← nodeAt ast.nodes 0).nodes
  let lv ← ev (← nodeAt ifNode 0) env s
  let lhs ← lv.1.get_long
  let oper := (← nodeAt ifNode 1).token_to_string
  let rv ← ev (← nodeAt ifNode 2) env lv.2
  let rhs ← rv.1.get_long
  match compare oper lhs rhs with
  | some true => ev (← nodeAt ast.nodes 1) env rv.2
  | some false =>
    if ast.nodes.length > 2 then ev (← nodeAt ast.nodes 2) env rv.2
    else .ok (.nullptr, rv.2)
  | none => .ok (.nullptr, rv.2)

/-- The `switch (ast->tag)` of `eval`, with `ev` for the nested calls of
`eval` and `count` bounding the iterations of a `while` loop. -/
def evalNode (ev : Eval) (count : Nat) (ast : Ast) (env : Addr) (s : State) : Except Err (Value × State) :=
  if ast.tag = "program" ∨ ast.tag = "block" then eval_block ev env ast.nodes s
  else if ast.tag = "expression" then eval_expr ev ast env s
  else if ast.tag = "term" then eval_term ev ast env s
  else if ast.tag = "NAME" then do
    .ok (← get_value s.heap env ast.token_to_string, s)
  else if ast.tag = "STRING" then .ok (.string ast.token_to_string, s)
  else if ast.tag = "NUMBER" then .ok (.long ast.token_to_number, s)
  else if ast.tag = "function" then declare_function ast env s
  else if ast.tag = "call" then eval_call ev ast env s
  else if ast.tag = "assignment" then eval_assign ev ast env s
  else if ast.tag = "list_assign" then list_assign ev ast env s
  else if ast.tag = "list_create" then declare_list ev ast env s
  else if ast.tag = "list_value" then access_list ev ast env s
  else if ast.tag = "if" then eval_if ev ast env s
  else if ast.tag = "while" then eval_while ev count ast env s
  else
    match ast.nodes with
    | first :: _ => ev first env s
    | [] => .ok (.nullptr, s)

/-- Embeds `eval`, with `fuel` bounding the depth of nested calls of `eval` and the
iterations of each `while` loop. -/
def eval : Nat → Eval
  | 0 => fun _ _ _ => .error .out_of_fuel
  | fuel + 1 => evalNode (eval fuel) fuel

/-- The global environment of `interpret`, holding `print` and `len`. -/
def globalHeap : List Env :=
  set_value (set_value [{ outer := none, values := fun _ => none }] 0 "print"
    (.function .print)) 0 "len" (.function .len)

/-- Embeds `interpret`: evaluates `ast` in the global environment and returns what
was written to `os`. -/
def interpret (fuel : Nat) (ast : Ast) (os : String) : Except Err String := do
  let r ← eval fuel ast 0 { heap := globalHeap, os := os }
  .ok r.2.os

/-- A token node, as the parser builds it for `NAME`, `NUMBER`, `sign`, ... -/
def leaf (tag token : String) : Ast := .mk tag token []

/-- A node with children and no token. -/
def node (tag : String) (nodes : List Ast) : Ast := .mk tag "" nodes

/-- Every parent pointer refers to an older object (`outer` is set once, by the
constructor, to an `Env` that already exists). -/
def HeapOk (heap : List Env) : Prop :=
  ∀ (a : Nat) (e : Env) (p : Nat), heap[a]? = some e → e.outer = some p → p < a

/-- The scope chain from the object at `env`: that object, then its parent, and
so on up to the object without parent. -/
inductive Chain (heap : List Env) : Nat → List Env → Prop where
  | last (env : Nat) (e : Env) (h : heap[env]? = some e) (hp : e.outer = none) :
      Chain heap env [e]
  | link (env outer : Nat) (e : Env) (es : List Env) (h : heap[env]? = some e)
      (hp : e.outer = some outer) (rest : Chain heap outer es) : Chain heap env (e :: es)

/-- The binding of `s` in the nearest scope of a chain that binds it. -/
def nearestBinding (scopes : List Env) (s : String) : Option Value :=
  scopes.findSome? (fun e => e.values s)

/-- A `Value` a `long` can hold. -/
def inLongRange (l : Int) : Prop := -9223372036854775808 ≤ l ∧ l < 9223372036854775808

/-- A global scope that binds `x` to 1 and `y` to 2. -/
def demoGlobal : Env :=
  { outer := none
    values := fun k =>
      if k = "x" then some (.long 1) else if k = "y" then some (.long 2) else none }

/-- A scope with parent 0 that binds `x` to 7. -/
def demoChild : Env :=
  { outer := some 0
    values := fun k => if k = "x" then some (.long 7) else none }

/-- The two scopes, the global one at address 0. -/
def demoHeap : List Env := [demoGlobal, demoChild]

/-- The state of a program whose only scope is `demoGlobal`. -/
def demoState : State := { heap := [demoGlobal], os := "" }

/-- The tree of `def f(a):` with the body `x = a`, `y = []`, `return x`. -/
def shadowFunction : Ast :=
  node "function" [leaf "NAME" "f", leaf "NAME" "a", node "block" [
    node "assignment" [leaf "NAME" "x", node "expression" [leaf "sign" "", leaf "NAME" "a"]],
    node "list_create" [leaf "NAME" "y"],
    node "return_stmt" [node "expression" [leaf "sign" "", leaf "NAME" "x"]]]]

/-- What the call `f(5)` of `shadowFunction` declared in scope 0 of
`demoState` returns: the value 5 and a new scope 1 holding `a`, `x`, `y`. -/
def shadowResult : Value × State :=
  (.long 5,
    { heap := set_value (set_value (set_value
        ([demoGlobal] ++ [{ outer := some 0, values := fun _ => none }]) 1 "a" (.long 5))
        1 "x" (.long 5)) 1 "y" (.list [.nullptr])
      os := "" })

/-- The tree of `x = <number>`. -/
def assignNumber (x number : String) : Ast :=
  node "assignment" [leaf "NAME" x, node "expression" [leaf "sign" "", leaf "NUMBER" number]]

/-- The tree of the call `f()`. -/
def callF : Ast := node "call" [leaf "NAME" "f"]

/-- The state `interpret` starts from. -/
def initialState : State := { heap := globalHeap, os := "" }

/-- The statements `a = []`, `print(a)`. -/
def printEmptyListProgram : Ast :=
  node "program" [node "list_create" [leaf "NAME" "a"],
    node "call" [leaf "NAME" "print", leaf "NAME" "a"]]

/-- The statements `a = [1]`, `print(a[0:0])`. -/
def printEmptySliceProgram : Ast :=
  node "program" [
    node "list_create" [leaf "NAME" "a", node "expression" [leaf "sign" "", leaf "NUMBER" "1"]],
    node "call" [leaf "NAME" "print", node "list_value" [leaf "NAME" "a",
      node "list_splice" [
        node "leftSp" [node "expression" [leaf "sign" "", leaf "NUMBER" "0"]],
        node "rightSp" [node "expression" [leaf "sign" "", leaf "NUMBER" "0"]]]]]]

/-- The statements `a = []`, `print(len(a))`. -/
def printLenEmptyProgram : Ast :=
  node "program" [node "list_create" [leaf "NAME" "a"],
    node "call" [leaf "NAME" "print", node "call" [leaf "NAME" "len", leaf "NAME" "a"]]]

/-- The tree of the index access `a[sub]`. -/
def indexAccess (a : String) (sub : Ast) : Ast := node "list_value" [leaf "NAME" a, sub]

/-- A state with one scope, in which `a` is bound to the list `[1]`. -/
def oneElementState : State :=
  { heap := [{ outer := none
               values := fun k => if k = "a" then some (.list [.long 1]) else none }]
    os := "" }

/-- The tree of the expression that is the number `number`. -/
def numberExpr (number : String) : Ast :=
  node "expression" [leaf "sign" "", leaf "NUMBER" number]

/-- A state with one scope, in which `a` is bound to the list `[1, 2, 3]`. -/
def threeElementState : State :=
  { heap := [{ outer := none
               values := fun k =>
                 if k = "a" then some (.list [.long 1, .long 2, .long 3]) else none }]
    os := "" }

/-- The tree of the slice access `a[...]` with the endpoint nodes `ends`
(a `leftSp`, a `rightSp`, both or none). -/
def sliceAccess (a : String) (ends : List Ast) : Ast :=
  node "list_value" [leaf "NAME" a, node "list_splice" ends]

/-- The tree of a left endpoint that is the number `number`. -/
def leftNumber (number : String) : Ast := node "leftSp" [numberExpr number]

/-- The tree of a right endpoint that is the number `number`. -/
def rightNumber (number : String) : Ast := node "rightSp" [numberExpr number]

/-- The tree of the expression `x + y` with the operand node `y`. -/
def plusExpr (x : String) (y : Ast) : Ast :=
  node "expression" [leaf "sign" "", leaf "NAME" x, leaf "term_op" "+", y]

/-- The statements `a = [1]`, `b = []`, `c = a + b`, `d = b + [5]`. -/
def concatProgram : Ast :=
  node "program" [node "list_create" [leaf "NAME" "a", numberExpr "1"],
    node "list_create" [leaf "NAME" "b"],
    node "assignment" [leaf "NAME" "c", plusExpr "a" (leaf "NAME" "b")],
    node "assignment" [leaf "NAME" "d", plusExpr "b" (node "raw_list" [numberExpr "5"])]]

/-- A state with one scope, in which `a` is bound to `[1, 2]` and `b` to
`[None, 3]`. -/
def twoListsState : State :=
  { heap := [{ outer := none
               values := fun k =>
                 if k = "a" then some (.list [.long 1, .long 2])
                 else if k = "b" then some (.list [.nullptr, .long 3]) else none }]
    os := "" }

/-- Spec-side reading of "the operands all evaluate to Int": evaluates the operand
after each operator of `rest` in order, threading the state, and pairs its value
with the first character of the operator. -/
def operandValues (ev : Eval) (env : Addr) :
    List Ast → State → Except Err (List (Char × Int) × State)
  | [], s => .ok ([], s)
  | [_], _ => .error .undefined_behaviour
  | op :: next :: rest, s => do
    let r ← ev next env s
    let rval ← r.1.get_long
    let rs ← operandValues ev env rest r.2
    .ok ((firstChar op.token_to_string, rval) :: rs.1, rs.2)

/-- Spec-side: some `/` of the operator list has the right operand 0. -/
def dividesByZero (ops : List (Char × Int)) : Bool :=
  ops.any (fun p => p.1 = '/' ∧ p.2 = 0)

/-- Spec-side fold of `*` and `/` from left to right over `long` values. -/
def termFold : Int → List (Char × Int) → Int
  | val, [] => val
  | val, (oper, rval) :: ops =>
    termFold (if oper = '*' then wrap64 (val * rval)
      else if oper = '/' then wrap64 (Int.tdiv val rval) else val) ops

/-- The statement `return` of the number `number`. -/
def returnNumber (number : String) : Ast := node "return_stmt" [numberExpr number]

instance inLongRange.instDecidable (l : Int) : Decidable (inLongRange l) :=
  inferInstanceAs (Decidable (_ ∧ _))

/-- Spec-side: one step of the fold of `+` and `-` over the integers. -/
def sumStep (oper : Char) (val rval : Int) : Int :=
  if oper = '+' then val + rval else if oper = '-' then val - rval else val

/-- Spec-side fold of `+` and `-` from left to right over the integers. -/
def sumExact : Int → List (Char × Int) → Int
  | val, [] => val
  | val, p :: ops => sumExact (sumStep p.1 val p.2) ops

/-- Spec-side: `val` and every intermediate result of the fold of `+` and `-`
lie in the range of a signed 64-bit integer. -/
def sumInRange : Int → List (Char × Int) → Prop
  | val, [] => inLongRange val
  | val, p :: ops => inLongRange val ∧ sumInRange (sumStep p.1 val p.2) ops

instance sumInRange.instDecidable :
    (val : Int) → (ops : List (Char × Int)) → Decidable (sumInRange val ops)
  | val, [] => inferInstanceAs (Decidable (inLongRange val))
  | val, p :: ops =>
    @instDecidableAnd _ _ _ (sumInRange.instDecidable (sumStep p.1 val p.2) ops)

/-- Spec-side: one step of the fold of `*` and the integer division that
truncates toward zero. -/
def termStep (oper : Char) (val rval : Int) : Int :=
  if oper = '*' then val * rval else if oper = '/' then Int.tdiv val rval else val

/-- Spec-side fold of `*` and `/` from left to right over the integers. -/
def termExact : Int → List (Char × Int) → Int
  | val, [] => val
  | val, p :: ops => termExact (termStep p.1 val p.2) ops

/-- Spec-side: `val` and every intermediate result of the fold of `*` and `/`
lie in the range of a signed 64-bit integer. -/
def termInRange : Int → List (Char × Int) → Prop
  | val, [] => inLongRange val
  | val, p :: ops => inLongRange val ∧ termInRange (termStep p.1 val p.2) ops

instance termInRange.instDecidable :
    (val : Int) → (ops : List (Char × Int)) → Decidable (termInRange val ops)
  | val, [] => inferInstanceAs (Decidable (inLongRange val))
  | val, p :: ops =>
    @instDecidableAnd _ _ _ (termInRange.instDecidable (termStep p.1 val p.2) ops)

/-- Embeds `sign_val` of `eval_expr` (line 256). -/
def signValue (sign : String) : Int := if sign = "" ∨ sign = "+" then 1 else -1

/-- The statements `def f(): return 3`, `x = -f()`, `a = [5]`, `y = -a[0]`. -/
def negatedCallProgram : Ast :=
  node "program" [node "function" [leaf "NAME" "f", node "block" [returnNumber "3"]],
    node "assignment" [leaf "NAME" "x",
      node "expression" [leaf "sign" "-", node "call" [leaf "NAME" "f"]]],
    node "list_create" [leaf "NAME" "a", numberExpr "5"],
    node "assignment" [leaf "NAME" "y",
      node "expression" [leaf "sign" "-", indexAccess "a" (leaf "NUMBER" "0")]]]

/-- The tree of `2 + 3 * 4`. -/
def twoPlusThreeTimesFour : Ast :=
  node "expression" [leaf "sign" "", leaf "NUMBER" "2", leaf "term_op" "+",
    node "term" [leaf "NUMBER" "3", leaf "factor_op" "*", leaf "NUMBER" "4"]]

/-- The tree of `-2 + 3`. -/
def minusTwoPlusThree : Ast :=
  node "expression" [leaf "sign" "-", leaf "NUMBER" "2", leaf "term_op" "+",
    leaf "NUMBER" "3"]

/-! ## The grammar of `minipython.cpp` -/

/-- The rules of the grammar string of `main`, `if_` and `while_` standing for
the rules `if` and `while`, `spaces` for `_`, `wordEnd` for `__`, and
`compare_prefix_op`, `compare_infix_op` for the two operator rules of
`compare`. -/
inductive Rule where
  | program | indent_block | block | function | stmt | statement | list_expr
  | list_assign | list_create | assignment | call | if_ | compare | compare_prefix_op
  | compare_infix_op | while_ | return_stmt | expression | sign | term_op | term
  | factor_op | factor | VALUE | raw_list | list_value | list_op | list_splice
  | leftSp | rightSp | keyword | STRING | NAME | NUMBER | Samedent | Comment | NEWLINE
  | spaces | wordEnd | EOF
  deriving DecidableEq, Repr

/-- Modelled from the spec: the parsing expressions a PEG grammar is written in
(section 4.2; the parser library `peglib.h` is not part of the sources at hand):
literal, character class (ranges, possibly negated), any character, sequence,
ordered choice, `*`, `+`, `?`, the not-predicate `!` and the reference to a
rule. Token boundaries `< >` and the `~` and `no_ast_opt` marks decide what the
tree keeps and not what is matched, so they have no counterpart here. -/
inductive Peg where
  | lit (text : String)
  | cls (ranges : List (Char × Char)) (negated : Bool)
  | dot
  | seq (items : List Peg)
  | choice (alternatives : List Peg)
  | star (e : Peg)
  | plus (e : Peg)
  | opt (e : Peg)
  | notP (e : Peg)
  | ref (r : Rule)

/-- Embeds the macro rule `Args(x) <- x _ (',' _ x)*`. -/
def Args (x : Peg) : Peg :=
  .seq [x, .ref .spaces, .star (.seq [.lit ",", .ref .spaces, x])]

/-- A class of single characters, as `[-+]`. -/
def oneOf (cs : List Char) : Peg := .cls (cs.map (fun c => (c, c))) false

/-- Embeds `VALUE compare_infix ' '* VALUE` of the rule `compare`. -/
def infixCompare : Peg :=
  .seq [.ref .VALUE, .ref .compare_infix_op, .star (.lit " "), .ref .VALUE]

/-- Embeds the grammar string of `main` (lines 27-80 of `minipython.cpp`), rule
by rule. -/
def grammar : Rule → Peg
  | .program => .seq [.plus (.choice [.ref .NEWLINE, .ref .Comment, .ref .function,
      .ref .stmt, .ref .indent_block]), .ref .EOF]
  | .indent_block => .seq [.star (.ref .NEWLINE), .ref .spaces, .lit "\x7b", .ref .block,
      .star (.ref .NEWLINE), .ref .spaces, .lit "\x7d", .star (.ref .NEWLINE)]
  | .block => .plus (.choice [.ref .indent_block, .ref .statement])
  | .function => .seq [.lit "def", .ref .wordEnd, .ref .NAME, .ref .wordEnd, .lit "(",
      .ref .spaces, .opt (Args (.ref .NAME)), .lit ")", .ref .wordEnd, .lit ":",
      .ref .indent_block]
  | .stmt => .seq [.choice [.ref .while_, .ref .if_, .ref .Comment, .ref .list_expr,
      .ref .assignment, .ref .call], .opt (.lit ";")]
  | .statement => .seq [.opt (.ref .NEWLINE), .ref .Samedent,
      .choice [.ref .while_, .ref .if_, .ref .NEWLINE, .ref .Comment, .ref .list_expr,
        .ref .assignment, .ref .call, .ref .return_stmt], .opt (.lit ";")]
  | .list_expr => .choice [.ref .list_assign, .ref .list_create]
  | .list_assign => .seq [.ref .NAME, .lit "[", .ref .spaces,
      .choice [.ref .list_op, .ref .expression], .ref .spaces, .lit "]", .ref .spaces,
      .lit "=", .ref .spaces, .ref .expression]
  | .list_create => .seq [.ref .NAME, .lit "=", .ref .spaces, .lit "[", .ref .spaces,
      .opt (Args (.ref .expression)), .lit "]", .ref .spaces, .notP (.ref .term_op)]
  | .assignment => .seq [.ref .NAME, .lit "=", .ref .spaces, .ref .expression]
  | .call => .seq [.ref .NAME, .lit "(", .ref .spaces,
      .opt (Args (.choice [.ref .call, .ref .VALUE, .ref .expression])), .lit ")",
      .ref .spaces]
  | .if_ => .seq [.lit "if", .ref .wordEnd, .ref .compare, .lit ":", .ref .spaces,
      .ref .indent_block, .ref .spaces,
      .opt (.seq [.lit "else", .lit ":", .ref .indent_block])]
  | .compare => .choice [.seq [.ref .compare_prefix_op, .ref .VALUE], infixCompare,
      .seq [.lit "(", infixCompare, .lit ")"]]
  | .compare_prefix_op => .lit "not"
  | .compare_infix_op => .choice [.lit "==", .lit "<=", .lit ">=", .lit "<", .lit ">",
      .lit "and", .lit "or"]
  | .while_ => .seq [.lit "while", .ref .wordEnd, .lit "(", .ref .spaces, .ref .compare,
      .ref .spaces, .lit ")", .ref .spaces, .lit ":", .ref .indent_block]
  | .return_stmt => .seq [.lit "return", .ref .spaces, .ref .expression]
  | .expression => .seq [.ref .sign, .ref .term, .star (.seq [.ref .term_op, .ref .term])]
  | .sign => .seq [.opt (oneOf ['-', '+']), .ref .spaces]
  | .term_op => .seq [oneOf ['-', '+'], .ref .spaces]
  | .term => .seq [.ref .factor, .star (.seq [.ref .factor_op, .ref .factor])]
  | .factor_op => .seq [oneOf ['*', '/'], .ref .spaces]
  | .factor => .choice [.ref .VALUE,
      .seq [.lit "(", .ref .spaces, .ref .expression, .lit ")", .ref .spaces]]
  | .VALUE => .choice [.ref .raw_list, .ref .list_value, .ref .call, .ref .STRING,
      .ref .NAME, .ref .NUMBER]
  | .raw_list => .seq [.ref .spaces, .lit "[", .ref .spaces,
      .opt (Args (.choice [.ref .expression, .ref .VALUE])), .lit "]", .ref .spaces]
  | .list_value => .seq [.ref .NAME, .lit "[", .ref .spaces,
      .choice [.lit ":", .ref .list_op], .lit "]", .ref .spaces]
  | .list_op => .choice [.ref .list_splice, .ref .NUMBER, .ref .NAME]
  | .list_splice => .seq [.opt (.ref .leftSp), .lit ":", .opt (.ref .rightSp)]
  | .leftSp => .ref .expression
  | .rightSp => .ref .expression
  | .keyword => .choice [.lit "while", .lit "if", .lit "def"]
  | .STRING => .seq [.lit "\"", .star (.seq [.notP (.lit "\""), .dot]), .lit "\""]
  | .NAME => .seq [.notP (.ref .keyword), .cls [('a', 'z'), ('A', 'Z')] false,
      .star (.cls [('a', 'z'), ('A', 'Z'), ('0', '9')] false), .ref .spaces]
  | .NUMBER => .seq [.plus (.cls [('0', '9')] false), .ref .spaces]
  | .Samedent => .star (.lit " ")
  | .Comment => .seq [.lit "#", .star (.cls [('\r', '\r'), ('\n', '\n')] true), .ref .spaces]
  | .NEWLINE => .plus (oneOf ['\r', '\n'])
  | .spaces => .star (oneOf [' ', '\t'])
  | .wordEnd => .seq [.notP (.cls [('a', 'z'), ('0', '9'), ('_', '_')] false), .ref .spaces]
  | .EOF => .notP .dot

/-- Outcome of matching a parsing expression at a position: failure, or success
with the input that is left; `out_of_fuel` when the recursion budget ran out. -/
inductive PegResult where
  | out_of_fuel
  | fail
  | ok (rest : List Char)
  deriving DecidableEq, Repr

/-- Strips the literal `text` off the front of `input`. -/
def stripLit : List Char → List Char → Option (List Char)
  | [], input => some input
  | _ :: _, [] => none
  | c :: cs, d :: ds => if c = d then stripLit cs ds else none

/-- Membership of a character in one of the ranges of a class. -/
def inRanges (ranges : List (Char × Char)) (c : Char) : Bool :=
  ranges.any (fun r => decide (r.1.toNat ≤ c.toNat) && decide (c.toNat ≤ r.2.toNat))

/-- Modelled from the spec: matching of a parsing expression against the input,
by the semantics of parsing expression grammars the source cites (Ford): a
sequence matches its items one after the other; an ordered choice takes the first
alternative that matches and never comes back to a later one; `*`, `+` and `?`
are greedy; `!e` matches without consuming when `e` fails. `fuel` bounds the
depth of the recursion. -/
def pegMatch (g : Rule → Peg) : Nat → Peg → List Char → PegResult
  | 0, _, _ => .out_of_fuel
  | _ + 1, .lit text, input =>
    match stripLit text.data input with
    | some rest => .ok rest
    | none => .fail
  | _ + 1, .cls ranges negated, input =>
    match input with
    | c :: rest => if inRanges ranges c = negated then .fail else .ok rest
    | [] => .fail
  | _ + 1, .dot, input =>
    match input with
    | _ :: rest => .ok rest
    | [] => .fail
  | _ + 1, .seq [], input => .ok input
  | fuel + 1, .seq (a :: items), input =>
    match pegMatch g fuel a input with
    | .ok rest => pegMatch g fuel (.seq items) rest
    | .fail => .fail
    | .out_of_fuel => .out_of_fuel
  | _ + 1, .choice [], _ => .fail
  | fuel + 1, .choice (a :: alternatives), input =>
    match pegMatch g fuel a input with
    | .ok rest => .ok rest
    | .fail => pegMatch g fuel (.choice alternatives) input
    | .out_of_fuel => .out_of_fuel
  | fuel + 1, .star a, input =>
    match pegMatch g fuel a input with
    | .ok rest => pegMatch g fuel (.star a) rest
    | .fail => .ok input
    | .out_of_fuel => .out_of_fuel
  | fuel + 1, .plus a, input =>
    match pegMatch g fuel a input with
    | .ok rest => pegMatch g fuel (.star a) rest
    | .fail => .fail
    | .out_of_fuel => .out_of_fuel
  | fuel + 1, .opt a, input =>
    match pegMatch g fuel a input with
    | .ok rest => .ok rest
    | .fail => .ok input
    | .out_of_fuel => .out_of_fuel
  | fuel + 1, .notP a, input =>
    match pegMatch g fuel a input with
    | .ok _ => .fail
    | .fail => .ok input
    | .out_of_fuel => .out_of_fuel
  | fuel + 1, .ref r, input => pegMatch g fuel (g r) input

/-- Embeds `parser.parse(source, ast)` as far as acceptance goes: the rule
`program` matched against the whole of `source`. -/
def parse (fuel : Nat) (source : String) : PegResult :=
  pegMatch grammar fuel (.ref .program) source.data

/-- The source text of the Fibonacci scenario. -/
def fibSource : String :=
  "def f(n):\n    if n <= 1:\n        return n\n    return f(n-1) + f(n-2)\nprint(f(10))"

/-- The source text of the `while` scenario. -/
def whileSource : String := "i = 0\nwhile(i < 3):\n    print(i)\n    i = i + 1"

/-- The tree of the call `f(n - k)`, the argument being an expression. -/
def callMinus (k : String) : Ast :=
  node "call" [leaf "NAME" "f",
    node "expression" [leaf "sign" "", leaf "NAME" "n", leaf "term_op" "-", leaf "NUMBER" k]]

/-- The tree of `def f(n):` with the body `if n <= 1: return n` and
`return f(n-1) + f(n-2)`, both arguments read as expressions. -/
def fibFunction : Ast :=
  node "function" [leaf "NAME" "f", leaf "NAME" "n", node "block"
    [node "if" [node "compare" [leaf "NAME" "n", leaf "compare_infix" "<=", leaf "NUMBER" "1"],
        node "block" [node "return_stmt" [node "expression" [leaf "sign" "", leaf "NAME" "n"]]]],
      node "return_stmt" [node "expression"
        [leaf "sign" "", callMinus "1", leaf "term_op" "+", callMinus "2"]]]]

/-- The tree the Fibonacci scenario stands for: `fibFunction` and
`print(f(10))`. -/
def fibProgram : Ast :=
  node "program" [fibFunction,
    node "call" [leaf "NAME" "print", node "call" [leaf "NAME" "f", leaf "NUMBER" "10"]]]

instance exceptDecidableEq {ε α : Type} [DecidableEq ε] [DecidableEq α] :
    DecidableEq (Except ε α)
  | .ok x, .ok y =>
    if h : x = y then isTrue (h ▸ rfl) else isFalse (fun e => h (Except.ok.inj e))
  | .error x, .error y =>
    if h : x = y then isTrue (h ▸ rfl) else isFalse (fun e => h (Except.error.inj e))
  | .ok _, .error _ => isFalse (fun e => Except.noConfusion e)
  | .error _, .ok _ => isFalse (fun e => Except.noConfusion e)

/-- Spec-side: the comparison of a loop or conditional: both operands are
evaluated in order and read as Ints, and the comparator is applied; `none` for
a comparator outside the six the `switch` knows. -/
def evalCompare (ev : Eval) (ifNode : List Ast) (oper : String) (env : Addr) (s : State) :
    Except Err (Option Bool × State) := do
  let lv ← ev (← nodeAt ifNode 0) env s
  let lhs ← lv.1.get_long
  let rv ← ev (← nodeAt ifNode 2) env lv.2
  let rhs ← rv.1.get_long
  .ok (compare oper lhs rhs, rv.2)

/-- Spec-side: `n` rounds of a loop, in each of which the comparison is evaluated
and holds and the body is then evaluated once, its value being dropped; the state
after the last round, `none` when some round is not of that kind. -/
def whileRounds (ev : Eval) (ifNode : List Ast) (oper : String) (block : Ast) (env : Addr) :
    Nat → State → Option State
  | 0, s => some s
  | n + 1, s =>
    match evalCompare ev ifNode oper env s with
    | .ok (some true, s1) =>
      match ev block env s1 with
      | .ok b => whileRounds ev ifNode oper block env n b.2
      | .error _ => none
    | _ => none

/-- The tree of `while(lhs op rhs):` with the body `block`. -/
def whileNode (lhs op rhs block : Ast) : Ast :=
  node "while" [node "compare" [lhs, op, rhs], block]

/-- The tree of the assignment `x = x + 1`. -/
def increment (x : String) : Ast :=
  node "assignment" [leaf "NAME" x,
    node "expression" [leaf "sign" "", leaf "NAME" x, leaf "term_op" "+", leaf "NUMBER" "1"]]

/-- The statements `i = 0`, `while(i < 3):` with the body `print(i)`,
`i = i + 1`. -/
def countProgram : Ast :=
  node "program" [assignNumber "i" "0",
    whileNode (leaf "NAME" "i") (leaf "compare_infix" "<") (leaf "NUMBER" "3")
      (node "block" [node "call" [leaf "NAME" "print", leaf "NAME" "i"], increment "i"])]

/-- The statements `def f():` with the body `i = 0`, `while(i < 3):` (body
`i = i + 1`, `return 7`), `return i`; and `x = f()`. -/
def returnInLoopProgram : Ast :=
  node "program" [
    node "function" [leaf "NAME" "f", node "block" [assignNumber "i" "0",
      whileNode (leaf "NAME" "i") (leaf "compare_infix" "<") (leaf "NUMBER" "3")
        (node "block" [increment "i", returnNumber "7"]),
      node "return_stmt" [node "expression" [leaf "sign" "", leaf "NAME" "i"]]]],
    node "assignment" [leaf "NAME" "x", node "expression" [leaf "sign" "", callF]]]

/-- A state with the global scope of `interpret`, in which `i` is bound to the
Int `i`. -/
def loopState (i : Int) : State :=
  { heap := set_value globalHeap 0 "i" (.long i), os := "" }

/-- The Int bound to `x` in the global scope after `ast` was evaluated from
`initialState`, with what was written to the output. -/
def finalLong (fuel : Nat) (ast : Ast) (x : String) : Except Err (Int × String) := do
  let r ← eval fuel ast 0 initialState
  .ok (← (← get_value r.2.heap 0 x).get_long, r.2.os)

/-- The tree of `if lhs op rhs:` with the children `rest` after the comparison
(the block, and the block of `else` when there is one). -/
def ifTree (lhs op rhs : Ast) (rest : List Ast) : Ast :=
  node "if" (node "compare" [lhs, op, rhs] :: rest)

/-- The statements `x = 0`, `if 1 and 1:` with the body `x = 5`. -/
def andProgram : Ast :=
  node "program" [assignNumber "x" "0",
    ifTree (leaf "NUMBER" "1") (leaf "compare_infix" "and") (leaf "NUMBER" "1")
      [node "block" [assignNumber "x" "5"]]]

/-- The tree of the splice assignment `a[...] = rhs` with the endpoint nodes
`ends`. -/
def spliceAssign (a : String) (ends : List Ast) (rhs : Ast) : Ast :=
  node "list_assign" [leaf "NAME" a, node "list_splice" ends, rhs]

/-- The tree of the expression `-1`. -/
def minusOne : Ast := node "expression" [leaf "sign" "-", leaf "NUMBER" "1"]

/-- The tree of the expression that is the list literal of the numbers
`numbers`. -/
def listExpr (numbers : List String) : Ast :=
  node "expression" [leaf "sign" "", node "raw_list" (numbers.map numberExpr)]

/-- The tree of the assignment `x = a[...]` with the endpoint nodes `ends`. -/
def assignSlice (x a : String) (ends : List Ast) : Ast :=
  node "assignment" [leaf "NAME" x, node "expression" [leaf "sign" "", sliceAccess a ends]]

/-- The statements `a = [1,2,3]`, `b = a[-1:2]`, `c = a[1:-1]`, `d = a[-1:-1]`,
`a[-1:2] = [7,8]`. -/
def minusOneProgram : Ast :=
  node "program" [
    node "list_create" [leaf "NAME" "a", numberExpr "1", numberExpr "2", numberExpr "3"],
    assignSlice "b" "a" [node "leftSp" [minusOne], rightNumber "2"],
    assignSlice "c" "a" [leftNumber "1", node "rightSp" [minusOne]],
    assignSlice "d" "a" [node "leftSp" [minusOne], node "rightSp" [minusOne]],
    spliceAssign "a" [node "leftSp" [minusOne], rightNumber "2"] (listExpr ["7", "8"])]

/-- The display form of the value bound to `x` in the global scope after `ast`
was evaluated from `initialState`. -/
def finalStr (fuel : Nat) (ast : Ast) (x : String) : Except Err String := do
  let r ← eval fuel ast 0 initialState
  (← get_value r.2.heap 0 x).str

/-- The statements `a = [1,2,3]`, `a[0:2] = [9]`. -/
def spliceShortProgram : Ast :=
  node "program" [
    node "list_create" [leaf "NAME" "a", numberExpr "1", numberExpr "2", numberExpr "3"],
    spliceAssign "a" [leftNumber "0", rightNumber "2"] (listExpr ["9"])]

/-- The statements `a = [1,2,3]`, `a[1:3] = [7,8]`, `b = [1,2,3]`,
`b[0:1] = [7,8]`. -/
def spliceProgram : Ast :=
  node "program" [
    node "list_create" [leaf "NAME" "a", numberExpr "1", numberExpr "2", numberExpr "3"],
    spliceAssign "a" [leftNumber "1", rightNumber "3"] (listExpr ["7", "8"]),
    node "list_create" [leaf "NAME" "b", numberExpr "1", numberExpr "2", numberExpr "3"],
    spliceAssign "b" [leftNumber "0", rightNumber "1"] (listExpr ["7", "8"])]

/-- A well-formed level stack: positive widths above the bottom `0`. -/
def LevelsOk (levels : List Nat) : Prop :=
  ∃ xs : List Nat, levels = xs ++ [0] ∧ ∀ x ∈ xs, 0 < x

/-- What one stretch of output `w` does while the stack goes from `levels`
to `levels1`. -/
def Emits (levels levels1 : List Nat) (w : List Char) : Prop :=
  LevelsOk levels1 ∧ braceDepth (depthOf levels) w = some (depthOf levels1) ∧
    maxNesting (depthOf levels) w = max (depthOf levels) (depthOf levels1) ∧
    w.count '{' = (if levels.length < levels1.length then 1 else 0)

/-- From `s` to `t` no `Env` object is removed and none but the one at `env`
is changed, which keeps its parent. -/
def Frame (env : Addr) (s t : State) : Prop :=
  s.heap.length ≤ t.heap.length ∧
    (∀ a : Nat, a < s.heap.length → a ≠ env → t.heap[a]? = s.heap[a]?) ∧
    ∀ e : Env, s.heap[env]? = some e → ∃ e1 : Env, t.heap[env]? = some e1 ∧ e1.outer = e.outer

/-- A result that, when it is a value, leaves a state framed by `s`. -/
def FrameRes {α : Type} (env : Addr) (s : State) (r : Except Err (α × State)) : Prop :=
  ∀ x : α × State, r = .ok x → Frame env s x.2

/-- Every successful call of `ev` changes no object but the current one. -/
def EvFrame (ev : Eval) : Prop :=
  ∀ (ast : Ast) (env : Addr) (s : State), FrameRes env s (ev ast env s)

/-- From `s` to `t` no `Env` object is removed or changed. -/
def Untouched (s t : State) : Prop :=
  s.heap.length ≤ t.heap.length ∧ ∀ a : Nat, a < s.heap.length → t.heap[a]? = s.heap[a]?

/-! ## Indentation normalizer: helper lemmas -/

theorem skipSpaces_mem (rest : List Char) : ∀ c ∈ (skipSpaces rest).2, c ∈ rest := by
  induction rest with
  | nil => simp [skipSpaces]
  | cons a t ih =>
    intro c hc
    unfold skipSpaces at hc
    split at hc
    · exact List.mem_cons_of_mem _ (ih c hc)
    · exact hc

theorem skipSpaces_length (rest : List Char) : (skipSpaces rest).2.length ≤ rest.length := by
  induction rest with
  | nil => simp [skipSpaces]
  | cons a t ih =>
    unfold skipSpaces
    split
    · simp only [List.length_cons]; omega
    · exact le_refl _

theorem braceDepth_append (a b : List Char) (d : Nat) :
    braceDepth d (a ++ b) = (braceDepth d a).bind (fun e => braceDepth e b) := by
  induction a generalizing d with
  | nil => simp [braceDepth]
  | cons c cs ih =>
    simp only [List.cons_append, braceDepth]
    split
    · exact ih _
    · split
      · split
        · rfl
        · exact ih _
      · exact ih _

theorem maxNesting_ge (w : List Char) (d : Nat) : d ≤ maxNesting d w := by
  induction w generalizing d with
  | nil => simp [maxNesting]
  | cons c cs ih =>
    simp only [maxNesting]
    split
    · exact le_max_left _ _
    · split
      · exact le_max_left _ _
      · exact ih _

theorem maxNesting_append (a b : List Char) (d e : Nat) (h : braceDepth d a = some e) :
    maxNesting d (a ++ b) = max (maxNesting d a) (maxNesting e b) := by
  induction a generalizing d with
  | nil =>
    simp only [braceDepth, Option.some.injEq] at h
    subst h
    simp [maxNesting, maxNesting_ge]
  | cons c cs ih =>
    simp only [braceDepth] at h
    simp only [List.cons_append, maxNesting, List.append_eq]
    split
    · rename_i hc
      simp only [hc, if_true] at h
      rw [ih _ h, max_assoc]
    · rename_i hc
      simp only [hc, if_false] at h
      split
      · rename_i hc2
        simp only [hc2, if_true] at h
        split at h
        · exact absurd h (by simp)
        · rw [ih _ h, max_assoc]
      · rename_i hc2
        simp only [hc2, if_false] at h
        exact ih _ h

theorem maxNesting_le_count (w : List Char) (d : Nat) :
    maxNesting d w ≤ d + w.count '{' := by
  induction w generalizing d with
  | nil => simp [maxNesting]
  | cons c cs ih =>
    simp only [maxNesting]
    split
    · rename_i hc
      subst hc
      have := ih (d + 1)
      simp only [List.count_cons_self]
      omega
    · rename_i hc
      have hcount : (c :: cs).count '{' = cs.count '{' := by
        rw [List.count_cons_of_ne (Ne.symm hc)]
      rw [hcount]
      split
      · have := ih (d - 1)
        omega
      · exact ih d

/-- A text whose running depth never underflows has, in every prefix, no
more closing than opening braces (counted from the start depth `d`), and its
final depth is the difference of the two counts. -/
theorem braceDepth_counts (w : List Char) (d e : Nat) (h : braceDepth d w = some e) :
    e + w.count '}' = d + w.count '{' ∧
      ∀ k : Nat, (w.take k).count '}' ≤ d + (w.take k).count '{' := by
  induction w generalizing d with
  | nil =>
    simp only [braceDepth, Option.some.injEq] at h
    subst h
    simp
  | cons c cs ih =>
    simp only [braceDepth] at h
    by_cases hc : c = '{'
    · simp only [hc, if_true] at h
      obtain ⟨h1, h2⟩ := ih _ h
      subst hc
      have hne : ('{' : Char) ≠ '}' := by decide
      refine ⟨?_, ?_⟩
      · rw [List.count_cons_self, List.count_cons_of_ne hne.symm]
        omega
      · intro k
        cases k with
        | zero => simp
        | succ k =>
          have := h2 k
          rw [List.take_succ_cons, List.count_cons_self, List.count_cons_of_ne hne.symm]
          omega
    · simp only [hc, if_false] at h
      by_cases hc2 : c = '}'
      · simp only [hc2, if_true] at h
        split at h
        · exact absurd h (by simp)
        · rename_i hd
          obtain ⟨h1, h2⟩ := ih _ h
          subst hc2
          have hne : ('}' : Char) ≠ '{' := by decide
          refine ⟨?_, ?_⟩
          · rw [List.count_cons_self, List.count_cons_of_ne hne.symm]
            omega
          · intro k
            cases k with
            | zero => simp
            | succ k =>
              have := h2 k
              rw [List.take_succ_cons, List.count_cons_self, List.count_cons_of_ne hne.symm]
              omega
      · simp only [hc2, if_false] at h
        obtain ⟨h1, h2⟩ := ih _ h
        refine ⟨?_, ?_⟩
        · rw [List.count_cons_of_ne (Ne.symm hc), List.count_cons_of_ne (Ne.symm hc2)]
          exact h1
        · intro k
          cases k with
          | zero => simp
          | succ k =>
            rw [List.take_succ_cons, List.count_cons_of_ne (Ne.symm hc),
              List.count_cons_of_ne (Ne.symm hc2)]
            exact h2 k

theorem levelsOk_init : LevelsOk [0] := ⟨[], rfl, by simp⟩

theorem LevelsOk.ne_nil {levels : List Nat} (h : LevelsOk levels) : levels ≠ [] := by
  obtain ⟨xs, rfl, _⟩ := h
  simp

theorem LevelsOk.push {levels : List Nat} (h : LevelsOk levels) {n : Nat} (hn : 0 < n) :
    LevelsOk (n :: levels) := by
  obtain ⟨xs, rfl, hx⟩ := h
  refine ⟨n :: xs, rfl, ?_⟩
  intro x hxm
  rcases List.mem_cons.1 hxm with h1 | h1
  · omega
  · exact hx x h1

theorem depthOf_cons {levels : List Nat} (h : LevelsOk levels) (n : Nat) :
    depthOf (n :: levels) = depthOf levels + 1 := by
  obtain ⟨xs, rfl, _⟩ := h
  simp [depthOf]

theorem popLevels_spec (n : Nat) (levels : List Nat) (output : List Char)
    (h : LevelsOk levels) :
    ∃ w : List Char, (popLevels n levels output).2 = output ++ w ∧
      LevelsOk (popLevels n levels output).1 ∧
      (popLevels n levels output).1.length ≤ levels.length ∧
      braceDepth (depthOf levels) w = some (depthOf (popLevels n levels output).1) ∧
      maxNesting (depthOf levels) w = depthOf levels ∧ w.count '{' = 0 := by
  induction levels generalizing output with
  | nil => exact absurd rfl h.ne_nil
  | cons l ls ih =>
    unfold popLevels
    split
    · rename_i hnl
      obtain ⟨xs, hxs, hpos⟩ := h
      cases xs with
      | nil =>
        simp only [List.nil_append, List.cons.injEq] at hxs
        omega
      | cons y ys =>
        simp only [List.cons_append, List.cons.injEq] at hxs
        obtain ⟨rfl, rfl⟩ := hxs
        have hok : LevelsOk (ys ++ [0]) :=
          ⟨ys, rfl, fun x hx => hpos x (List.mem_cons_of_mem _ hx)⟩
        obtain ⟨w, h1, h2, h3, h4, h5, h6⟩ := ih (output ++ ['\n', '}']) hok
        refine ⟨'\n' :: '}' :: w, ?_, h2, ?_, ?_, ?_, ?_⟩
        · rw [h1]; simp
        · simp only [List.length_cons]; omega
        · rw [depthOf_cons hok]
          simpa [braceDepth] using h4
        · rw [depthOf_cons hok]
          simp only [maxNesting]
          have e1 : ¬ ('\n' : Char) = '{' := by decide
          have e2 : ¬ ('\n' : Char) = '}' := by decide
          have e3 : ¬ ('}' : Char) = '{' := by decide
          simp only [e1, e2, e3, if_false, if_true, Nat.add_sub_cancel, h5]
          omega
        · have e1 : ('{' : Char) ≠ '\n' := by decide
          have e3 : ('{' : Char) ≠ '}' := by decide
          rw [List.count_cons_of_ne e1, List.count_cons_of_ne e3, h6]
    · exact ⟨[], by simp, h, le_refl _, by simp [braceDepth], by simp [maxNesting],
        by simp⟩

theorem emits_plain (levels : List Nat) (h : LevelsOk levels) (c : Char)
    (h1 : c ≠ '{') (h2 : c ≠ '}') : Emits levels levels [c] := by
  refine ⟨h, ?_, ?_, ?_⟩
  · simp [braceDepth, h1, h2]
  · simp [maxNesting, h1, h2]
  · simp [List.count_cons_of_ne (Ne.symm h1)]

theorem forBody_plain (c : Char) (rest : List Char) (levels : List Nat) (output : List Char)
    (hc : c ≠ '\n') : forBody c rest levels output = (rest, levels, output ++ [c]) := by
  unfold forBody
  rw [if_neg hc]

theorem forBody_blank (rest : List Char) (levels : List Nat) (output : List Char)
    (hnext : rest.head? = some '\n') :
    forBody '\n' rest levels output = (rest, levels, output ++ ['\n']) := by
  unfold forBody
  rw [if_pos rfl, if_neg (not_not.2 hnext)]

theorem forBody_push (rest : List Char) (levels : List Nat) (output : List Char)
    (hnext : rest.head? ≠ some '\n') (hn : (skipSpaces rest).1 > top levels) :
    forBody '\n' rest levels output =
      ((skipSpaces rest).2, (skipSpaces rest).1 :: levels,
        output ++ ['\n', '{', '\n', ' ']) := by
  have hne : ¬ (skipSpaces rest).1 = 0 := by omega
  have hpop : popLevels (skipSpaces rest).1 ((skipSpaces rest).1 :: levels)
      (output ++ ['\n'] ++ ['{', '\n']) =
      ((skipSpaces rest).1 :: levels, output ++ ['\n'] ++ ['{', '\n']) := by
    simp [popLevels]
  unfold forBody
  rw [if_pos rfl, if_pos hnext]
  simp only [if_pos hn, hpop, if_neg hne]
  simp

theorem forBody_pop (rest : List Char) (levels : List Nat) (output : List Char)
    (hnext : rest.head? ≠ some '\n') (hn : ¬ (skipSpaces rest).1 > top levels) :
    forBody '\n' rest levels output =
      ((skipSpaces rest).2, (popLevels (skipSpaces rest).1 levels (output ++ ['\n'])).1,
        (popLevels (skipSpaces rest).1 levels (output ++ ['\n'])).2 ++
          (if (skipSpaces rest).1 = 0 then [] else [' '])) := by
  unfold forBody
  rw [if_pos rfl, if_pos hnext]
  simp only [if_neg hn]
  by_cases hz : (skipSpaces rest).1 = 0
  · simp [hz]
  · simp [hz]

theorem forBody_spec (c : Char) (rest : List Char) (levels : List Nat) (output : List Char)
    (h : LevelsOk levels) (h1 : c ≠ '{') (h2 : c ≠ '}') :
    ∃ w : List Char, (forBody c rest levels output).2.2 = output ++ w ∧
      Emits levels (forBody c rest levels output).2.1 w := by
  by_cases hc : c = '\n'
  · subst hc
    by_cases hnext : rest.head? ≠ some '\n'
    · by_cases hn : (skipSpaces rest).1 > top levels
      · have hpos : 0 < (skipSpaces rest).1 := by omega
        rw [forBody_push rest levels output hnext hn]
        refine ⟨['\n', '{', '\n', ' '], rfl, h.push hpos, ?_, ?_, ?_⟩
        · simp only [depthOf_cons h]
          simp [braceDepth]
        · simp only [depthOf_cons h]
          simp [maxNesting]
        · simp [List.count_cons]
      · rw [forBody_pop rest levels output hnext hn]
        obtain ⟨w, e1, e2, e3, e4, e5, e6⟩ :=
          popLevels_spec (skipSpaces rest).1 levels (output ++ ['\n']) h
        have hlen : ¬ levels.length <
            (popLevels (skipSpaces rest).1 levels (output ++ ['\n'])).1.length := by omega
        have hdl : depthOf (popLevels (skipSpaces rest).1 levels (output ++ ['\n'])).1 ≤
            depthOf levels := by
          simp only [depthOf]; omega
        refine ⟨'\n' :: (w ++ (if (skipSpaces rest).1 = 0 then [] else [' '])),
          by simp only [e1]; simp, e2, ?_, ?_, ?_⟩
        · simp only [braceDepth, show ¬ ('\n' : Char) = '{' by decide,
            show ¬ ('\n' : Char) = '}' by decide, if_false]
          rw [braceDepth_append, e4]
          split <;> simp [braceDepth]
        · simp only [maxNesting, show ¬ ('\n' : Char) = '{' by decide,
            show ¬ ('\n' : Char) = '}' by decide, if_false]
          rw [maxNesting_append _ _ _ _ e4, e5]
          split <;> simp [maxNesting, hdl]
        · simp only [if_neg hlen]
          rw [List.count_cons_of_ne (by decide), List.count_append, e6]
          split <;> simp [List.count_cons]
    · rw [forBody_blank rest levels output (not_not.1 hnext)]
      exact ⟨['\n'], rfl, emits_plain levels h '\n' (by decide) (by decide)⟩
  · rw [forBody_plain c rest levels output hc]
    exact ⟨[c], rfl, emits_plain levels h c h1 h2⟩

theorem forBody_levelsOk (c : Char) (rest : List Char) (levels : List Nat)
    (output : List Char) (h : LevelsOk levels) : LevelsOk (forBody c rest levels output).2.1 := by
  by_cases hc : c = '\n'
  · subst hc
    by_cases hnext : rest.head? ≠ some '\n'
    · by_cases hn : (skipSpaces rest).1 > top levels
      · rw [forBody_push rest levels output hnext hn]
        exact h.push (by omega)
      · rw [forBody_pop rest levels output hnext hn]
        exact (popLevels_spec _ levels _ h).choose_spec.2.1
    · rw [forBody_blank rest levels output (not_not.1 hnext)]
      exact h
  · rw [forBody_plain c rest levels output hc]
    exact h

/-- The level stack of the scan always holds its bottom element `0` below
positive widths, whatever the source: `levels.top()` and `levels.pop()` never
meet an empty stack. -/
theorem pythonCFLLoop_levelsOk (fuel : Nat) (rest : List Char) (levels : List Nat)
    (output : List Char) (h : LevelsOk levels) :
    LevelsOk (pythonCFLLoop fuel rest levels output).1 := by
  induction fuel generalizing rest levels output with
  | zero => simpa [pythonCFLLoop] using h
  | succ f ih =>
    cases rest with
    | nil => simpa [pythonCFLLoop] using h
    | cons c cs =>
      simp only [pythonCFLLoop]
      exact ih _ _ _ (forBody_levelsOk c cs levels output h)

theorem braceDepth_le_maxNesting (w : List Char) (d e : Nat) (h : braceDepth d w = some e) :
    e ≤ maxNesting d w := by
  have := maxNesting_append w [] d e h
  simp only [List.append_nil, maxNesting] at this
  omega

theorem forBody_rest_mem (c : Char) (rest : List Char) (levels : List Nat)
    (output : List Char) : ∀ x ∈ (forBody c rest levels output).1, x ∈ rest := by
  by_cases hc : c = '\n'
  · subst hc
    by_cases hnext : rest.head? ≠ some '\n'
    · by_cases hn : (skipSpaces rest).1 > top levels
      · rw [forBody_push rest levels output hnext hn]
        exact skipSpaces_mem rest
      · rw [forBody_pop rest levels output hnext hn]
        exact skipSpaces_mem rest
    · rw [forBody_blank rest levels output (not_not.1 hnext)]
      exact fun x hx => hx
  · rw [forBody_plain c rest levels output hc]
    exact fun x hx => hx

theorem forBody_rest_length (c : Char) (rest : List Char) (levels : List Nat)
    (output : List Char) : (forBody c rest levels output).1.length ≤ rest.length := by
  by_cases hc : c = '\n'
  · subst hc
    by_cases hnext : rest.head? ≠ some '\n'
    · by_cases hn : (skipSpaces rest).1 > top levels
      · rw [forBody_push rest levels output hnext hn]
        exact skipSpaces_length rest
      · rw [forBody_pop rest levels output hnext hn]
        exact skipSpaces_length rest
    · rw [forBody_blank rest levels output (not_not.1 hnext)]
  · rw [forBody_plain c rest levels output hc]

/-- The loop never needs more iterations than there are characters left. -/
theorem pythonCFLLoop_fuel (fuel : Nat) (rest : List Char) (levels : List Nat)
    (output : List Char) (h : rest.length ≤ fuel) :
    pythonCFLLoop fuel rest levels output =
      pythonCFLLoop rest.length rest levels output := by
  induction fuel using Nat.strong_induction_on generalizing rest levels output with
  | _ fuel ih =>
    cases rest with
    | nil => cases fuel <;> simp [pythonCFLLoop]
    | cons c cs =>
      cases fuel with
      | zero => simp at h
      | succ f =>
        simp only [List.length_cons] at h
        have hlen := forBody_rest_length c cs levels output
        simp only [pythonCFLLoop, List.length_cons]
        rw [ih f (by omega) _ _ _ (by omega), ih cs.length (by omega) _ _ _ hlen]

theorem pythonCFLLoop_spec (fuel : Nat) (rest : List Char) (levels : List Nat)
    (output : List Char) (hrest : ∀ c ∈ rest, c ≠ '{' ∧ c ≠ '}') (h : LevelsOk levels)
    (hd : braceDepth 0 output = some (depthOf levels)) :
    LevelsOk (pythonCFLLoop fuel rest levels output).1 ∧
      braceDepth 0 (pythonCFLLoop fuel rest levels output).2 =
        some (depthOf (pythonCFLLoop fuel rest levels output).1) ∧
      maxNesting 0 (pythonCFLLoop fuel rest levels output).2 =
        ((levelHistory fuel rest levels output).map depthOf).foldl max
          (maxNesting 0 output) ∧
      (pythonCFLLoop fuel rest levels output).2.count '{' =
        output.count '{' + opened levels (levelHistory fuel rest levels output) := by
  induction fuel generalizing rest levels output with
  | zero => simp [pythonCFLLoop, levelHistory, opened, h, hd]
  | succ f ih =>
    cases rest with
    | nil => simp [pythonCFLLoop, levelHistory, opened, h, hd]
    | cons c cs =>
      have hc := hrest c (List.mem_cons_self _ _)
      obtain ⟨w, e1, e2, e3, e4, e5⟩ := forBody_spec c cs levels output h hc.1 hc.2
      have hrest2 : ∀ x ∈ (forBody c cs levels output).1, x ≠ '{' ∧ x ≠ '}' :=
        fun x hx => hrest x (List.mem_cons_of_mem _ (forBody_rest_mem c cs levels output x hx))
      have hd2 : braceDepth 0 (forBody c cs levels output).2.2 =
          some (depthOf (forBody c cs levels output).2.1) := by
        rw [e1, braceDepth_append, hd]
        exact e3
      obtain ⟨i1, i2, i3, i4⟩ := ih _ _ _ hrest2 e2 hd2
      simp only [pythonCFLLoop, levelHistory, opened, List.map_cons, List.foldl_cons]
      refine ⟨i1, i2, ?_, ?_⟩
      · rw [i3, e1, maxNesting_append _ _ _ _ hd, e4]
        have := braceDepth_le_maxNesting _ _ _ hd
        congr 1
        omega
      · rw [i4, e1, List.count_append, e5]
        omega

theorem closeLevels_spec (levels : List Nat) (output : List Char) (h : LevelsOk levels)
    (hd : braceDepth 0 output = some (depthOf levels)) :
    braceDepth 0 (closeLevels levels output) = some 0 ∧
      maxNesting 0 (closeLevels levels output) = maxNesting 0 output ∧
      (closeLevels levels output).count '{' = output.count '{' := by
  induction levels generalizing output with
  | nil => exact absurd rfl h.ne_nil
  | cons l ls ih =>
    obtain ⟨xs, hxs, hpos⟩ := h
    cases xs with
    | nil =>
      simp only [List.nil_append, List.cons.injEq] at hxs
      obtain ⟨rfl, rfl⟩ := hxs
      simpa [closeLevels, depthOf] using hd
    | cons y ys =>
      simp only [List.cons_append, List.cons.injEq] at hxs
      obtain ⟨rfl, rfl⟩ := hxs
      have hy : l ≠ 0 := by
        have := hpos l (List.mem_cons_self _ _)
        omega
      have hok : LevelsOk (ys ++ [0]) :=
        ⟨ys, rfl, fun x hx => hpos x (List.mem_cons_of_mem _ hx)⟩
      rw [depthOf_cons hok] at hd
      have hd2 : braceDepth 0 (output ++ ['\n', '}']) = some (depthOf (ys ++ [0])) := by
        rw [braceDepth_append, hd]
        simp [braceDepth]
      obtain ⟨i1, i2, i3⟩ := ih (output ++ ['\n', '}']) hok hd2
      simp only [closeLevels, if_pos hy]
      refine ⟨i1, ?_, ?_⟩
      · rw [i2, maxNesting_append _ _ _ _ hd]
        have := braceDepth_le_maxNesting _ _ _ hd
        simp [maxNesting]
        omega
      · rw [i3, List.count_append]
        simp [List.count_cons]

theorem skipSpaces_replicate (n : Nat) (b : List Char) (hb : b.head? ≠ some ' ') :
    skipSpaces (List.replicate n ' ' ++ b) = (n, b) := by
  induction n with
  | zero =>
    cases b with
    | nil => rfl
    | cons c cs =>
      have hc : c ≠ ' ' := by simpa using hb
      simp [skipSpaces, hc]
  | succ k ih => simp [List.replicate_succ, skipSpaces, ih]

theorem pythonCFLLoop_plain (a rest : List Char) (fuel : Nat) (levels : List Nat)
    (output : List Char) (ha : '\n' ∉ a) (hf : a.length ≤ fuel) :
    pythonCFLLoop fuel (a ++ rest) levels output =
      pythonCFLLoop (fuel - a.length) rest levels (output ++ a) := by
  induction a generalizing fuel output with
  | nil => simp
  | cons c cs ih =>
    cases fuel with
    | zero => simp at hf
    | succ f =>
      have hc : c ≠ '\n' := fun h => ha (by simp [h])
      have hcs : '\n' ∉ cs := fun h => ha (List.mem_cons_of_mem _ h)
      simp only [List.length_cons] at hf
      simp only [List.cons_append, pythonCFLLoop, forBody_plain c _ levels output hc,
        List.append_eq]
      rw [ih f (output ++ [c]) hcs (by omega)]
      simp

/-- The output for one indented line after a first line: the block is opened
and closed, and the last of the leading spaces is copied into the block. -/
theorem pythonCFLChars_indented (a b : List Char) (n : Nat) (ha : '\n' ∉ a) (hb : '\n' ∉ b)
    (hsp : b.head? ≠ some ' ') (hn : 1 ≤ n) :
    pythonCFLChars (a ++ ['\n'] ++ List.replicate n ' ' ++ b) =
      a ++ ['\n', '{', '\n', ' '] ++ b ++ ['\n', '}'] := by
  obtain ⟨k, rfl⟩ : ∃ k, n = k + 1 := ⟨n - 1, by omega⟩
  have hskip := skipSpaces_replicate (k + 1) b hsp
  have hnext : (List.replicate (k + 1) ' ' ++ b).head? ≠ some '\n' := by
    simp [List.replicate_succ]
  have hstep : forBody '\n' (List.replicate (k + 1) ' ' ++ b) [0] ([] ++ a) =
      (b, [k + 1, 0], a ++ ['\n', '{', '\n', ' ']) := by
    rw [forBody_push _ _ _ hnext (by rw [hskip]; simp [top]), hskip]
    simp
  have hlen : (a ++ ['\n'] ++ List.replicate (k + 1) ' ' ++ b).length =
      a.length + (b.length + k + 1 + 1) := by
    simp only [List.length_append, List.length_replicate, List.length_cons, List.length_nil]
    omega
  unfold pythonCFLChars
  simp only [hlen]
  rw [show a ++ ['\n'] ++ List.replicate (k + 1) ' ' ++ b =
      a ++ ('\n' :: (List.replicate (k + 1) ' ' ++ b)) by simp]
  rw [pythonCFLLoop_plain a _ _ [0] [] ha (by omega), Nat.add_sub_cancel_left]
  simp only [pythonCFLLoop, hstep]
  have hb2 := pythonCFLLoop_plain b [] (b.length + k + 1) [k + 1, 0]
    (a ++ ['\n', '{', '\n', ' ']) hb (by omega)
  rw [List.append_nil] at hb2
  rw [hb2]
  have hfin : ∀ m, pythonCFLLoop m [] [k + 1, 0] (a ++ ['\n', '{', '\n', ' '] ++ b) =
      ([k + 1, 0], a ++ ['\n', '{', '\n', ' '] ++ b) := by
    intro m; cases m <;> rfl
  rw [hfin]
  simp [closeLevels]

theorem pythonCFLChars_spec (src : List Char) (hrest : ∀ c ∈ src, c ≠ '{' ∧ c ≠ '}') :
    braceDepth 0 (pythonCFLChars src) = some 0 ∧
      (pythonCFLChars src).count '{' = openedLevels src ∧
      maxNesting 0 (pythonCFLChars src) = maxDepth src := by
  obtain ⟨i1, i2, i3, i4⟩ := pythonCFLLoop_spec src.length src [0] [] hrest levelsOk_init rfl
  obtain ⟨j1, j2, j3⟩ := closeLevels_spec _ _ i1 i2
  refine ⟨j1, ?_, ?_⟩
  · show (closeLevels _ _).count '{' = opened [0] (levelHistory src.length src [0] [])
    rw [j3, i4]
    simp
  · show maxNesting 0 (closeLevels _ _) =
      ((levelHistory src.length src [0] []).map depthOf).foldl max 0
    rw [j2, i3]
    simp [maxNesting]

theorem not_mem_braces (src : List Char) (h1 : '{' ∉ src) (h2 : '}' ∉ src) :
    ∀ c ∈ src, c ≠ '{' ∧ c ≠ '}' :=
  fun _ hc => ⟨fun h => h1 (h ▸ hc), fun h => h2 (h ▸ hc)⟩

/-! ## Indentation normalizer: the claims -/

/-- C1: for every source without braces of its own, the output of `pythonCFL`
has as many opening as closing braces, and no prefix of the output has more
closing than opening braces. -/
theorem pythonCFL_braces_balanced (src : String)
    (h1 : '{' ∉ src.data) (h2 : '}' ∉ src.data) :
    (pythonCFL src).data.count '{' = (pythonCFL src).data.count '}' ∧
      ∀ k : Nat, ((pythonCFL src).data.take k).count '}' ≤
        ((pythonCFL src).data.take k).count '{' := by
  obtain ⟨j1, _, _⟩ := pythonCFLChars_spec src.data (not_mem_braces _ h1 h2)
  obtain ⟨k1, k2⟩ := braceDepth_counts _ _ _ j1
  refine ⟨?_, ?_⟩
  · show (pythonCFLChars src.data).count '{' = (pythonCFLChars src.data).count '}'
    omega
  · intro k
    have := k2 k
    show ((pythonCFLChars src.data).take k).count '}' ≤
      ((pythonCFLChars src.data).take k).count '{'
    omega

theorem pythonCFL_braces_balanced_witness :
    ('{' ∉ "a\n  b\n    c\n d".data ∧ '}' ∉ "a\n  b\n    c\n d".data) ∧
      ((pythonCFL "a\n  b\n    c\n d").data.count '{' =
          (pythonCFL "a\n  b\n    c\n d").data.count '}' ∧
        ∀ k : Nat, ((pythonCFL "a\n  b\n    c\n d").data.take k).count '}' ≤
          ((pythonCFL "a\n  b\n    c\n d").data.take k).count '{') :=
  ⟨⟨by decide, by decide⟩,
    pythonCFL_braces_balanced "a\n  b\n    c\n d" (by decide) (by decide)⟩

/-- C2 as stated fails: the well-formed source `a⏎ b⏎c⏎ d` opens a block
twice, so the output has two brace pairs, while at most one indentation
level is ever open. -/
theorem pythonCFL_pairs_ne_maxDepth :
    '{' ∉ "a\n b\nc\n d".data ∧ '}' ∉ "a\n b\nc\n d".data ∧
      wellIndented "a\n b\nc\n d".length "a\n b\nc\n d".data [0] = true ∧
      pythonCFL "a\n b\nc\n d" = "a\n\x7b\n b\n\n\x7dc\n\x7b\n d\n\x7d" ∧
      (pythonCFL "a\n b\nc\n d").data.count '{' = 2 ∧
      (pythonCFL "a\n b\nc\n d").data.count '}' = 2 ∧
      maxDepth "a\n b\nc\n d".data = 1 := by
  decide

/-- C2 amended: for every source without braces of its own, the number of
brace pairs in the output of `pythonCFL` is the number of indentation levels
opened during the scan (one pair for each push on the level stack); the
deepest nesting of those pairs is the maximum indentation depth reached, which
is at most the number of pairs. -/
theorem pythonCFL_pairs_eq_opened (src : String)
    (h1 : '{' ∉ src.data) (h2 : '}' ∉ src.data) :
    (pythonCFL src).data.count '{' = openedLevels src.data ∧
      (pythonCFL src).data.count '}' = openedLevels src.data ∧
      maxNesting 0 (pythonCFL src).data = maxDepth src.data ∧
      maxDepth src.data ≤ openedLevels src.data := by
  obtain ⟨j1, hopen, hmax⟩ := pythonCFLChars_spec src.data (not_mem_braces _ h1 h2)
  obtain ⟨k1, _⟩ := braceDepth_counts _ _ _ j1
  have hle := maxNesting_le_count (pythonCFLChars src.data) 0
  refine ⟨hopen, ?_, hmax, ?_⟩
  · show (pythonCFLChars src.data).count '}' = openedLevels src.data
    omega
  · omega

theorem pythonCFL_pairs_eq_opened_witness :
    ('{' ∉ "a\n b\nc\n d".data ∧ '}' ∉ "a\n b\nc\n d".data) ∧
      ((pythonCFL "a\n b\nc\n d").data.count '{' = openedLevels "a\n b\nc\n d".data ∧
        (pythonCFL "a\n b\nc\n d").data.count '}' = openedLevels "a\n b\nc\n d".data ∧
        maxNesting 0 (pythonCFL "a\n b\nc\n d").data = maxDepth "a\n b\nc\n d".data ∧
        maxDepth "a\n b\nc\n d".data ≤ openedLevels "a\n b\nc\n d".data) :=
  ⟨⟨by decide, by decide⟩, pythonCFL_pairs_eq_opened "a\n b\nc\n d" (by decide) (by decide)⟩

/-- C3: on `a`, a newline, `n ≥ 1` spaces and `b` (no newline in `a` or `b`,
`b` not starting with a space) `pythonCFL` opens and closes the block, but the
last of the `n` spaces reaches the output: the result is `a⏎{⏎ b⏎}` with a
space before `b`, which is not the `a⏎{⏎b⏎}` of the claim. -/
theorem pythonCFL_indented_line_keeps_space (a b : String) (n : Nat)
    (ha : '\n' ∉ a.data) (hb : '\n' ∉ b.data) (hsp : b.data.head? ≠ some ' ')
    (hn : 1 ≤ n) :
    pythonCFL (a ++ "\n" ++ ⟨List.replicate n ' '⟩ ++ b) = a ++ "\n\x7b\n " ++ b ++ "\n\x7d" ∧
      pythonCFL (a ++ "\n" ++ ⟨List.replicate n ' '⟩ ++ b) ≠ a ++ "\n\x7b\n" ++ b ++ "\n\x7d" := by
  have key : pythonCFL (a ++ "\n" ++ ⟨List.replicate n ' '⟩ ++ b) =
      a ++ "\n\x7b\n " ++ b ++ "\n\x7d" := by
    apply String.ext
    show pythonCFLChars (a ++ "\n" ++ (⟨List.replicate n ' '⟩ : String) ++ b).data = _
    simp only [String.data_append]
    exact pythonCFLChars_indented a.data b.data n ha hb hsp hn
  refine ⟨key, ?_⟩
  rw [key]
  intro h
  have := congrArg String.length h
  simp only [String.length_append] at this
  have e1 : "\n\x7b\n ".length = 4 := by decide
  have e2 : "\n\x7b\n".length = 3 := by decide
  omega

theorem pythonCFL_indented_line_keeps_space_witness :
    ('\n' ∉ "a".data ∧ '\n' ∉ "b".data ∧ "b".data.head? ≠ some ' ' ∧ 1 ≤ 2) ∧
      (pythonCFL ("a" ++ "\n" ++ ⟨List.replicate 2 ' '⟩ ++ "b") =
          "a" ++ "\n\x7b\n " ++ "b" ++ "\n\x7d" ∧
        pythonCFL ("a" ++ "\n" ++ ⟨List.replicate 2 ' '⟩ ++ "b") ≠
          "a" ++ "\n\x7b\n" ++ "b" ++ "\n\x7d") :=
  ⟨⟨by decide, by decide, by decide, by decide⟩,
    pythonCFL_indented_line_keeps_space "a" "b" 2 (by decide) (by decide) (by decide)
      (by decide)⟩

/-- C4: on the claim's source, whose dedent to width 2 pops the stack down to
the top 0, `pythonCFL` raises nothing and returns an output string. -/
theorem pythonCFL_bad_dedent_returns :
    pythonCFL "a\n    b\n  c" = "a\n\x7b\n b\n\n\x7d c" := by
  decide

theorem Frame.refl (env : Addr) (s : State) : Frame env s s :=
  ⟨le_refl _, fun _ _ _ => rfl, fun e h => ⟨e, h, rfl⟩⟩

theorem Frame.trans {env : Addr} {s t u : State} (h1 : Frame env s t) (h2 : Frame env t u) :
    Frame env s u :=
  ⟨le_trans h1.1 h2.1, fun a ha hne =>
    (h2.2.1 a (lt_of_lt_of_le ha h1.1) hne).trans (h1.2.1 a ha hne), fun e he => by
      obtain ⟨e1, he1, ho1⟩ := h1.2.2 e he
      obtain ⟨e2, he2, ho2⟩ := h2.2.2 e1 he1
      exact ⟨e2, he2, ho2.trans ho1⟩⟩

theorem set_value_length (heap : List Env) (env : Addr) (x : String) (v : Value) :
    (set_value heap env x v).length = heap.length := by
  unfold set_value
  split <;> simp

theorem set_value_other (heap : List Env) (env : Addr) (x : String) (v : Value) (a : Nat)
    (h : a ≠ env) : (set_value heap env x v)[a]? = heap[a]? := by
  unfold set_value
  split
  · rw [List.getElem?_set_ne (Ne.symm h)]
  · rfl

theorem set_value_current (heap : List Env) (env : Nat) (x : String) (v : Value) (e : Env)
    (h : heap[env]? = some e) :
    ∃ e1 : Env, (set_value heap env x v)[env]? = some e1 ∧ e1.outer = e.outer := by
  have hlt : env < heap.length := by
    by_contra hc
    rw [List.getElem?_eq_none (by omega)] at h
    cases h
  unfold set_value
  rw [h]
  exact ⟨_, List.getElem?_set_self hlt, rfl⟩

theorem Frame.set_value (env : Addr) (s : State) (x : String) (v : Value) (os : String) :
    Frame env s { heap := set_value s.heap env x v, os := os } :=
  ⟨by simp [set_value_length], fun a _ hne => set_value_other _ _ _ _ _ hne,
    fun e he => set_value_current s.heap env x v e he⟩

theorem FrameRes.ok {α : Type} {env : Addr} {s t : State} (a : α) (h : Frame env s t) :
    FrameRes env s (.ok (a, t)) := by
  intro x hx
  cases hx
  exact h

theorem FrameRes.error {α : Type} (env : Addr) (s : State) (e : Err) :
    FrameRes env s (.error e : Except Err (α × State)) := by
  intro x hx
  cases hx

theorem FrameRes.bind {α β : Type} {env : Addr} {s : State} {x : Except Err (α × State)}
    {f : α × State → Except Err (β × State)} (hx : FrameRes env s x)
    (hf : ∀ r : α × State, Frame env s r.2 → FrameRes env s (f r)) :
    FrameRes env s (x >>= f) := by
  cases x with
  | error e => exact FrameRes.error env s e
  | ok r => exact hf r (hx r rfl)

theorem FrameRes.bind_pure {α β : Type} {env : Addr} {s : State} (x : Except Err α)
    {f : α → Except Err (β × State)} (hf : ∀ a : α, FrameRes env s (f a)) :
    FrameRes env s (x >>= f) := by
  cases x with
  | error e => exact FrameRes.error env s e
  | ok a => exact hf a

theorem FrameRes.shift {α : Type} {env : Addr} {s t : State} {r : Except Err (α × State)}
    (h : Frame env s t) (hr : FrameRes env t r) : FrameRes env s r :=
  fun x hx => h.trans (hr x hx)

theorem evalNodes_frame {ev : Eval} (hev : EvFrame ev) (env : Addr) (ks : List Ast)
    (s : State) : FrameRes env s (evalNodes ev env ks s) := by
  induction ks generalizing s with
  | nil => exact FrameRes.ok _ (Frame.refl _ _)
  | cons k ks ih =>
    unfold evalNodes
    refine FrameRes.bind (hev k env s) (fun r hr => ?_)
    refine FrameRes.bind (FrameRes.shift hr (ih r.2)) (fun rs hrs => ?_)
    exact FrameRes.ok _ hrs

theorem Untouched.frame {s t : State} (h : Untouched s t) (env : Addr) : Frame env s t :=
  ⟨h.1, fun a ha _ => h.2 a ha, fun e he => by
    have hlt : env < s.heap.length := by
      by_contra hc
      rw [List.getElem?_eq_none (Nat.le_of_not_lt hc)] at he
      cases he
    exact ⟨e, (h.2 env hlt).trans he, rfl⟩⟩

theorem bind_ok {α β : Type} {x : Except Err α} {f : α → Except Err β} {b : β}
    (h : x >>= f = .ok b) : ∃ a : α, x = .ok a ∧ f a = .ok b := by
  cases x with
  | error e => cases h
  | ok a => exact ⟨a, rfl, h⟩

theorem bindParams_other (ast : Ast) (context : Addr) (vs : List Value) (i : Nat)
    (heap heap1 : List Env) (h : bindParams ast context i vs heap = .ok heap1) :
    heap1.length = heap.length ∧ ∀ a : Nat, a ≠ context → heap1[a]? = heap[a]? := by
  induction vs generalizing i heap with
  | nil =>
    simp only [bindParams, Except.ok.injEq] at h
    subst h
    exact ⟨rfl, fun _ _ => rfl⟩
  | cons v vs ih =>
    unfold bindParams at h
    obtain ⟨node, _, h⟩ := bind_ok h
    obtain ⟨h1, h2⟩ := ih _ _ h
    refine ⟨by rw [h1, set_value_length], fun a ha => ?_⟩
    rw [h2 a ha, set_value_other _ _ _ _ _ ha]

theorem callFunction_untouched {ev : Eval} (hev : EvFrame ev) (fn : Function)
    (values : List Value) (s : State) (x : Value × State)
    (h : callFunction ev fn values s = .ok x) : Untouched s x.2 := by
  cases fn with
  | print =>
    simp only [callFunction] at h
    obtain ⟨os, _, h⟩ := bind_ok h
    cases h
    exact ⟨le_refl _, fun _ _ => rfl⟩
  | len =>
    simp only [callFunction] at h
    split at h
    · cases h
    · obtain ⟨back, _, h⟩ := bind_ok h
      obtain ⟨l, _, h⟩ := bind_ok h
      cases h
      exact ⟨le_refl _, fun _ _ => rfl⟩
  | closure ast env =>
    simp only [callFunction] at h
    obtain ⟨heap, hb, h⟩ := bind_ok h
    obtain ⟨block, _, h⟩ := bind_ok h
    obtain ⟨h1, h2⟩ := bindParams_other _ _ _ _ _ _ hb
    have hlen : heap.length = s.heap.length + 1 := by simp [h1]
    have hf := hev block s.heap.length { s with heap := heap } x h
    refine ⟨?_, fun a ha => ?_⟩
    · have := hf.1
      simp only [hlen] at this
      omega
    · rw [hf.2.1 a (by simp only [hlen]; omega) (by omega)]
      show heap[a]? = s.heap[a]?
      rw [h2 a (by omega), List.getElem?_append_left ha]

theorem FrameRes.of_untouched {env : Addr} {s : State} {r : Except Err (Value × State)}
    (h : ∀ x : Value × State, r = .ok x → Untouched s x.2) : FrameRes env s r :=
  fun x hx => (h x hx).frame env

theorem eval_call_frame {ev : Eval} (hev : EvFrame ev) (ast : Ast) (env : Addr) (s : State) :
    FrameRes env s (eval_call ev ast env s) := by
  unfold eval_call
  refine FrameRes.bind_pure _ (fun callee => ?_)
  refine FrameRes.bind_pure _ (fun val => ?_)
  refine FrameRes.bind_pure _ (fun fn => ?_)
  refine FrameRes.bind (evalNodes_frame hev env _ s) (fun values hv => ?_)
  exact FrameRes.shift hv
    (FrameRes.of_untouched (fun x hx => callFunction_untouched hev fn _ _ x hx))

theorem eval_assign_frame {ev : Eval} (hev : EvFrame ev) (ast : Ast) (env : Addr)
    (s : State) : FrameRes env s (eval_assign ev ast env s) := by
  unfold eval_assign
  refine FrameRes.bind_pure _ (fun name => ?_)
  refine FrameRes.bind_pure _ (fun rhs => ?_)
  refine FrameRes.bind (hev rhs env s) (fun value hv => ?_)
  exact FrameRes.ok _ (hv.trans (Frame.set_value env _ _ _ _))

theorem eval_block_frame {ev : Eval} (hev : EvFrame ev) (env : Addr) (nodes : List Ast)
    (s : State) : FrameRes env s (eval_block ev env nodes s) := by
  induction nodes generalizing s with
  | nil => exact FrameRes.ok _ (Frame.refl _ _)
  | cons node nodes ih =>
    unfold eval_block
    split
    · exact hev node env s
    · split
      · refine FrameRes.bind (hev node env s) (fun v hv => ?_)
        split
        · exact FrameRes.ok _ hv
        · exact FrameRes.shift hv (ih v.2)
      · refine FrameRes.bind (hev node env s) (fun v hv => ?_)
        exact FrameRes.shift hv (ih v.2)

theorem pair_induction {α : Type} {P : List α → Prop} (h0 : P []) (h1 : ∀ a : α, P [a])
    (h2 : ∀ (a b : α) (l : List α), P l → P (a :: b :: l)) : ∀ l : List α, P l := by
  have key : ∀ l : List α, P l ∧ ∀ a : α, P (a :: l) := by
    intro l
    induction l with
    | nil => exact ⟨h0, h1⟩
    | cons b l ih => exact ⟨ih.2 b, fun a => h2 a b l ih.1⟩
  exact fun l => (key l).1

theorem concatLoop_frame {ev : Eval} (hev : EvFrame ev) (env : Addr) (ops : List Ast)
    (master : List Value) (s : State) : FrameRes env s (concatLoop ev env ops master s) := by
  induction ops using pair_induction generalizing master s with
  | h0 => exact FrameRes.ok _ (Frame.refl _ _)
  | h1 op =>
    unfold concatLoop
    split
    · exact FrameRes.error _ _ _
    · exact FrameRes.ok _ (Frame.refl _ _)
  | h2 op next rest ih =>
    unfold concatLoop
    split
    · split
      · refine FrameRes.bind (evalNodes_frame hev env _ s) (fun vs hvs => ?_)
        exact FrameRes.shift hvs (ih _ _)
      · refine FrameRes.bind_pure _ (fun val => ?_)
        refine FrameRes.bind_pure _ (fun l2 => ?_)
        exact ih _ _
    · exact ih _ _

theorem stringLoop_frame {ev : Eval} (hev : EvFrame ev) (env : Addr) (ops : List Ast)
    (result : String) (s : State) : FrameRes env s (stringLoop ev env ops result s) := by
  induction ops using pair_induction generalizing result s with
  | h0 => exact FrameRes.ok _ (Frame.refl _ _)
  | h1 op =>
    unfold stringLoop
    split
    · exact FrameRes.error _ _ _
    · exact FrameRes.ok _ (Frame.refl _ _)
  | h2 op next rest ih =>
    unfold stringLoop
    split
    · refine FrameRes.bind (hev next env s) (fun s2 hs2 => ?_)
      refine FrameRes.bind_pure _ (fun str => ?_)
      exact FrameRes.shift hs2 (ih _ _)
    · exact ih _ _

theorem sumLoop_frame {ev : Eval} (hev : EvFrame ev) (env : Addr) (ops : List Ast)
    (val : Int) (s : State) : FrameRes env s (sumLoop ev env ops val s) := by
  induction ops using pair_induction generalizing val s with
  | h0 => exact FrameRes.ok _ (Frame.refl _ _)
  | h1 op => exact FrameRes.error _ _ _
  | h2 op next rest ih =>
    unfold sumLoop
    refine FrameRes.bind (hev next env s) (fun r hr => ?_)
    refine FrameRes.bind_pure _ (fun rval => ?_)
    exact FrameRes.shift hr (ih _ _)

theorem termLoop_frame {ev : Eval} (hev : EvFrame ev) (env : Addr) (ops : List Ast)
    (val : Int) (s : State) : FrameRes env s (termLoop ev env ops val s) := by
  induction ops using pair_induction generalizing val s with
  | h0 => exact FrameRes.ok _ (Frame.refl _ _)
  | h1 op => exact FrameRes.error _ _ _
  | h2 op next rest ih =>
    unfold termLoop
    refine FrameRes.bind (hev next env s) (fun r hr => ?_)
    refine FrameRes.bind_pure _ (fun rval => ?_)
    split
    · exact FrameRes.shift hr (ih _ _)
    · split
      · split
        · exact FrameRes.error _ _ _
        · exact FrameRes.shift hr (ih _ _)
      · exact FrameRes.shift hr (ih _ _)

theorem eval_arith_frame {ev : Eval} (hev : EvFrame ev) (sign : String) (first : Ast)
    (rest : List Ast) (env : Addr) (s : State) :
    FrameRes env s (eval_arith ev sign first rest env s) := by
  unfold eval_arith
  refine FrameRes.bind (hev first env s) (fun v hv => ?_)
  refine FrameRes.bind_pure _ (fun l => ?_)
  refine FrameRes.bind (FrameRes.shift hv (sumLoop_frame hev env _ _ _)) (fun r hr => ?_)
  exact FrameRes.ok _ hr

theorem eval_expr_frame {ev : Eval} (hev : EvFrame ev) (ast : Ast) (env : Addr) (s : State) :
    FrameRes env s (eval_expr ev ast env s) := by
  unfold eval_expr
  refine FrameRes.bind_pure _ (fun sign => ?_)
  refine FrameRes.bind_pure _ (fun first => ?_)
  split
  · exact hev first env s
  · split
    · exact FrameRes.ok _ (Frame.refl _ _)
    · split
      · refine FrameRes.bind (evalNodes_frame hev env _ s) (fun master hm => ?_)
        refine FrameRes.bind (FrameRes.shift hm (concatLoop_frame hev env _ _ _))
          (fun r hr => ?_)
        exact FrameRes.ok _ hr
      · split
        · refine FrameRes.bind_pure _ (fun val => ?_)
          split
          · refine FrameRes.bind (concatLoop_frame hev env _ _ _) (fun r hr => ?_)
            exact FrameRes.ok _ hr
          · refine FrameRes.bind (stringLoop_frame hev env _ _ _) (fun r hr => ?_)
            exact FrameRes.ok _ hr
          · exact eval_arith_frame hev _ _ _ _ _
        · exact eval_arith_frame hev _ _ _ _ _

theorem eval_term_frame {ev : Eval} (hev : EvFrame ev) (ast : Ast) (env : Addr) (s : State) :
    FrameRes env s (eval_term ev ast env s) := by
  unfold eval_term
  refine FrameRes.bind_pure _ (fun first => ?_)
  refine FrameRes.bind (hev first env s) (fun v hv => ?_)
  refine FrameRes.bind_pure _ (fun val => ?_)
  refine FrameRes.bind (FrameRes.shift hv (termLoop_frame hev env _ _ _)) (fun r hr => ?_)
  exact FrameRes.ok _ hr

theorem declare_function_frame (ast : Ast) (env : Addr) (s : State) :
    FrameRes env s (declare_function ast env s) := by
  unfold declare_function
  refine FrameRes.bind_pure _ (fun name => ?_)
  exact FrameRes.ok _ (Frame.set_value env _ _ _ _)

theorem declare_list_frame {ev : Eval} (hev : EvFrame ev) (ast : Ast) (env : Addr)
    (s : State) : FrameRes env s (declare_list ev ast env s) := by
  unfold declare_list
  refine FrameRes.bind_pure _ (fun name => ?_)
  split
  · refine FrameRes.bind (evalNodes_frame hev env _ s) (fun temp ht => ?_)
    exact FrameRes.ok _ (ht.trans (Frame.set_value env _ _ _ _))
  · exact FrameRes.ok _ (Frame.set_value env _ _ _ _)

theorem spliceEnds_frame {ev : Eval} (hev : EvFrame ev) (env : Addr) (ks : List Ast)
    (l r : Int) (s : State) : FrameRes env s (spliceEnds ev env ks l r s) := by
  induction ks generalizing l r s with
  | nil => exact FrameRes.ok _ (Frame.refl _ _)
  | cons k ks ih =>
    unfold spliceEnds
    split
    · refine FrameRes.bind (hev k env s) (fun v hv => ?_)
      refine FrameRes.bind_pure _ (fun x => ?_)
      exact FrameRes.shift hv (ih _ _ _)
    · split
      · refine FrameRes.bind (hev k env s) (fun v hv => ?_)
        refine FrameRes.bind_pure _ (fun x => ?_)
        exact FrameRes.shift hv (ih _ _ _)
      · exact ih _ _ _

theorem access_list_frame {ev : Eval} (hev : EvFrame ev) (ast : Ast) (env : Addr)
    (s : State) : FrameRes env s (access_list ev ast env s) := by
  unfold access_list
  refine FrameRes.bind_pure _ (fun name => ?_)
  refine FrameRes.bind_pure _ (fun val => ?_)
  refine FrameRes.bind_pure _ (fun vList => ?_)
  refine FrameRes.bind_pure _ (fun sub => ?_)
  split
  · refine FrameRes.bind (spliceEnds_frame hev env _ _ _ s) (fun ends he => ?_)
    refine FrameRes.bind_pure _ (fun t => ?_)
    exact FrameRes.ok _ he
  · refine FrameRes.bind (hev sub env s) (fun v hv => ?_)
    refine FrameRes.bind_pure _ (fun index => ?_)
    split
    · exact FrameRes.error _ _ _
    · refine FrameRes.bind_pure _ (fun x => ?_)
      exact FrameRes.ok _ hv

theorem list_assign_frame {ev : Eval} (hev : EvFrame ev) (ast : Ast) (env : Addr)
    (s : State) : FrameRes env s (list_assign ev ast env s) := by
  unfold list_assign
  refine FrameRes.bind_pure _ (fun name => ?_)
  refine FrameRes.bind_pure _ (fun val => ?_)
  refine FrameRes.bind_pure _ (fun v => ?_)
  refine FrameRes.bind_pure _ (fun sub => ?_)
  split
  · refine FrameRes.bind (spliceEnds_frame hev env _ _ _ s) (fun ends he => ?_)
    refine FrameRes.bind_pure _ (fun third => ?_)
    refine FrameRes.bind (FrameRes.shift he (hev third env ends.2)) (fun rhs hr => ?_)
    refine FrameRes.bind_pure _ (fun fromList => ?_)
    refine FrameRes.bind_pure _ (fun v2 => ?_)
    exact FrameRes.ok _ (hr.trans (Frame.set_value env _ _ _ _))
  · refine FrameRes.bind (hev sub env s) (fun iv hiv => ?_)
    refine FrameRes.bind_pure _ (fun index => ?_)
    split
    · exact FrameRes.error _ _ _
    · refine FrameRes.bind_pure _ (fun third => ?_)
      refine FrameRes.bind (FrameRes.shift hiv (hev third env iv.2)) (fun rhs hr => ?_)
      exact FrameRes.ok _ (hr.trans (Frame.set_value env _ _ _ _))

theorem whileLoop_frame {ev : Eval} (hev : EvFrame ev) (ifNode : List Ast) (oper : String)
    (block : Ast) (env : Addr) (count : Nat) (s : State) :
    FrameRes env s (whileLoop ev ifNode oper block env count s) := by
  induction count generalizing s with
  | zero => exact FrameRes.error _ _ _
  | succ count ih =>
    unfold whileLoop
    refine FrameRes.bind_pure _ (fun n0 => ?_)
    refine FrameRes.bind (hev n0 env s) (fun lv hlv => ?_)
    refine FrameRes.bind_pure _ (fun lhs => ?_)
    refine FrameRes.bind_pure _ (fun n2 => ?_)
    refine FrameRes.bind (FrameRes.shift hlv (hev n2 env lv.2)) (fun rv hrv => ?_)
    refine FrameRes.bind_pure _ (fun rhs => ?_)
    split
    · refine FrameRes.bind (FrameRes.shift hrv (hev block env rv.2)) (fun b hb => ?_)
      exact FrameRes.shift hb (ih _)
    · exact FrameRes.ok _ hrv
    · exact FrameRes.shift hrv (ih _)

theorem eval_while_frame {ev : Eval} (hev : EvFrame ev) (count : Nat) (ast : Ast)
    (env : Addr) (s : State) : FrameRes env s (eval_while ev count ast env s) := by
  unfold eval_while
  refine FrameRes.bind_pure _ (fun n0 => ?_)
  refine FrameRes.bind_pure _ (fun n1 => ?_)
  refine FrameRes.bind_pure _ (fun block => ?_)
  exact whileLoop_frame hev _ _ _ _ _ _

theorem eval_if_frame {ev : Eval} (hev : EvFrame ev) (ast : Ast) (env : Addr) (s : State) :
    FrameRes env s (eval_if ev ast env s) := by
  unfold eval_if
  refine FrameRes.bind_pure _ (fun n0 => ?_)
  refine FrameRes.bind_pure _ (fun c0 => ?_)
  refine FrameRes.bind (hev c0 env s) (fun lv hlv => ?_)
  refine FrameRes.bind_pure _ (fun lhs => ?_)
  refine FrameRes.bind_pure _ (fun c1 => ?_)
  refine FrameRes.bind_pure _ (fun c2 => ?_)
  refine FrameRes.bind (FrameRes.shift hlv (hev c2 env lv.2)) (fun rv hrv => ?_)
  refine FrameRes.bind_pure _ (fun rhs => ?_)
  split
  · refine FrameRes.bind_pure _ (fun b => ?_)
    exact FrameRes.shift hrv (hev b env rv.2)
  · split
    · refine FrameRes.bind_pure _ (fun b => ?_)
      exact FrameRes.shift hrv (hev b env rv.2)
    · exact FrameRes.ok _ hrv
  · exact FrameRes.ok _ hrv

theorem evalNode_frame {ev : Eval} (hev : EvFrame ev) (count : Nat) :
    EvFrame (evalNode ev count) := by
  intro ast env s
  unfold evalNode
  by_cases h1 : ast.tag = "program" ∨ ast.tag = "block"
  · rw [if_pos h1]; exact eval_block_frame hev env _ s
  rw [if_neg h1]
  by_cases h2 : ast.tag = "expression"
  · rw [if_pos h2]; exact eval_expr_frame hev ast env s
  rw [if_neg h2]
  by_cases h3 : ast.tag = "term"
  · rw [if_pos h3]; exact eval_term_frame hev ast env s
  rw [if_neg h3]
  by_cases h4 : ast.tag = "NAME"
  · rw [if_pos h4]
    refine FrameRes.bind_pure _ (fun v => ?_)
    exact FrameRes.ok _ (Frame.refl _ _)
  rw [if_neg h4]
  by_cases h5 : ast.tag = "STRING"
  · rw [if_pos h5]; exact FrameRes.ok _ (Frame.refl _ _)
  rw [if_neg h5]
  by_cases h6 : ast.tag = "NUMBER"
  · rw [if_pos h6]; exact FrameRes.ok _ (Frame.refl _ _)
  rw [if_neg h6]
  by_cases h7 : ast.tag = "function"
  · rw [if_pos h7]; exact declare_function_frame ast env s
  rw [if_neg h7]
  by_cases h8 : ast.tag = "call"
  · rw [if_pos h8]; exact eval_call_frame hev ast env s
  rw [if_neg h8]
  by_cases h9 : ast.tag = "assignment"
  · rw [if_pos h9]; exact eval_assign_frame hev ast env s
  rw [if_neg h9]
  by_cases h10 : ast.tag = "list_assign"
  · rw [if_pos h10]; exact list_assign_frame hev ast env s
  rw [if_neg h10]
  by_cases h11 : ast.tag = "list_create"
  · rw [if_pos h11]; exact declare_list_frame hev ast env s
  rw [if_neg h11]
  by_cases h12 : ast.tag = "list_value"
  · rw [if_pos h12]; exact access_list_frame hev ast env s
  rw [if_neg h12]
  by_cases h13 : ast.tag = "if"
  · rw [if_pos h13]; exact eval_if_frame hev ast env s
  rw [if_neg h13]
  by_cases h14 : ast.tag = "while"
  · rw [if_pos h14]; exact eval_while_frame hev count ast env s
  rw [if_neg h14]
  cases ast.nodes with
  | nil => exact FrameRes.ok _ (Frame.refl _ _)
  | cons first _ => exact hev first env s

theorem eval_frame (fuel : Nat) : EvFrame (eval fuel) := by
  induction fuel with
  | zero => exact fun _ _ _ => FrameRes.error _ _ _
  | succ fuel ih => exact evalNode_frame ih fuel

/-! ## Environments: helper lemmas -/

theorem get_value_from_agree (heap heap1 : List Env) (x : String) (hok : HeapOk heap)
    (hsame : ∀ a : Nat, a < heap.length → heap1[a]? = heap[a]?) :
    ∀ (a fuel fuel1 : Nat), a < heap.length → a < fuel → a < fuel1 →
      get_value_from heap1 x fuel1 a = get_value_from heap x fuel a := by
  intro a
  induction a using Nat.strong_induction_on with
  | _ a ih =>
    intro fuel fuel1 ha hf hf1
    obtain ⟨f, rfl⟩ : ∃ f, fuel = f + 1 := ⟨fuel - 1, by omega⟩
    obtain ⟨f1, rfl⟩ : ∃ f, fuel1 = f + 1 := ⟨fuel1 - 1, by omega⟩
    simp only [get_value_from, hsame a ha]
    cases he : heap[a]? with
    | none => rfl
    | some e =>
      simp only
      cases hv : e.values x with
      | some v => rfl
      | none =>
        simp only
        cases hp : e.outer with
        | none => rfl
        | some p =>
          have hlt := hok a e p he hp
          exact ih p hlt f f1 (by omega) (by omega) (by omega)

theorem get_value_agree (heap heap1 : List Env) (x : String) (env : Nat) (hok : HeapOk heap)
    (henv : env < heap.length) (hlen : heap.length ≤ heap1.length)
    (hsame : ∀ a : Nat, a < heap.length → heap1[a]? = heap[a]?) :
    get_value heap1 env x = get_value heap env x :=
  get_value_from_agree heap heap1 x hok hsame env _ _ henv henv (lt_of_lt_of_le henv hlen)

theorem chain_length {heap : List Env} (hok : HeapOk heap) {env : Nat} {es : List Env}
    (h : Chain heap env es) : es.length ≤ env + 1 := by
  induction h with
  | last env e h hp => simp
  | link env outer e es h hp rest ih =>
    have := hok env e outer h hp
    simp only [List.length_cons]
    omega

theorem get_value_from_chain {heap : List Env} {env : Nat} {es : List Env}
    (h : Chain heap env es) (x : String) (fuel : Nat) (hf : es.length ≤ fuel) :
    get_value_from heap x fuel env =
      match nearestBinding es x with
      | some v => .ok v
      | none => .error (nameError x) := by
  induction h generalizing fuel with
  | last env e h hp =>
    obtain ⟨f, rfl⟩ : ∃ f, fuel = f + 1 := ⟨fuel - 1, by simp at hf; omega⟩
    simp only [get_value_from, h, nearestBinding, List.findSome?]
    cases hv : e.values x with
    | some v => rfl
    | none => simp [hp]
  | link env outer e es h hp rest ih =>
    obtain ⟨f, rfl⟩ : ∃ f, fuel = f + 1 := ⟨fuel - 1, by simp at hf; omega⟩
    simp only [List.length_cons] at hf
    simp only [get_value_from, h, nearestBinding, List.findSome?]
    cases hv : e.values x with
    | some v => rfl
    | none =>
      simp only [hp]
      exact ih f (by omega)

theorem chain_lt_length {heap : List Env} {env : Nat} {es : List Env}
    (h : Chain heap env es) : env < heap.length := by
  cases h with
  | last _ e h hp =>
    by_contra hc
    rw [List.getElem?_eq_none (by omega)] at h
    cases h
  | link _ outer e es h hp rest =>
    by_contra hc
    rw [List.getElem?_eq_none (by omega)] at h
    cases h

theorem set_value_same (heap : List Env) (env : Nat) (x : String) (v : Value)
    (h : env < heap.length) :
    ∃ e : Env, (set_value heap env x v)[env]? = some e ∧ e.values x = some v ∧
      ∀ y : String, y ≠ x → e.values y = (heap[env]?.bind (fun e0 => e0.values y)) := by
  unfold set_value
  have hsome : heap[env]? = some heap[env] := List.getElem?_eq_getElem h
  rw [hsome]
  refine ⟨_, List.getElem?_set_self h, by simp, fun y hy => by simp [hy]⟩

theorem chain_exists {heap : List Env} (hok : HeapOk heap) :
    ∀ env : Nat, env < heap.length → ∃ es : List Env, Chain heap env es := by
  intro env
  induction env using Nat.strong_induction_on with
  | _ env ih =>
    intro henv
    have hsome : heap[env]? = some heap[env] := List.getElem?_eq_getElem henv
    cases hp : heap[env].outer with
    | none => exact ⟨[heap[env]], Chain.last env _ hsome hp⟩
    | some p =>
      have hlt := hok env _ p hsome hp
      obtain ⟨es, hes⟩ := ih p hlt (by omega)
      exact ⟨heap[env] :: es, Chain.link env p _ es hsome hp hes⟩

/-! ## Environments: the claims -/

theorem get_value_after_set (heap : List Env) (env : Nat) (x : String) (v : Value)
    (h : env < heap.length) : get_value (set_value heap env x v) env x = .ok v := by
  obtain ⟨e, h1, h2, _⟩ := set_value_same heap env x v h
  unfold get_value
  rw [set_value_length]
  obtain ⟨n, hn⟩ : ∃ n, heap.length = n + 1 := ⟨heap.length - 1, by omega⟩
  rw [hn]
  simp only [get_value_from, h1, h2]

/-- An assignment `x = e` whose right-hand side evaluates to `v` leaves a state
in which the lookup of `x` from the current environment yields `v`. -/
theorem eval_assign_then_get_value (ev : Eval) (name rhs : Ast) (env : Nat) (s : State)
    (r : Value × State) (hr : ev rhs env s = .ok r) (henv : env < r.2.heap.length) :
    ∃ t : State, eval_assign ev (node "assignment" [name, rhs]) env s = .ok (.nullptr, t) ∧
      get_value t.heap env name.token_to_string = .ok r.1 := by
  refine ⟨{ r.2 with heap := set_value r.2.heap env name.token_to_string r.1 }, ?_, ?_⟩
  · show (ev rhs env s >>= _) = _
    rw [hr]
    rfl
  · exact get_value_after_set r.2.heap env name.token_to_string r.1 henv

theorem demoHeap_ok : HeapOk demoHeap := by
  intro a e p h1 h2
  match a with
  | 0 =>
    simp only [demoHeap, List.getElem?_cons_zero, Option.some.injEq] at h1
    subst h1
    simp [demoGlobal] at h2
  | 1 =>
    simp only [demoHeap, List.getElem?_cons_succ, List.getElem?_cons_zero,
      Option.some.injEq] at h1
    subst h1
    simp only [demoChild, Option.some.injEq] at h2
    rw [← h2]
    exact Nat.zero_lt_one
  | n + 2 => simp [demoHeap] at h1

theorem demoHeap_chain : Chain demoHeap 1 [demoChild, demoGlobal] :=
  Chain.link 1 0 demoChild [demoGlobal] rfl rfl (Chain.last 0 demoGlobal rfl rfl)

/-- C6: `get_value(x)` returns the binding of `x` in the nearest environment
of the scope chain that binds `x`, and it fails with the undefined-symbol
error (NameError) exactly when no environment of the chain binds `x`. -/
theorem get_value_nearest (heap : List Env) (env : Nat) (es : List Env) (x : String)
    (hok : HeapOk heap) (hc : Chain heap env es) :
    (get_value heap env x =
        match nearestBinding es x with
        | some v => .ok v
        | none => .error (nameError x)) ∧
      (get_value heap env x = .error (nameError x) ↔ ∀ e ∈ es, e.values x = none) := by
  have hlen := chain_length hok hc
  have henv := chain_lt_length hc
  have key := get_value_from_chain hc x heap.length (by omega)
  refine ⟨key, ?_⟩
  unfold get_value
  rw [key]
  cases hn : nearestBinding es x with
  | some v =>
    simp only
    constructor
    · intro h; cases h
    · intro h
      unfold nearestBinding at hn
      rw [List.findSome?_eq_none_iff.2 h] at hn
      cases hn
  | none =>
    simp only [true_iff]
    exact List.findSome?_eq_none_iff.1 hn

theorem get_value_nearest_witness :
    (HeapOk demoHeap ∧ Chain demoHeap 1 [demoChild, demoGlobal]) ∧
      ((get_value demoHeap 1 "y" =
          match nearestBinding [demoChild, demoGlobal] "y" with
          | some v => .ok v
          | none => .error (nameError "y")) ∧
        (get_value demoHeap 1 "y" = .error (nameError "y") ↔
          ∀ e ∈ [demoChild, demoGlobal], e.values "y" = none)) :=
  ⟨⟨demoHeap_ok, demoHeap_chain⟩,
    get_value_nearest demoHeap 1 [demoChild, demoGlobal] "y" demoHeap_ok demoHeap_chain⟩

/-- C7: a call of a function value created by `def` in environment `E`, when
it returns, leaves every environment that existed before the call as it was,
among them `E` and all its ancestors: every lookup from `E` gives after the
call what it gave before. What the body binds lives in environments created
during the call. -/
theorem call_keeps_outer_bindings (fuel : Nat) (ast : Ast) (E : Nat) (values : List Value)
    (s : State) (r : Value × State) (hok : HeapOk s.heap) (hE : E < s.heap.length)
    (h : callFunction (eval fuel) (.closure ast E) values s = .ok r) :
    s.heap.length ≤ r.2.heap.length ∧
      (∀ a : Nat, a < s.heap.length → r.2.heap[a]? = s.heap[a]?) ∧
      ∀ x : String, get_value r.2.heap E x = get_value s.heap E x := by
  have hu := callFunction_untouched (eval_frame fuel) _ _ _ _ h
  exact ⟨hu.1, hu.2, fun x => get_value_agree _ _ x E hok hE hu.1 hu.2⟩

/-! ## Closures: helper lemmas -/

theorem evalNode_NAME (ev : Eval) (count : Nat) (x : String) (env : Addr) (s : State) :
    evalNode ev count (leaf "NAME" x) env s =
      (get_value s.heap env x >>= fun v => .ok (v, s)) := rfl

theorem wrap64_of_inLongRange (l : Int) (h : inLongRange l) : wrap64 l = l := by
  unfold inLongRange at h
  unfold wrap64
  omega

theorem set_value_at (heap : List Env) (env : Nat) (x : String) (v : Value) (e : Env)
    (h : heap[env]? = some e) :
    (set_value heap env x v)[env]? =
      some { e with values := fun k => if k = x then some v else e.values k } := by
  have hlt : env < heap.length := by
    by_contra hc
    rw [List.getElem?_eq_none (by omega)] at h
    cases h
  unfold set_value
  rw [h]
  exact List.getElem?_set_self hlt

theorem demoState_ok : HeapOk demoState.heap := by
  intro a e p h1 h2
  match a with
  | 0 =>
    simp only [demoState, List.getElem?_cons_zero, Option.some.injEq] at h1
    subst h1
    simp [demoGlobal] at h2
  | n + 1 => simp [demoState] at h1

theorem call_keeps_outer_bindings_witness :
    (HeapOk demoState.heap ∧ 0 < demoState.heap.length ∧
        callFunction (eval 9) (.closure shadowFunction 0) [.long 5] demoState =
          .ok shadowResult) ∧
      (demoState.heap.length ≤ shadowResult.2.heap.length ∧
        (∀ a : Nat, a < demoState.heap.length →
          shadowResult.2.heap[a]? = demoState.heap[a]?) ∧
        ∀ x : String, get_value shadowResult.2.heap 0 x = get_value demoState.heap 0 x) :=
  ⟨⟨demoState_ok, by decide, rfl⟩,
    call_keeps_outer_bindings 9 shadowFunction 0 [.long 5] demoState shadowResult
      demoState_ok (by decide) rfl⟩

theorem intercalate_go_cons (sep : String) (rest : List String) :
    ∀ acc b : String, String.intercalate.go acc sep (b :: rest) =
      acc ++ sep ++ String.intercalate.go b sep rest := by
  induction rest with
  | nil => intro acc b; rfl
  | cons c r ih =>
    intro acc b
    show String.intercalate.go (acc ++ sep ++ b) sep (c :: r) = _
    rw [ih (acc ++ sep ++ b) c]
    show _ = acc ++ sep ++ String.intercalate.go (b ++ sep ++ c) sep r
    have h2 : String.intercalate.go b sep (c :: r) =
        String.intercalate.go (b ++ sep ++ c) sep r := rfl
    rw [← h2, ih b c]
    simp only [String.append_assoc]

theorem intercalate_cons_cons (sep a b : String) (rest : List String) :
    sep.intercalate (a :: b :: rest) = a ++ sep ++ sep.intercalate (b :: rest) :=
  intercalate_go_cons sep rest a b

theorem mapM_str_cons (v : Value) (rest : List Value) :
    (v :: rest).mapM Value.str =
      (v.str >>= fun s => rest.mapM Value.str >>= fun ss => .ok (s :: ss)) := by
  rw [List.mapM_cons]
  rfl

theorem mapM_str_ne_nil (l : List Value) (ss : List String) (h : l.mapM Value.str = .ok ss)
    (hl : l ≠ []) : ss ≠ [] := by
  cases l with
  | nil => exact absurd rfl hl
  | cons v rest =>
    rw [mapM_str_cons] at h
    obtain ⟨s, _, h⟩ := bind_ok h
    obtain ⟨ss1, _, h⟩ := bind_ok h
    cases h
    simp

theorem strLoop_all_shown (l : List Value) (hne : l ≠ []) (hall : ∀ e ∈ l, e ≠ .nullptr) :
    ∀ out : String, Value.strLoop l out =
      (l.mapM Value.str).map (fun ss => out ++ ", ".intercalate ss ++ "]") := by
  induction l with
  | nil => exact absurd rfl hne
  | cons v rest ih =>
    intro out
    cases rest with
    | nil =>
      rw [mapM_str_cons]
      unfold Value.strLoop
      cases v.str with
      | error e => rfl
      | ok s => rfl
    | cons w rest =>
      have hv : v.index ≠ 0 := by
        have := hall v (List.mem_cons_self _ _)
        cases v <;> simp_all [Value.index]
      rw [mapM_str_cons]
      unfold Value.strLoop
      rw [if_pos hv]
      cases hs : v.str with
      | error e => rfl
      | ok s =>
        show Value.strLoop (w :: rest) (out ++ s ++ ", ") = _
        rw [ih (by simp) (fun e he => hall e (List.mem_cons_of_mem _ he))]
        cases hm : (w :: rest).mapM Value.str with
        | error e => rfl
        | ok ss =>
          have hss := mapM_str_ne_nil _ _ hm (by simp)
          cases ss with
          | nil => exact absurd rfl hss
          | cons a as =>
            show Except.ok (out ++ s ++ ", " ++ ", ".intercalate (a :: as) ++ "]") =
              Except.ok (out ++ ", ".intercalate (s :: a :: as) ++ "]")
            rw [intercalate_cons_cons]
            simp only [String.append_assoc]

theorem strLoop_cons (v : Value) (tail : List Value) (out : String) (h : tail ≠ []) :
    Value.strLoop (v :: tail) out =
      if v.index ≠ 0 then v.str >>= fun s => Value.strLoop tail (out ++ s ++ ", ")
      else Value.strLoop tail out := by
  cases tail with
  | nil => exact absurd rfl h
  | cons w rest => rw [Value.strLoop]

theorem foldl_append_string (l : List String) :
    ∀ a : String, l.foldl (fun r s => r ++ s) a = a ++ l.foldl (fun r s => r ++ s) "" := by
  induction l with
  | nil => intro a; simp
  | cons b rest ih =>
    intro a
    simp only [List.foldl_cons]
    rw [ih (a ++ b), ih ("" ++ b)]
    simp [String.append_assoc]

theorem join_cons (a : String) (l : List String) :
    String.join (a :: l) = a ++ String.join l := by
  unfold String.join
  simp only [List.foldl_cons]
  rw [foldl_append_string l ("" ++ a)]
  simp

theorem strLoop_general (init : List Value) (last : Value) :
    ∀ out : String, Value.strLoop (init ++ [last]) out =
      ((init.filter (fun e => e.index ≠ 0)).mapM Value.str >>= fun shown =>
        last.str >>= fun s =>
          .ok (out ++ String.join (shown.map (fun t => t ++ ", ")) ++ s ++ "]")) := by
  induction init with
  | nil =>
    intro out
    show Value.strLoop [last] out = _
    rw [Value.strLoop]
    cases last.str with
    | error e => rfl
    | ok s =>
      show Except.ok (out ++ s ++ "]") = Except.ok (out ++ String.join [] ++ s ++ "]")
      simp [String.join]
  | cons v rest ih =>
    intro out
    rw [List.cons_append, strLoop_cons v _ out (by simp)]
    by_cases hv : v.index ≠ 0
    · rw [if_pos hv, List.filter_cons_of_pos (by simpa using hv), mapM_str_cons]
      cases v.str with
      | error e => rfl
      | ok s =>
        show Value.strLoop (rest ++ [last]) (out ++ s ++ ", ") = _
        rw [ih]
        cases (rest.filter (fun e => e.index ≠ 0)).mapM Value.str with
        | error e => rfl
        | ok shown =>
          cases last.str with
          | error e => rfl
          | ok t =>
            show Except.ok (out ++ s ++ ", " ++
                String.join (shown.map (fun t => t ++ ", ")) ++ t ++ "]") =
              Except.ok (out ++ String.join ((s :: shown).map (fun t => t ++ ", ")) ++ t ++ "]")
            rw [List.map_cons, join_cons]
            simp only [String.append_assoc]
    · rw [if_neg hv, List.filter_cons_of_neg (by simpa using hv)]
      exact ih out

/-! ## Display: the claims -/

/-- C9: `Value::str` gives the canonical display form: `nil` for None,
`true`/`false` for a Bool, the decimal representation for an Int, the raw
characters for a Str, `Function` for a Fun, and for a non-empty List without
None elements the display forms of its elements in order, joined by a comma
and a space, between brackets (at every level of nesting). -/
theorem str_canonical (b : Bool) (i : Int) (s : String) (f : Function) (l : List Value)
    (hne : l ≠ []) (hall : ∀ e ∈ l, e ≠ .nullptr) :
    Value.nullptr.str = .ok "nil" ∧
      (Value.bool b).str = .ok (if b then "true" else "false") ∧
      (Value.long i).str = .ok (toString i) ∧
      (Value.string s).str = .ok s ∧
      (Value.function f).str = .ok "Function" ∧
      (Value.list l).str =
        (l.mapM Value.str).map (fun ss => "[" ++ ", ".intercalate ss ++ "]") := by
  refine ⟨rfl, rfl, rfl, rfl, rfl, ?_⟩
  show Value.strLoop l "[" = _
  exact strLoop_all_shown l hne hall "["

theorem str_canonical_witness :
    ([Value.long 1, .list [.long (-20), .string "a"], .function .print, .bool true] ≠ [] ∧
        ∀ e ∈ [Value.long 1, .list [.long (-20), .string "a"], .function .print,
          .bool true], e ≠ .nullptr) ∧
      (Value.long (-20)).str = .ok "-20" ∧
      (Value.list [.long 1, .list [.long (-20), .string "a"], .function .print,
        .bool true]).str = .ok "[1, [-20, a], Function, true]" :=
  ⟨⟨by simp, by simp⟩,
    (str_canonical true (-20) "" .print
      [.long 1, .list [.long (-20), .string "a"], .function .print, .bool true]
      (by simp) (by simp)).2.2.1.trans rfl,
    (str_canonical true (-20) "" .print
      [.long 1, .list [.long (-20), .string "a"], .function .print, .bool true]
      (by simp) (by simp)).2.2.2.2.2.trans rfl⟩

/-- C10: `Value::str` does not suppress a None element in the last position:
it filters None only in the loop over the elements before the last one and
appends the display of `list.back()` unconditionally. The list `[None]`
created by `a = []` displays as `[nil]`, and `print(a)` writes that; a None in
first or middle position is suppressed. In general the display of a list is
the bracketed sequence of its non-None elements before the last, each
followed by a comma and a space, and then its last element, None or not. -/
theorem str_shows_trailing_none :
    (Value.list [.nullptr]).str = .ok "[nil]" ∧
      (Value.list [.long 1, .nullptr]).str = .ok "[1, nil]" ∧
      (Value.list [.nullptr, .long 1, .nullptr, .long 2]).str = .ok "[1, 2]" ∧
      interpret 9 printEmptyListProgram "" = .ok "[nil]\n" ∧
      ∀ (init : List Value) (last : Value), (Value.list (init ++ [last])).str =
        ((init.filter (fun e => e.index ≠ 0)).mapM Value.str >>= fun shown =>
          last.str >>= fun s =>
            .ok ("[" ++ String.join (shown.map (fun t => t ++ ", ")) ++ s ++ "]")) :=
  ⟨rfl, rfl, rfl, rfl, fun init last => strLoop_general init last "["⟩

/-! ## Built-ins: helper lemmas -/

theorem intercalate_go_append (sep : String) (l : List String) :
    ∀ (acc a : String), String.intercalate.go acc sep (l ++ [a]) =
      String.intercalate.go acc sep l ++ sep ++ a := by
  induction l with
  | nil => intro acc a; rfl
  | cons b rest ih =>
    intro acc a
    show String.intercalate.go (acc ++ sep ++ b) sep (rest ++ [a]) = _
    rw [ih]
    rfl

theorem printLoop_spec (vs : List Value) :
    ∀ (count : Nat) (os : String) (shown : List String), shown.length = count →
      printLoop count vs (os ++ " ".intercalate shown) =
        (vs.mapM Value.str).map (fun strs => os ++ " ".intercalate (shown ++ strs)) := by
  induction vs with
  | nil =>
    intro count os shown _
    rw [List.mapM_nil]
    simp [printLoop, Except.map, pure, Except.pure]
  | cons v rest ih =>
    intro count os shown hlen
    rw [mapM_str_cons]
    unfold printLoop
    cases hv : v.str with
    | error e => rfl
    | ok t =>
      have hnext : (if count > 0 then os ++ " ".intercalate shown ++ " " ++ t
          else os ++ " ".intercalate shown ++ t) = os ++ " ".intercalate (shown ++ [t]) := by
        cases shown with
        | nil =>
          simp only [List.length_nil] at hlen
          subst hlen
          simp [String.intercalate, String.intercalate.go]
        | cons a as =>
          simp only [List.length_cons] at hlen
          have hpos : count > 0 := by omega
          rw [if_pos hpos]
          show _ = os ++ String.intercalate.go a " " (as ++ [t])
          rw [intercalate_go_append]
          show _ = os ++ (" ".intercalate (a :: as) ++ " " ++ t)
          simp only [String.append_assoc]
      show printLoop (count + 1) rest _ = _
      rw [hnext, ih (count + 1) os (shown ++ [t]) (by simp [hlen])]
      cases rest.mapM Value.str with
      | error e => rfl
      | ok strs =>
        show Except.ok _ = Except.ok _
        simp

theorem print_spec (ev : Eval) (values : List Value) (s : State) :
    callFunction ev .print values s =
      (values.mapM Value.str).map (fun strs =>
        (Value.nullptr, { s with os := s.os ++ " ".intercalate strs ++ "\n" })) := by
  have h := printLoop_spec values 0 s.os [] rfl
  simp only [String.intercalate, String.append_empty, List.nil_append] at h
  simp only [callFunction, h]
  cases values.mapM Value.str with
  | error e => rfl
  | ok strs => rfl

/-! ## Built-ins: the claims -/

/-- C11: the built-in `print` writes the display forms of its arguments,
separated by single spaces and followed by a newline, and returns None, as long
as every argument has a display form; on an empty List (in any argument, at any
depth) `Value::str` reads outside the vector and `print` does not return. The
program `a = [1]`, `print(a[0:0])` is such a call. -/
theorem print_empty_list_undefined :
    (∀ (ev : Eval) (values : List Value) (s : State),
        callFunction ev .print values s =
          (values.mapM Value.str).map (fun strs =>
            (Value.nullptr, { s with os := s.os ++ " ".intercalate strs ++ "\n" }))) ∧
      (Value.list []).str = .error .undefined_behaviour ∧
      (∀ (ev : Eval) (s : State),
        callFunction ev .print [.long 1, .list []] s = .error .undefined_behaviour) ∧
      (∀ (ev : Eval) (s : State),
        callFunction ev .print [.list [.list []]] s = .error .undefined_behaviour) ∧
      interpret 9 printEmptySliceProgram "" = .error .undefined_behaviour :=
  ⟨print_spec, rfl, fun _ _ => rfl, fun _ _ => rfl, rfl⟩

/-- C12: the built-in `len` on one argument succeeds exactly on a List, and
returns its number of positions, None placeholders counted; on every other
variant it fails with the TypeError of `get<List>`. The list created by
`a = []` has length 1. -/
theorem len_spec :
    (∀ (ev : Eval) (x : Value) (s : State),
        callFunction ev .len [x] s =
          match x with
          | .list l => .ok (.long l.length, s)
          | _ => .error (typeError x)) ∧
      (∀ (ev : Eval) (x : Value) (s : State),
        (∃ r, callFunction ev .len [x] s = .ok r) ↔ ∃ l, x = .list l) ∧
      (∀ (ev : Eval) (s : State),
        callFunction ev .len [.list [.nullptr, .long 3, .nullptr]] s = .ok (.long 3, s)) ∧
      interpret 9 printLenEmptyProgram "" = .ok "1\n" := by
  refine ⟨fun ev x s => ?_, fun ev x s => ?_, fun _ _ => rfl, rfl⟩
  · cases x <;> rfl
  · cases x with
    | list l => exact ⟨fun _ => ⟨l, rfl⟩, fun _ => ⟨_, rfl⟩⟩
    | nullptr => exact ⟨fun ⟨r, h⟩ => (by cases h), fun ⟨l, h⟩ => (by cases h)⟩
    | bool b => exact ⟨fun ⟨r, h⟩ => (by cases h), fun ⟨l, h⟩ => (by cases h)⟩
    | long i => exact ⟨fun ⟨r, h⟩ => (by cases h), fun ⟨l, h⟩ => (by cases h)⟩
    | string t => exact ⟨fun ⟨r, h⟩ => (by cases h), fun ⟨l, h⟩ => (by cases h)⟩
    | function f => exact ⟨fun ⟨r, h⟩ => (by cases h), fun ⟨l, h⟩ => (by cases h)⟩

/-! ## List access: helper lemmas -/

theorem access_list_index (ev : Eval) (a : String) (sub : Ast) (env : Addr) (s s1 : State)
    (L : List Value) (i : Int) (ha : get_value s.heap env a = .ok (.list L))
    (hsub : sub.tag ≠ "list_splice") (hi : ev sub env s = .ok (.long i, s1)) :
    access_list ev (indexAccess a sub) env s =
      if i < 0 ∨ i ≥ L.length then .error (.runtime_error "Accessing invalid element")
      else nodeAt L i.toNat >>= fun x => .ok (x, s1) := by
  unfold access_list
  show (get_value s.heap env a >>= _) = _
  rw [ha]
  show (if sub.tag = "list_splice" then _ else _) = _
  rw [if_neg hsub]
  show (ev sub env s >>= _) = _
  rw [hi]
  rfl

/-- C13: with `a` bound to a List `L` and the index expression evaluating to
the Int `i`, the access `a[i]` yields the element of `L` at position `i` when
`0 ≤ i < |L|`, and it fails, with the invalid-element error (IndexError),
exactly when `i < 0` or `i ≥ |L|`. -/
theorem access_list_in_range (ev : Eval) (a : String) (sub : Ast) (env : Nat) (s s1 : State)
    (L : List Value) (i : Int) (ha : get_value s.heap env a = .ok (.list L))
    (hsub : sub.tag ≠ "list_splice") (hi : ev sub env s = .ok (.long i, s1)) :
    (∀ h : 0 ≤ i ∧ i.toNat < L.length,
        access_list ev (indexAccess a sub) env s = .ok (L.get ⟨i.toNat, h.2⟩, s1)) ∧
      ((∃ e, access_list ev (indexAccess a sub) env s = .error e) ↔ (i < 0 ∨ i ≥ L.length)) ∧
      ((i < 0 ∨ i ≥ L.length) →
        access_list ev (indexAccess a sub) env s =
          .error (.runtime_error "Accessing invalid element")) := by
  have key := access_list_index ev a sub env s s1 L i ha hsub hi
  refine ⟨fun h => ?_, ⟨fun ⟨e, he⟩ => ?_, fun h => ?_⟩, fun h => ?_⟩
  · have hr : ¬ (i < 0 ∨ i ≥ L.length) := by omega
    rw [key, if_neg hr]
    simp only [nodeAt, List.getElem?_eq_getElem h.2]
    rfl
  · by_contra hr
    rw [key, if_neg hr] at he
    have hlt : i.toNat < L.length := by omega
    simp only [nodeAt, List.getElem?_eq_getElem hlt] at he
    cases he
  · exact ⟨_, by rw [key, if_pos h]⟩
  · rw [key, if_pos h]

theorem access_list_in_range_witness :
    (get_value oneElementState.heap 0 "a" = .ok (.list [.long 1]) ∧
        (leaf "NUMBER" "5").tag ≠ "list_splice" ∧
        eval 1 (leaf "NUMBER" "5") 0 oneElementState = .ok (.long 5, oneElementState)) ∧
      access_list (eval 1) (indexAccess "a" (leaf "NUMBER" "5")) 0 oneElementState =
        .error (.runtime_error "Accessing invalid element") :=
  ⟨⟨rfl, by decide, rfl⟩,
    (access_list_in_range (eval 1) "a" (leaf "NUMBER" "5") 0 oneElementState oneElementState
      [.long 1] 5 rfl (by decide) rfl).2.2 (Or.inr (by decide))⟩

theorem wrap32_of_small (x : Int) (h0 : 0 ≤ x) (h1 : x < 2147483648) : wrap32 x = x := by
  unfold wrap32
  omega

theorem sliceLoop_spec (L : List Value) (r : Int) :
    ∀ (count : Nat) (i : Int) (t : List Value), 0 ≤ i → r = i + count → r ≤ L.length →
      sliceLoop L r count i t = .ok (t ++ (L.drop i.toNat).take count) := by
  intro count
  induction count with
  | zero =>
    intro i t _ _ _
    simp [sliceLoop]
  | succ count ih =>
    intro i t h0 hr hle
    have hlt : i.toNat < L.length := by omega
    have hir : i < r := by omega
    unfold sliceLoop
    rw [if_pos hir, if_pos h0]
    simp only [nodeAt, List.getElem?_eq_getElem hlt]
    show sliceLoop L r count (i + 1) (t ++ [L[i.toNat]]) = _
    rw [ih (i + 1) _ (by omega) (by push_cast at hr ⊢; omega) hle]
    have h1 : (i + 1).toNat = i.toNat + 1 := by omega
    rw [h1, List.drop_eq_getElem_cons hlt, List.take_succ_cons]
    simp

theorem access_list_slice (ev : Eval) (a : String) (ends : List Ast) (env : Addr)
    (s s1 : State) (L : List Value) (l r : Int)
    (ha : get_value s.heap env a = .ok (.list L))
    (hends : spliceEnds ev env ends (-1) (-1) s = .ok ((l, r), s1)) :
    access_list ev (sliceAccess a ends) env s =
      (sliceLoop L (spliceRange l r L.length).2
        ((spliceRange l r L.length).2 - wrap32 (spliceRange l r L.length).1).toNat
        (wrap32 (spliceRange l r L.length).1) [] >>= fun t => .ok (.list t, s1)) := by
  unfold access_list
  show (get_value s.heap env a >>= _) = _
  rw [ha]
  show (spliceEnds ev env ends (-1) (-1) s >>= _) = _
  rw [hends]
  rfl

theorem slice_of_range (L : List Value) (lo hi : Int) (h0 : 0 ≤ lo) (h1 : lo ≤ hi)
    (h2 : hi ≤ L.length) (hsize : L.length < 2147483648) :
    sliceLoop L hi (hi - wrap32 lo).toNat (wrap32 lo) [] =
      .ok ((L.drop lo.toNat).take (hi - lo).toNat) := by
  rw [wrap32_of_small lo h0 (by omega)]
  rw [sliceLoop_spec L hi (hi - lo).toNat lo [] h0 (by omega) h2]
  simp

theorem spliceEnds_both (ev : Eval) (env : Addr) (lnode rnode : Ast) (s s1 s2 : State)
    (l r : Int) (hl : lnode.tag = "leftSp") (hr : rnode.tag = "rightSp")
    (el : ev lnode env s = .ok (.long l, s1)) (er : ev rnode env s1 = .ok (.long r, s2)) :
    spliceEnds ev env [lnode, rnode] (-1) (-1) s = .ok ((l, r), s2) := by
  have hr2 : ¬ rnode.tag = "leftSp" := by rw [hr]; decide
  simp only [spliceEnds, hl, if_true]
  show (ev lnode env s >>= _) = _
  rw [el]
  show (if rnode.tag = "leftSp" then _ else _) = _
  rw [if_neg hr2, if_pos hr]
  show (ev rnode env s1 >>= _) = _
  rw [er]
  rfl

theorem spliceEnds_left (ev : Eval) (env : Addr) (lnode : Ast) (s s1 : State) (l : Int)
    (hl : lnode.tag = "leftSp") (el : ev lnode env s = .ok (.long l, s1)) :
    spliceEnds ev env [lnode] (-1) (-1) s = .ok ((l, -1), s1) := by
  simp only [spliceEnds, hl, if_true]
  show (ev lnode env s >>= _) = _
  rw [el]
  rfl

theorem spliceEnds_right (ev : Eval) (env : Addr) (rnode : Ast) (s s1 : State) (r : Int)
    (hr : rnode.tag = "rightSp") (er : ev rnode env s = .ok (.long r, s1)) :
    spliceEnds ev env [rnode] (-1) (-1) s = .ok ((-1, r), s1) := by
  have hr2 : ¬ rnode.tag = "leftSp" := by rw [hr]; decide
  simp only [spliceEnds]
  rw [if_neg hr2, if_pos hr]
  show (ev rnode env s >>= _) = _
  rw [er]
  rfl

/-- C15: with `a` bound to a List `L`, the slice access `a[l:r]` with
`0 ≤ l ≤ r ≤ |L|` yields the list of the elements of `L` at positions
`l, ..., r-1` in order; an absent left endpoint stands for 0 and an absent
right endpoint for `|L|`, so `a[:]` yields `L` itself, both as a
`list_splice` without endpoints and as the bare `NAME` node. The length of `L`
is taken to fit the `int` the loop counts in. -/
theorem access_list_slice_range (ev : Eval) (a : String) (env : Nat) (s : State)
    (L : List Value) (ha : get_value s.heap env a = .ok (.list L))
    (hsize : L.length < 2147483648) :
    (∀ (lnode rnode : Ast) (s1 s2 : State) (l r : Int), lnode.tag = "leftSp" →
        rnode.tag = "rightSp" → ev lnode env s = .ok (.long l, s1) →
        ev rnode env s1 = .ok (.long r, s2) → 0 ≤ l → l ≤ r → r ≤ L.length →
        access_list ev (sliceAccess a [lnode, rnode]) env s =
          .ok (.list ((L.drop l.toNat).take (r - l).toNat), s2)) ∧
      (∀ (lnode : Ast) (s1 : State) (l : Int), lnode.tag = "leftSp" →
        ev lnode env s = .ok (.long l, s1) → 0 ≤ l → l ≤ L.length →
        access_list ev (sliceAccess a [lnode]) env s = .ok (.list (L.drop l.toNat), s1)) ∧
      (∀ (rnode : Ast) (s1 : State) (r : Int), rnode.tag = "rightSp" →
        ev rnode env s = .ok (.long r, s1) → 0 ≤ r → r ≤ L.length →
        access_list ev (sliceAccess a [rnode]) env s = .ok (.list (L.take r.toNat), s1)) ∧
      access_list ev (sliceAccess a []) env s = .ok (.list L, s) ∧
      ∀ count : Nat, evalNode ev count (leaf "NAME" a) env s = .ok (.list L, s) := by
  refine ⟨?_, ?_, ?_, ?_, ?_⟩
  · intro lnode rnode s1 s2 l r hl hr el er h0 h1 h2
    rw [access_list_slice ev a _ env s s2 L l r ha (spliceEnds_both ev env lnode rnode s s1 s2
      l r hl hr el er)]
    have hrange : spliceRange l r L.length = (l, r) := by
      unfold spliceRange
      rw [if_neg (by omega), if_neg (by omega), if_pos (by omega)]
    rw [hrange]
    show (sliceLoop L r (r - wrap32 l).toNat (wrap32 l) [] >>= _) = _
    rw [slice_of_range L l r h0 h1 h2 hsize]
    rfl
  · intro lnode s1 l hl el h0 h1
    rw [access_list_slice ev a _ env s s1 L l (-1) ha (spliceEnds_left ev env lnode s s1 l hl el)]
    have hrange : spliceRange l (-1) L.length = (l, (L.length : Int)) := by
      unfold spliceRange
      rw [if_pos (by omega)]
    rw [hrange]
    show (sliceLoop L L.length ((L.length : Int) - wrap32 l).toNat (wrap32 l) [] >>= _) = _
    rw [slice_of_range L l L.length h0 h1 (le_refl _) hsize]
    have hk : L.length - l.toNat ≤ ((L.length : Int) - l).toNat := by omega
    rw [List.take_of_length_le (by simp only [List.length_drop]; exact hk)]
    rfl
  · intro rnode s1 r hr er h0 h1
    rw [access_list_slice ev a _ env s s1 L (-1) r ha
      (spliceEnds_right ev env rnode s s1 r hr er)]
    have hrange : spliceRange (-1) r L.length = (0, r) := by
      unfold spliceRange
      rw [if_neg (by omega), if_pos (by omega)]
    rw [hrange]
    show (sliceLoop L r (r - wrap32 0).toNat (wrap32 0) [] >>= _) = _
    rw [slice_of_range L 0 r (le_refl _) h0 h1 hsize]
    simp only [Int.toNat_zero, List.drop_zero, Int.sub_zero]
    rfl
  · rw [access_list_slice ev a [] env s s L (-1) (-1) ha rfl]
    have hrange : spliceRange (-1) (-1) L.length = (0, (L.length : Int)) := by
      unfold spliceRange
      rw [if_neg (by omega), if_neg (by omega), if_neg (by omega)]
    rw [hrange]
    show (sliceLoop L L.length ((L.length : Int) - wrap32 0).toNat (wrap32 0) [] >>= _) = _
    rw [slice_of_range L 0 L.length (le_refl _) (by omega) (le_refl _) hsize]
    simp only [Int.toNat_zero, List.drop_zero, Int.sub_zero, Int.toNat_ofNat, List.take_length]
    rfl
  · intro count
    rw [evalNode_NAME, ha]
    rfl

theorem access_list_slice_range_witness :
    (get_value threeElementState.heap 0 "a" = .ok (.list [.long 1, .long 2, .long 3]) ∧
        [Value.long 1, .long 2, .long 3].length < 2147483648) ∧
      (access_list (eval 4) (sliceAccess "a" [leftNumber "1", rightNumber "3"]) 0
          threeElementState = .ok (.list [.long 2, .long 3], threeElementState) ∧
        access_list (eval 4) (sliceAccess "a" []) 0 threeElementState =
          .ok (.list [.long 1, .long 2, .long 3], threeElementState)) :=
  ⟨⟨rfl, by decide⟩,
    (access_list_slice_range (eval 4) "a" 0 threeElementState [.long 1, .long 2, .long 3]
      rfl (by decide)).1 (leftNumber "1") (rightNumber "3") threeElementState
      threeElementState 1 3 rfl rfl rfl rfl (by decide) (by decide) (by decide),
    (access_list_slice_range (eval 4) "a" 0 threeElementState [.long 1, .long 2, .long 3]
      rfl (by decide)).2.2.2.1⟩

/-! ## List concatenation -/

theorem concat_name_name (ev : Eval) (x y : String) (env : Addr) (s : State)
    (X Y : List Value) (hx : get_value s.heap env x = .ok (.list X))
    (hy : get_value s.heap env y = .ok (.list Y)) :
    eval_expr ev (plusExpr x (leaf "NAME" y)) env s =
      .ok (.list (X ++ Y.filter (fun k => k.index ≠ 0)), s) := by
  unfold eval_expr
  show (get_value s.heap env x >>= _) = _
  rw [hx]
  show (concatLoop ev env [leaf "term_op" "+", leaf "NAME" y] X s >>= _) = _
  unfold concatLoop
  show ((get_value s.heap env y >>= _) >>= _) = _
  rw [hy]
  rfl

theorem concat_name_literal (ev : Eval) (x : String) (elems : List Ast) (env : Addr)
    (s s1 : State) (X vals : List Value) (hx : get_value s.heap env x = .ok (.list X))
    (hy : evalNodes ev env elems s = .ok (vals, s1)) :
    eval_expr ev (plusExpr x (node "raw_list" elems)) env s = .ok (.list (X ++ vals), s1) := by
  unfold eval_expr
  show (get_value s.heap env x >>= _) = _
  rw [hx]
  show (concatLoop ev env [leaf "term_op" "+", node "raw_list" elems] X s >>= _) = _
  unfold concatLoop
  show ((evalNodes ev env elems s >>= _) >>= _) = _
  rw [hy]
  rfl

/-- C16 as stated fails: after `a = [1]`, `b = []` the expression `a + b`, whose
right operand is bound to `[None]`, yields `[1]` and not `[1, None]`: the None
placeholders of a right operand that is a NAME are filtered out. And `b + [5]`,
whose left operand is bound to `[None]`, yields `[None, 5]` and not `[5]`: the
left list is taken as it is. -/
theorem concat_filters_right_operand :
    ∃ s : State, eval 9 concatProgram 0 initialState = .ok (.nullptr, s) ∧
      get_value s.heap 0 "a" = .ok (.list [.long 1]) ∧
      get_value s.heap 0 "b" = .ok (.list [.nullptr]) ∧
      get_value s.heap 0 "c" = .ok (.list [.long 1]) ∧
      get_value s.heap 0 "d" = .ok (.list [.nullptr, .long 5]) :=
  ⟨_, rfl, rfl, rfl, rfl, rfl⟩

/-- C16 amended: for an expression `x + y` whose first operand `x` is a NAME
bound to a List `X` without None elements, the result is the elements of `X`
followed, when `y` is a NAME bound to a List `Y`, by the non-None elements of
`Y`, and when `y` is a list literal, by the values of its elements, in
order. -/
theorem concat_name_list (ev : Eval) (x : String) (env : Nat) (s : State) (X : List Value)
    (hx : get_value s.heap env x = .ok (.list X)) (hX : ∀ e ∈ X, e ≠ .nullptr) :
    (∀ (y : String) (Y : List Value), get_value s.heap env y = .ok (.list Y) →
        eval_expr ev (plusExpr x (leaf "NAME" y)) env s =
          .ok (.list (X.filter (fun k => k.index ≠ 0) ++ Y.filter (fun k => k.index ≠ 0)),
            s)) ∧
      (∀ (elems : List Ast) (vals : List Value) (s1 : State),
        evalNodes ev env elems s = .ok (vals, s1) →
        eval_expr ev (plusExpr x (node "raw_list" elems)) env s =
          .ok (.list (X.filter (fun k => k.index ≠ 0) ++ vals), s1)) := by
  have hfilter : X.filter (fun k => k.index ≠ 0) = X := by
    apply List.filter_eq_self.2
    intro e he
    have := hX e he
    cases e <;> simp_all [Value.index]
  rw [hfilter]
  exact ⟨fun y Y hy => concat_name_name ev x y env s X Y hx hy,
    fun elems vals s1 hy => concat_name_literal ev x elems env s s1 X vals hx hy⟩

theorem concat_name_list_witness :
    (get_value twoListsState.heap 0 "a" = .ok (.list [.long 1, .long 2]) ∧
        ∀ e ∈ [Value.long 1, .long 2], e ≠ .nullptr) ∧
      (eval_expr (eval 3) (plusExpr "a" (leaf "NAME" "b")) 0 twoListsState =
          .ok (.list [.long 1, .long 2, .long 3], twoListsState) ∧
        eval_expr (eval 3) (plusExpr "a" (node "raw_list" [numberExpr "4", numberExpr "5"])) 0
          twoListsState = .ok (.list [.long 1, .long 2, .long 4, .long 5], twoListsState)) :=
  ⟨⟨rfl, by simp⟩,
    (concat_name_list (eval 3) "a" 0 twoListsState [.long 1, .long 2] rfl (by simp)).1
      "b" [.nullptr, .long 3] rfl,
    (concat_name_list (eval 3) "a" 0 twoListsState [.long 1, .long 2] rfl (by simp)).2
      [numberExpr "4", numberExpr "5"] [.long 4, .long 5] twoListsState rfl⟩

/-! ## Terms -/

theorem termLoop_spec (ev : Eval) (env : Addr) (rest : List Ast) :
    ∀ (val : Int) (s s1 : State) (ops : List (Char × Int)),
      operandValues ev env rest s = .ok (ops, s1) →
      termLoop ev env rest val s =
        if dividesByZero ops then .error (.runtime_error "Divide by zero")
        else .ok (termFold val ops, s1) := by
  induction rest using pair_induction with
  | h0 =>
    intro val s s1 ops h
    cases h
    rfl
  | h1 a =>
    intro val s s1 ops h
    cases h
  | h2 op next rest ih =>
    intro val s s1 ops h
    unfold operandValues at h
    obtain ⟨r, hr, h⟩ := bind_ok h
    obtain ⟨rval, hrval, h⟩ := bind_ok h
    obtain ⟨rs, hrs, h⟩ := bind_ok h
    cases h
    unfold termLoop
    show (ev next env s >>= _) = _
    rw [hr]
    show (r.1.get_long >>= _) = _
    rw [hrval]
    show (if firstChar op.token_to_string = '*' then _ else _) = _
    by_cases hmul : firstChar op.token_to_string = '*'
    · rw [if_pos hmul, ih _ _ _ _ hrs]
      simp [dividesByZero, termFold, hmul]
    · rw [if_neg hmul]
      by_cases hdiv : firstChar op.token_to_string = '/'
      · rw [if_pos hdiv]
        by_cases h0 : rval = 0
        · rw [if_pos h0]
          simp [dividesByZero, hdiv, h0]
        · rw [if_neg h0, ih _ _ _ _ hrs]
          simp [dividesByZero, termFold, hdiv, h0]
      · rw [if_neg hdiv, ih _ _ _ _ hrs]
        simp [dividesByZero, termFold, hmul, hdiv]

theorem eval_term_spec (ev : Eval) (tag token : String) (first : Ast) (rest : List Ast)
    (env : Addr) (s s0 s1 : State) (v0 : Int) (ops : List (Char × Int))
    (hfirst : ev first env s = .ok (.long v0, s0))
    (hops : operandValues ev env rest s0 = .ok (ops, s1)) :
    eval_term ev (.mk tag token (first :: rest)) env s =
      if dividesByZero ops then .error (.runtime_error "Divide by zero")
      else .ok (.long (termFold v0 ops), s1) := by
  unfold eval_term
  show (nodeAt (first :: rest) 0 >>= _) = _
  have hnode : nodeAt (first :: rest) 0 = .ok first := by simp [nodeAt]
  rw [hnode]
  show (ev first env s >>= _) = _
  rw [hfirst]
  show (termLoop ev env rest v0 s0 >>= _) = _
  rw [termLoop_spec ev env rest v0 s0 s1 ops hops]
  by_cases h : dividesByZero ops = true
  · rw [if_pos h, if_pos h]
    rfl
  · rw [if_neg h, if_neg h]
    rfl

theorem sumInRange_head (val : Int) (ops : List (Char × Int)) (h : sumInRange val ops) :
    inLongRange val := by
  cases ops with
  | nil => exact h
  | cons p ops => exact h.1

theorem termInRange_head (val : Int) (ops : List (Char × Int)) (h : termInRange val ops) :
    inLongRange val := by
  cases ops with
  | nil => exact h
  | cons p ops => exact h.1

theorem sumLoop_spec (ev : Eval) (env : Addr) (rest : List Ast) :
    ∀ (val : Int) (s s1 : State) (ops : List (Char × Int)),
      operandValues ev env rest s = .ok (ops, s1) → sumInRange val ops →
      sumLoop ev env rest val s = .ok (sumExact val ops, s1) := by
  induction rest using pair_induction with
  | h0 =>
    intro val s s1 ops h _
    cases h
    rfl
  | h1 a =>
    intro val s s1 ops h
    cases h
  | h2 op next rest ih =>
    intro val s s1 ops h hrange
    unfold operandValues at h
    obtain ⟨r, hr, h⟩ := bind_ok h
    obtain ⟨rval, hrval, h⟩ := bind_ok h
    obtain ⟨rs, hrs, h⟩ := bind_ok h
    cases h
    have hnext : inLongRange (sumStep (firstChar op.token_to_string) val rval) :=
      sumInRange_head _ _ hrange.2
    rw [sumLoop]
    show (ev next env s >>= _) = _
    rw [hr]
    show (r.1.get_long >>= _) = _
    rw [hrval]
    show sumLoop ev env rest _ r.2 = _
    have hstep : (if firstChar op.token_to_string = '+' then wrap64 (val + rval)
        else if firstChar op.token_to_string = '-' then wrap64 (val - rval) else val) =
        sumStep (firstChar op.token_to_string) val rval := by
      unfold sumStep at hnext ⊢
      by_cases hp : firstChar op.token_to_string = '+'
      · simp only [if_pos hp] at hnext ⊢
        exact wrap64_of_inLongRange _ hnext
      · simp only [if_neg hp] at hnext ⊢
        by_cases hm : firstChar op.token_to_string = '-'
        · simp only [if_pos hm] at hnext ⊢
          exact wrap64_of_inLongRange _ hnext
        · simp only [if_neg hm]
    rw [hstep]
    exact ih _ _ _ _ hrs hrange.2

theorem termFold_eq_termExact (ops : List (Char × Int)) :
    ∀ val : Int, termInRange val ops → termFold val ops = termExact val ops := by
  induction ops with
  | nil => intro val _; rfl
  | cons p ops ih =>
    intro val h
    obtain ⟨oper, rval⟩ := p
    have hnext : inLongRange (termStep oper val rval) := termInRange_head _ _ h.2
    have hstep : (if oper = '*' then wrap64 (val * rval)
        else if oper = '/' then wrap64 (Int.tdiv val rval) else val) =
        termStep oper val rval := by
      unfold termStep at hnext ⊢
      by_cases hp : oper = '*'
      · simp only [if_pos hp] at hnext ⊢
        exact wrap64_of_inLongRange _ hnext
      · simp only [if_neg hp] at hnext ⊢
        by_cases hm : oper = '/'
        · simp only [if_pos hm] at hnext ⊢
          exact wrap64_of_inLongRange _ hnext
        · simp only [if_neg hm]
    show termFold _ ops = termExact _ ops
    rw [hstep]
    exact ih _ h.2

theorem eval_arith_spec (ev : Eval) (sign : String) (first : Ast) (rest : List Ast)
    (env : Addr) (s s0 s1 : State) (v0 : Int) (ops : List (Char × Int))
    (hfirst : ev first env s = .ok (.long v0, s0))
    (hops : operandValues ev env rest s0 = .ok (ops, s1))
    (hrange : sumInRange (v0 * signValue sign) ops) :
    eval_arith ev sign first rest env s =
      .ok (.long (sumExact (v0 * signValue sign) ops), s1) := by
  unfold eval_arith
  show (ev first env s >>= _) = _
  rw [hfirst]
  show (sumLoop ev env rest (wrap64 (v0 * signValue sign)) s0 >>= _) = _
  rw [wrap64_of_inLongRange _ (sumInRange_head _ _ hrange),
    sumLoop_spec ev env rest _ s0 s1 ops hops hrange]
  rfl

theorem evalNode_tag_NAME (ev : Eval) (count : Nat) (ast : Ast) (env : Addr) (s : State)
    (h : ast.tag = "NAME") :
    evalNode ev count ast env s =
      (get_value s.heap env ast.token_to_string >>= fun v => .ok (v, s)) := by
  unfold evalNode
  simp [h]

theorem eval_NAME_long (fuel : Nat) (first : Ast) (env : Addr) (s s0 : State) (v0 : Int)
    (h : first.tag = "NAME") (hfirst : eval fuel first env s = .ok (.long v0, s0)) :
    get_value s.heap env first.token_to_string = .ok (.long v0) := by
  cases fuel with
  | zero => cases hfirst
  | succ k =>
    have h1 : eval (k + 1) first env s = evalNode (eval k) k first env s := rfl
    rw [h1, evalNode_tag_NAME _ _ _ _ _ h] at hfirst
    obtain ⟨v, hv, h2⟩ := bind_ok hfirst
    cases h2
    exact hv

theorem eval_expr_arith (fuel : Nat) (token : String) (sgn first : Ast) (rest : List Ast)
    (env : Addr) (s s0 s1 : State) (v0 : Int) (ops : List (Char × Int))
    (hraw : first.tag ≠ "raw_list")
    (hshape : rest ≠ [] ∨ (first.tag ≠ "call" ∧ first.tag ≠ "list_value"))
    (hfirst : eval fuel first env s = .ok (.long v0, s0))
    (hops : operandValues (eval fuel) env rest s0 = .ok (ops, s1))
    (hrange : sumInRange (v0 * signValue sgn.token_to_string) ops) :
    eval (fuel + 1) (.mk "expression" token (sgn :: first :: rest)) env s =
      .ok (.long (sumExact (v0 * signValue sgn.token_to_string) ops), s1) := by
  have harith := eval_arith_spec (eval fuel) sgn.token_to_string first rest env s s0 s1 v0
    ops hfirst hops hrange
  show eval_expr (eval fuel) (.mk "expression" token (sgn :: first :: rest)) env s = _
  have hn0 : nodeAt (sgn :: first :: rest) 0 = .ok sgn := by simp [nodeAt]
  have hn1 : nodeAt (sgn :: first :: rest) 1 = .ok first := by simp [nodeAt]
  unfold eval_expr
  show (nodeAt (sgn :: first :: rest) 0 >>= _) = _
  rw [hn0]
  show (nodeAt (sgn :: first :: rest) 1 >>= _) = _
  rw [hn1]
  show (if (sgn :: first :: rest).length = 2 ∧ (first.tag = "call" ∨ first.tag = "list_value")
    then _ else _) = _
  have h1 : ¬ ((sgn :: first :: rest).length = 2 ∧
      (first.tag = "call" ∨ first.tag = "list_value")) := by
    rintro ⟨hlen, htag⟩
    rcases hshape with hne | ⟨hc, hl⟩
    · cases rest with
      | nil => exact hne rfl
      | cons a rest => simp at hlen
    · rcases htag with h | h
      · exact hc h
      · exact hl h
  rw [if_neg h1]
  have h2 : ¬ ((sgn :: first :: rest).length = 2 ∧ first.tag = "STRING") := by
    rintro ⟨_, htag⟩
    cases fuel with
    | zero => cases hfirst
    | succ k =>
      have h3 : eval (k + 1) first env s = .ok (.string first.token_to_string, s) := by
        show evalNode (eval k) k first env s = _
        unfold evalNode
        simp [htag]
      rw [h3] at hfirst
      cases hfirst
  show (if (sgn :: first :: rest).length = 2 ∧ first.tag = "STRING" then _
    else if first.tag = "raw_list" then _
    else if first.tag = "NAME" then _
    else eval_arith (eval fuel) sgn.token_to_string first rest env s) = _
  rw [if_neg h2, if_neg hraw]
  by_cases hname : first.tag = "NAME"
  · rw [if_pos hname]
    show (get_value s.heap env first.token_to_string >>= _) = _
    rw [eval_NAME_long fuel first env s s0 v0 hname hfirst]
    exact harith
  · rw [if_neg hname]
    exact harith

theorem eval_expr_single (ev : Eval) (token : String) (sgn first : Ast) (rest : List Ast)
    (env : Addr) (s : State) (hrest : rest = [])
    (htag : first.tag = "call" ∨ first.tag = "list_value") :
    eval_expr ev (.mk "expression" token (sgn :: first :: rest)) env s = ev first env s := by
  have hn0 : nodeAt (sgn :: first :: rest) 0 = .ok sgn := by simp [nodeAt]
  have hn1 : nodeAt (sgn :: first :: rest) 1 = .ok first := by simp [nodeAt]
  unfold eval_expr
  show (nodeAt (sgn :: first :: rest) 0 >>= _) = _
  rw [hn0]
  show (nodeAt (sgn :: first :: rest) 1 >>= _) = _
  rw [hn1]
  show (if (sgn :: first :: rest).length = 2 ∧
    (first.tag = "call" ∨ first.tag = "list_value") then ev first env s else _) = _
  rw [if_pos ⟨by rw [hrest]; rfl, htag⟩]

/-- C20 as stated fails: after `def f(): return 3` the expression `-f()` yields 3
and not -3, and after `a = [5]` the expression `-a[0]` yields 5: an expression
that is a sign and one operand of kind `call` or `list_value` returns the value
of the operand and never looks at the sign. -/
theorem eval_expr_ignores_sign_of_call :
    ∃ s : State, eval 9 negatedCallProgram 0 initialState = .ok (.nullptr, s) ∧
      get_value s.heap 0 "x" = .ok (.long 3) ∧ get_value s.heap 0 "y" = .ok (.long 5) :=
  ⟨_, rfl, rfl, rfl⟩

/-- C20 amended: let the first operand `first` of an expression evaluate to the
Int `v0` and the operands after the operators of `rest` to the Ints of `ops`.
Unless the expression is a sign and a single operand of kind `call` or
`list_value`, and when `first` is no list literal and the intermediate results
stay in the signed 64-bit range, `eval` yields `v0` times the sign (1 for no
sign or `+`, -1 for `-`) folded with `+` and `-` from left to right over `ops`.
A sign and a single `call` or `list_value` operand yield `v0`, the sign being
ignored. A term with the factors `first`, `rest` yields the fold of `*` and the
truncating `/` over them when no divisor is 0 and the intermediate results stay
in range. So `2 + 3 * 4` yields 14 and `-2 + 3` yields 1. -/
theorem eval_expr_integer_arithmetic (fuel : Nat) (token : String) (sgn first : Ast)
    (rest : List Ast) (env : Nat) (s s0 s1 : State) (v0 : Int) (ops : List (Char × Int))
    (hfirst : eval fuel first env s = .ok (.long v0, s0))
    (hops : operandValues (eval fuel) env rest s0 = .ok (ops, s1)) :
    (first.tag ≠ "raw_list" →
      rest ≠ [] ∨ (first.tag ≠ "call" ∧ first.tag ≠ "list_value") →
      sumInRange (v0 * signValue sgn.token_to_string) ops →
      eval (fuel + 1) (.mk "expression" token (sgn :: first :: rest)) env s =
        .ok (.long (sumExact (v0 * signValue sgn.token_to_string) ops), s1)) ∧
    (first.tag = "call" ∨ first.tag = "list_value" →
      eval (fuel + 1) (.mk "expression" token [sgn, first]) env s = .ok (.long v0, s0)) ∧
    (dividesByZero ops = false → termInRange v0 ops →
      eval (fuel + 1) (.mk "term" token (first :: rest)) env s =
        .ok (.long (termExact v0 ops), s1)) ∧
    (∀ k : Nat, eval (k + 3) twoPlusThreeTimesFour 0 initialState =
      .ok (.long 14, initialState)) ∧
    (∀ k : Nat, eval (k + 2) minusTwoPlusThree 0 initialState =
      .ok (.long 1, initialState)) := by
  refine ⟨fun hraw hshape hrange => eval_expr_arith fuel token sgn first rest env s s0 s1
    v0 ops hraw hshape hfirst hops hrange, ?_, ?_, fun k => rfl, fun k => rfl⟩
  · intro htag
    exact (eval_expr_single (eval fuel) token sgn first [] env s rfl htag).trans hfirst
  · intro hdiv hrange
    show eval_term (eval fuel) (.mk "term" token (first :: rest)) env s = _
    rw [eval_term_spec (eval fuel) "term" token first rest env s s0 s1 v0 ops hfirst hops,
      hdiv, termFold_eq_termExact ops v0 hrange]
    rfl

theorem eval_expr_integer_arithmetic_witness :
    (eval 2 (leaf "NUMBER" "7") 0 initialState = .ok (.long 7, initialState) ∧
      operandValues (eval 2) 0 [leaf "op" "-", leaf "NUMBER" "9"] initialState =
        .ok ([('-', 9)], initialState)) ∧
    eval 3 (node "expression" [leaf "sign" "-", leaf "NUMBER" "7", leaf "op" "-",
      leaf "NUMBER" "9"]) 0 initialState = .ok (.long (-16), initialState) :=
  ⟨⟨rfl, rfl⟩,
    ((eval_expr_integer_arithmetic 2 "" (leaf "sign" "-") (leaf "NUMBER" "7")
      [leaf "op" "-", leaf "NUMBER" "9"] 0 initialState initialState initialState 7
      [('-', 9)] rfl rfl).1 (by decide) (Or.inl (List.cons_ne_nil _ _)) (by decide)).trans rfl⟩

/-! ## The grammar: more fuel never changes an outcome -/

theorem pegMatch_succ (g : Rule → Peg) : ∀ (fuel : Nat) (e : Peg) (input : List Char),
    pegMatch g fuel e input ≠ .out_of_fuel →
    pegMatch g (fuel + 1) e input = pegMatch g fuel e input := by
  intro fuel
  induction fuel with
  | zero =>
    intro e input h
    exact absurd rfl h
  | succ n ih =>
    intro e input h
    cases e with
    | lit text => rfl
    | cls ranges negated => rfl
    | dot => rfl
    | seq items =>
      cases items with
      | nil => rfl
      | cons a items =>
        simp only [pegMatch] at h ⊢
        cases hx : pegMatch g n a input with
        | out_of_fuel => rw [hx] at h; exact absurd rfl h
        | fail => rw [ih a input (by rw [hx]; simp), hx]
        | ok rest =>
          rw [hx] at h
          rw [ih a input (by rw [hx]; simp), hx]
          exact ih (.seq items) rest h
    | choice alternatives =>
      cases alternatives with
      | nil => rfl
      | cons a alternatives =>
        simp only [pegMatch] at h ⊢
        cases hx : pegMatch g n a input with
        | out_of_fuel => rw [hx] at h; exact absurd rfl h
        | ok rest => rw [ih a input (by rw [hx]; simp), hx]
        | fail =>
          rw [hx] at h
          rw [ih a input (by rw [hx]; simp), hx]
          exact ih (.choice alternatives) input h
    | star a =>
      simp only [pegMatch] at h ⊢
      cases hx : pegMatch g n a input with
      | out_of_fuel => rw [hx] at h; exact absurd rfl h
      | fail => rw [ih a input (by rw [hx]; simp), hx]
      | ok rest =>
        rw [hx] at h
        rw [ih a input (by rw [hx]; simp), hx]
        exact ih (.star a) rest h
    | plus a =>
      simp only [pegMatch] at h ⊢
      cases hx : pegMatch g n a input with
      | out_of_fuel => rw [hx] at h; exact absurd rfl h
      | fail => rw [ih a input (by rw [hx]; simp), hx]
      | ok rest =>
        rw [hx] at h
        rw [ih a input (by rw [hx]; simp), hx]
        exact ih (.star a) rest h
    | opt a =>
      simp only [pegMatch] at h ⊢
      cases hx : pegMatch g n a input with
      | out_of_fuel => rw [hx] at h; exact absurd rfl h
      | fail => rw [ih a input (by rw [hx]; simp), hx]
      | ok rest => rw [ih a input (by rw [hx]; simp), hx]
    | notP a =>
      simp only [pegMatch] at h ⊢
      cases hx : pegMatch g n a input with
      | out_of_fuel => rw [hx] at h; exact absurd rfl h
      | fail => rw [ih a input (by rw [hx]; simp), hx]
      | ok rest => rw [ih a input (by rw [hx]; simp), hx]
    | ref r =>
      simp only [pegMatch] at h ⊢
      exact ih (g r) input h

theorem pegMatch_add (g : Rule → Peg) (fuel : Nat) (e : Peg) (input : List Char)
    (h : pegMatch g fuel e input ≠ .out_of_fuel) (k : Nat) :
    pegMatch g (fuel + k) e input = pegMatch g fuel e input := by
  induction k with
  | zero => rfl
  | succ k ih =>
    have h1 : pegMatch g (fuel + k) e input ≠ .out_of_fuel := by rw [ih]; exact h
    rw [← Nat.add_assoc, pegMatch_succ g (fuel + k) e input h1, ih]

/-! ## The Fibonacci scenario -/

/-- C18: the normalized text of the Fibonacci source is not accepted by the
grammar: `parse` fails on it for every recursion budget from 100 on. The rule
`call` fails on `f(n-1)`, because of its argument alternatives
`call / VALUE / expression` the second one matches the `n` of `n-1` (the third
one, `expression`, would match all of `n-1`), and nothing of the rule matches
the `-` that follows; so `return f` is all the `return_stmt` takes and the block
of `f` cannot be closed. The `while` scenario is accepted. On the tree the source
stands for, with both arguments read as expressions, `interpret` writes
`55\n`. -/
theorem fib_source_rejected :
    pythonCFL fibSource =
      "def f(n):\n\x7b\n if n <= 1:\n\x7b\n return n\n\n\x7d return f(n-1) + f(n-2)\n\n\x7dprint(f(10))" ∧
    (∀ k : Nat, parse (100 + k) (pythonCFL fibSource) = .fail) ∧
    (∀ k : Nat, pegMatch grammar (50 + k) (.ref .call) "f(n-1)".data = .fail) ∧
    (∀ k : Nat, pegMatch grammar (50 + k) (.ref .VALUE) "n-1)".data = .ok "-1)".data) ∧
    (∀ k : Nat, pegMatch grammar (50 + k) (.ref .expression) "n-1)".data = .ok ")".data) ∧
    (∀ k : Nat, pegMatch grammar (50 + k) (.ref .return_stmt) "return f(n-1) + f(n-2)".data =
      .ok "(n-1) + f(n-2)".data) ∧
    (∀ k : Nat, parse (100 + k) (pythonCFL whileSource) = .ok []) ∧
    interpret 45 fibProgram "" = .ok "55\n" := by
  have h1 : parse 100 (pythonCFL fibSource) = .fail := by decide!
  have h2 : pegMatch grammar 50 (.ref .call) "f(n-1)".data = .fail := by decide!
  have h3 : pegMatch grammar 50 (.ref .VALUE) "n-1)".data = .ok "-1)".data := by decide!
  have h4 : pegMatch grammar 50 (.ref .expression) "n-1)".data = .ok ")".data := by decide!
  have h5 : pegMatch grammar 50 (.ref .return_stmt) "return f(n-1) + f(n-2)".data =
      .ok "(n-1) + f(n-2)".data := by decide!
  have h6 : parse 100 (pythonCFL whileSource) = .ok [] := by decide!
  refine ⟨by decide!, fun k => ?_, fun k => ?_, fun k => ?_, fun k => ?_, fun k => ?_,
    fun k => ?_, by decide!⟩
  · exact (pegMatch_add grammar 100 _ _ (by rw [show pegMatch grammar 100 _ _ = _ from h1]; simp)
      k).trans h1
  · exact (pegMatch_add grammar 50 _ _ (by rw [h2]; simp) k).trans h2
  · exact (pegMatch_add grammar 50 _ _ (by rw [h3]; simp) k).trans h3
  · exact (pegMatch_add grammar 50 _ _ (by rw [h4]; simp) k).trans h4
  · exact (pegMatch_add grammar 50 _ _ (by rw [h5]; simp) k).trans h5
  · exact (pegMatch_add grammar 100 _ _ (by rw [show pegMatch grammar 100 _ _ = _ from h6]; simp)
      k).trans h6

/-! ## Loops -/

theorem compare_none (oper : String) (a b : Int) (h : compare oper a b = none) (c d : Int) :
    compare oper c d = none := by
  unfold compare at h ⊢
  by_cases h1 : oper = "=="
  · rw [if_pos h1] at h; cases h
  rw [if_neg h1] at h ⊢
  by_cases h2 : oper = "<"
  · rw [if_pos h2] at h; cases h
  rw [if_neg h2] at h ⊢
  by_cases h3 : oper = "<="
  · rw [if_pos h3] at h; cases h
  rw [if_neg h3] at h ⊢
  by_cases h4 : oper = ">"
  · rw [if_pos h4] at h; cases h
  rw [if_neg h4] at h ⊢
  by_cases h5 : oper = ">="
  · rw [if_pos h5] at h; cases h
  rw [if_neg h5] at h ⊢
  by_cases h6 : oper = "!="
  · rw [if_pos h6] at h; cases h
  rw [if_neg h6]

theorem whileLoop_succ (ev : Eval) (ifNode : List Ast) (oper : String) (block : Ast)
    (env : Addr) (count : Nat) (s : State) :
    whileLoop ev ifNode oper block env (count + 1) s =
      (evalCompare ev ifNode oper env s >>= fun c =>
        match c.1 with
        | some true => ev block env c.2 >>= fun b => whileLoop ev ifNode oper block env count b.2
        | some false => .ok (.nullptr, c.2)
        | none => whileLoop ev ifNode oper block env count c.2) := by
  rw [whileLoop]
  unfold evalCompare
  cases nodeAt ifNode 0 with
  | error e => rfl
  | ok n0 =>
    show (ev n0 env s >>= _) = (ev n0 env s >>= _) >>= _
    cases ev n0 env s with
    | error e => rfl
    | ok lv =>
      show (lv.1.get_long >>= _) = (lv.1.get_long >>= _) >>= _
      cases lv.1.get_long with
      | error e => rfl
      | ok lhs =>
        show (nodeAt ifNode 2 >>= _) = (nodeAt ifNode 2 >>= _) >>= _
        cases nodeAt ifNode 2 with
        | error e => rfl
        | ok n2 =>
          show (ev n2 env lv.2 >>= _) = (ev n2 env lv.2 >>= _) >>= _
          cases ev n2 env lv.2 with
          | error e => rfl
          | ok rv =>
            show (rv.1.get_long >>= _) = (rv.1.get_long >>= _) >>= _
            cases rv.1.get_long with
            | error e => rfl
            | ok rhs => rfl

theorem whileLoop_rounds (ev : Eval) (ifNode : List Ast) (oper : String) (block : Ast)
    (env : Addr) (n : Nat) :
    ∀ (s t t1 : State) (k : Nat), whileRounds ev ifNode oper block env n s = some t →
      evalCompare ev ifNode oper env t = .ok (some false, t1) →
      whileLoop ev ifNode oper block env (n + 1 + k) s = .ok (.nullptr, t1) := by
  induction n with
  | zero =>
    intro s t t1 k h hc
    cases h
    rw [show 0 + 1 + k = k + 1 by omega, whileLoop_succ, hc]
    rfl
  | succ n ih =>
    intro s t t1 k h hc
    rw [show n + 1 + 1 + k = (n + 1 + k) + 1 by omega, whileLoop_succ]
    unfold whileRounds at h
    cases hcmp : evalCompare ev ifNode oper env s with
    | error e => rw [hcmp] at h; cases h
    | ok c =>
      obtain ⟨b, s1⟩ := c
      rw [hcmp] at h
      cases b with
      | none => cases h
      | some b =>
        cases b with
        | false => cases h
        | true =>
          have h1 : (match ev block env s1 with
              | .ok b => whileRounds ev ifNode oper block env n b.2
              | .error _ => none) = some t := h
          show (ev block env s1 >>= _) = _
          cases hb : ev block env s1 with
          | error e => rw [hb] at h1; cases h1
          | ok r =>
            rw [hb] at h1
            exact ih r.2 t t1 k h1 hc

theorem whileLoop_ok (ev : Eval) (ifNode : List Ast) (oper : String) (block : Ast)
    (env : Addr) (count : Nat) :
    ∀ (s : State) (r : Value × State), whileLoop ev ifNode oper block env count s = .ok r →
      r.1 = .nullptr ∧ ∃ (n : Nat) (t : State), n < count ∧
        whileRounds ev ifNode oper block env n s = some t ∧
        evalCompare ev ifNode oper env t = .ok (some false, r.2) := by
  induction count with
  | zero =>
    intro s r h
    cases h
  | succ count ih =>
    intro s r h
    rw [whileLoop_succ] at h
    obtain ⟨c, hcmp, h⟩ := bind_ok h
    obtain ⟨b, s1⟩ := c
    cases b with
    | none =>
      obtain ⟨_, n, t, _, _, hfalse⟩ := ih s1 r h
      exfalso
      unfold evalCompare at hcmp hfalse
      obtain ⟨n0, _, hcmp⟩ := bind_ok hcmp
      obtain ⟨lv, _, hcmp⟩ := bind_ok hcmp
      obtain ⟨lhs, _, hcmp⟩ := bind_ok hcmp
      obtain ⟨n2, _, hcmp⟩ := bind_ok hcmp
      obtain ⟨rv, _, hcmp⟩ := bind_ok hcmp
      obtain ⟨rhs, _, hcmp⟩ := bind_ok hcmp
      obtain ⟨m0, _, hfalse⟩ := bind_ok hfalse
      obtain ⟨lw, _, hfalse⟩ := bind_ok hfalse
      obtain ⟨lhs1, _, hfalse⟩ := bind_ok hfalse
      obtain ⟨m2, _, hfalse⟩ := bind_ok hfalse
      obtain ⟨rw1, _, hfalse⟩ := bind_ok hfalse
      obtain ⟨rhs1, _, hfalse⟩ := bind_ok hfalse
      have h1 : compare oper lhs rhs = none := by
        injection hcmp with hcmp
        exact congrArg Prod.fst hcmp
      have h2 : compare oper lhs1 rhs1 = some false := by
        injection hfalse with hfalse
        exact congrArg Prod.fst hfalse
      rw [compare_none oper lhs rhs h1 lhs1 rhs1] at h2
      cases h2
    | some b =>
      cases b with
      | false =>
        cases h
        exact ⟨rfl, 0, s, Nat.succ_pos _, rfl, hcmp⟩
      | true =>
        obtain ⟨rb, hb, h⟩ := bind_ok h
        obtain ⟨hnone, n, t, hn, hrounds, hfalse⟩ := ih rb.2 r h
        refine ⟨hnone, n + 1, t, Nat.succ_lt_succ hn, ?_, hfalse⟩
        unfold whileRounds
        rw [hcmp]
        show (match ev block env s1 with
          | .ok b => whileRounds ev ifNode oper block env n b.2
          | .error _ => none) = some t
        rw [hb]
        exact hrounds

theorem eval_while_whileNode (ev : Eval) (count : Nat) (lhs op rhs block : Ast) (env : Addr)
    (s : State) :
    eval_while ev count (whileNode lhs op rhs block) env s =
      whileLoop ev [lhs, op, rhs] op.token_to_string block env count s := by
  unfold eval_while whileNode
  simp [nodeAt, node, Ast.nodes]
  rfl

/-- C21: when `eval_while` returns, it returns None, and the state it leaves is
the one reached by some number `n` of rounds, in each of which the comparison,
evaluated anew, holds and the body is evaluated once with its value dropped,
followed by an evaluation of the comparison that is false. Conversely such a run
of `n` rounds followed by a false comparison is what `eval_while` does, for
every loop budget above `n`. The counting loop prints 0, 1, 2 and leaves
`i = 3`; a `return 7` in the body of a loop in `f` neither ends the loop nor
reaches the caller, `f()` yielding the 3 of the `return i` after the loop. -/
theorem eval_while_yields_none (ev : Eval) (lhs op rhs block : Ast) (env : Nat) :
    (∀ (count : Nat) (s : State) (r : Value × State),
        eval_while ev count (whileNode lhs op rhs block) env s = .ok r →
        r.1 = .nullptr ∧ ∃ (n : Nat) (t : State), n < count ∧
          whileRounds ev [lhs, op, rhs] op.token_to_string block env n s = some t ∧
          evalCompare ev [lhs, op, rhs] op.token_to_string env t = .ok (some false, r.2)) ∧
      (∀ (n k : Nat) (s t t1 : State),
        whileRounds ev [lhs, op, rhs] op.token_to_string block env n s = some t →
        evalCompare ev [lhs, op, rhs] op.token_to_string env t = .ok (some false, t1) →
        eval_while ev (n + 1 + k) (whileNode lhs op rhs block) env s = .ok (.nullptr, t1)) ∧
      finalLong 6 countProgram "i" = .ok (3, "0\n1\n2\n") ∧
      finalLong 10 returnInLoopProgram "x" = .ok (3, "") := by
  refine ⟨fun count s r h => ?_, fun n k s t t1 h hc => ?_, by decide!, by decide!⟩
  · rw [eval_while_whileNode] at h
    exact whileLoop_ok ev _ _ block env count s r h
  · rw [eval_while_whileNode]
    exact whileLoop_rounds ev _ _ block env n s t t1 k h hc

theorem eval_while_yields_none_witness :
    (whileRounds (eval 4) [leaf "NAME" "i", leaf "compare_infix" "<", leaf "NUMBER" "3"]
        "<" (node "block" [increment "i", returnNumber "7"]) 0 1 (loopState 2) =
          some { heap := set_value (loopState 2).heap 0 "i" (.long 3), os := "" } ∧
      evalCompare (eval 4) [leaf "NAME" "i", leaf "compare_infix" "<", leaf "NUMBER" "3"] "<" 0
        { heap := set_value (loopState 2).heap 0 "i" (.long 3), os := "" } =
          .ok (some false, { heap := set_value (loopState 2).heap 0 "i" (.long 3), os := "" })) ∧
    eval_while (eval 4) 2 (whileNode (leaf "NAME" "i") (leaf "compare_infix" "<")
      (leaf "NUMBER" "3") (node "block" [increment "i", returnNumber "7"])) 0 (loopState 2) =
        .ok (.nullptr, { heap := set_value (loopState 2).heap 0 "i" (.long 3), os := "" }) :=
  ⟨⟨rfl, rfl⟩,
    (eval_while_yields_none (eval 4) (leaf "NAME" "i") (leaf "compare_infix" "<")
      (leaf "NUMBER" "3") (node "block" [increment "i", returnNumber "7"]) 0).2.1 1 0
      (loopState 2) _ _ rfl rfl⟩

/-! ## Conditionals -/

theorem compare_unknown (oper : String)
    (h : oper ∉ ["==", "!=", "<", "<=", ">", ">="]) (a b : Int) : compare oper a b = none := by
  simp only [List.mem_cons, List.mem_singleton, List.mem_nil_iff, not_or, or_false] at h
  obtain ⟨h1, h2, h3, h4, h5, h6⟩ := h
  unfold compare
  rw [if_neg h1, if_neg h3, if_neg h4, if_neg h5, if_neg h6, if_neg h2]

theorem eval_if_compare (ev : Eval) (lhsNode opNode rhsNode : Ast) (rest : List Ast)
    (env : Addr) (s s1 s2 : State) (lhs rhs : Int)
    (hl : ev lhsNode env s = .ok (.long lhs, s1))
    (hr : ev rhsNode env s1 = .ok (.long rhs, s2)) :
    eval_if ev (ifTree lhsNode opNode rhsNode rest) env s =
      match compare opNode.token_to_string lhs rhs with
      | some true => nodeAt (node "compare" [lhsNode, opNode, rhsNode] :: rest) 1 >>=
          fun b => ev b env s2
      | some false =>
        if (node "compare" [lhsNode, opNode, rhsNode] :: rest).length > 2 then
          nodeAt (node "compare" [lhsNode, opNode, rhsNode] :: rest) 2 >>= fun b => ev b env s2
        else .ok (.nullptr, s2)
      | none => .ok (.nullptr, s2) := by
  unfold eval_if ifTree
  simp only [node, Ast.nodes, nodeAt, List.getElem?_cons_zero, List.getElem?_cons_succ]
  show (ev lhsNode env s >>= _) = _
  rw [hl]
  show (ev rhsNode env s1 >>= _) = _
  rw [hr]
  rfl

/-- C22: an `if` whose comparator token is none of `==`, `!=`, `<`, `<=`, `>`,
`>=` is no error: when its operands evaluate to Ints, `eval_if` returns None
and evaluates neither block. After `x = 0` the statement `if 1 and 1:` with the
body `x = 5` raises nothing and leaves `x = 0`. -/
theorem eval_if_unknown_comparator (ev : Eval) (lhsNode opNode rhsNode : Ast)
    (rest : List Ast) (env : Nat) (s s1 s2 : State) (lhs rhs : Int)
    (hop : opNode.token_to_string ∉ ["==", "!=", "<", "<=", ">", ">="])
    (hl : ev lhsNode env s = .ok (.long lhs, s1))
    (hr : ev rhsNode env s1 = .ok (.long rhs, s2)) :
    eval_if ev (ifTree lhsNode opNode rhsNode rest) env s = .ok (.nullptr, s2) ∧
      finalLong 6 andProgram "x" = .ok (0, "") := by
  refine ⟨?_, by decide!⟩
  rw [eval_if_compare ev lhsNode opNode rhsNode rest env s s1 s2 lhs rhs hl hr,
    compare_unknown _ hop]

theorem eval_if_unknown_comparator_witness :
    ((leaf "compare_infix" "or").token_to_string ∉ ["==", "!=", "<", "<=", ">", ">="] ∧
      eval 1 (leaf "NUMBER" "1") 0 initialState = .ok (.long 1, initialState) ∧
      eval 1 (leaf "NUMBER" "2") 0 initialState = .ok (.long 2, initialState)) ∧
    eval_if (eval 1) (ifTree (leaf "NUMBER" "1") (leaf "compare_infix" "or")
      (leaf "NUMBER" "2") [node "block" [assignNumber "x" "5"]]) 0 initialState =
        .ok (.nullptr, initialState) :=
  ⟨⟨by decide, rfl, rfl⟩,
    (eval_if_unknown_comparator (eval 1) (leaf "NUMBER" "1") (leaf "compare_infix" "or")
      (leaf "NUMBER" "2") [node "block" [assignNumber "x" "5"]] 0 initialState initialState
      initialState 1 2 (by decide) rfl rfl).1⟩

/-! ## Returns inside conditionals -/

theorem access_list_ends (ev : Eval) (a : String) (ends1 ends2 : List Ast) (env : Addr)
    (s : State)
    (h : spliceEnds ev env ends1 (-1) (-1) s = spliceEnds ev env ends2 (-1) (-1) s) :
    access_list ev (sliceAccess a ends1) env s = access_list ev (sliceAccess a ends2) env s := by
  unfold access_list
  show (get_value s.heap env a >>= _) = (get_value s.heap env a >>= _)
  cases get_value s.heap env a with
  | error e => rfl
  | ok v =>
    show (v.get_List >>= _) = (v.get_List >>= _)
    cases v.get_List with
    | error e => rfl
    | ok L =>
      show (spliceEnds ev env ends1 (-1) (-1) s >>= _) =
        (spliceEnds ev env ends2 (-1) (-1) s >>= _)
      rw [h]

theorem list_assign_ends (ev : Eval) (a : String) (ends1 ends2 : List Ast) (rhs : Ast)
    (env : Addr) (s : State)
    (h : spliceEnds ev env ends1 (-1) (-1) s = spliceEnds ev env ends2 (-1) (-1) s) :
    list_assign ev (spliceAssign a ends1 rhs) env s =
      list_assign ev (spliceAssign a ends2 rhs) env s := by
  unfold list_assign
  show (get_value s.heap env a >>= _) = (get_value s.heap env a >>= _)
  cases get_value s.heap env a with
  | error e => rfl
  | ok v =>
    show (v.get_List >>= _) = (v.get_List >>= _)
    cases v.get_List with
    | error e => rfl
    | ok L =>
      show (spliceEnds ev env ends1 (-1) (-1) s >>= _) =
        (spliceEnds ev env ends2 (-1) (-1) s >>= _)
      rw [h]
      rfl

theorem spliceEnds_left_minus_one (ev : Eval) (env : Addr) (lnode : Ast) (ks : List Ast)
    (s : State) (hl : lnode.tag = "leftSp") (el : ev lnode env s = .ok (.long (-1), s)) :
    spliceEnds ev env (lnode :: ks) (-1) (-1) s = spliceEnds ev env ks (-1) (-1) s := by
  rw [spliceEnds, if_pos hl]
  show (ev lnode env s >>= _) = _
  rw [el]
  rfl

theorem spliceEnds_right_minus_one (ev : Eval) (env : Addr) (lnode rnode : Ast)
    (s s1 : State) (l : Int) (hl : lnode.tag = "leftSp") (hr : rnode.tag = "rightSp")
    (el : ev lnode env s = .ok (.long l, s1)) (er : ev rnode env s1 = .ok (.long (-1), s1)) :
    spliceEnds ev env [lnode, rnode] (-1) (-1) s = spliceEnds ev env [lnode] (-1) (-1) s := by
  rw [spliceEnds_both ev env lnode rnode s s1 s1 l (-1) hl hr el er,
    spliceEnds_left ev env lnode s s1 l hl el]

theorem access_list_whole (ev : Eval) (a : String) (env : Addr) (s : State) (L : List Value)
    (ha : get_value s.heap env a = .ok (.list L)) (hsize : L.length < 2147483648) :
    access_list ev (sliceAccess a []) env s = .ok (.list L, s) := by
  rw [access_list_slice ev a [] env s s L (-1) (-1) ha rfl]
  have hrange : spliceRange (-1) (-1) L.length = (0, (L.length : Int)) := by
    unfold spliceRange
    rw [if_neg (by omega), if_neg (by omega), if_neg (by omega)]
  rw [hrange]
  show (sliceLoop L L.length ((L.length : Int) - wrap32 0).toNat (wrap32 0) [] >>= _) = _
  rw [slice_of_range L 0 L.length (le_refl _) (by omega) (le_refl _) hsize]
  simp only [Int.toNat_zero, List.drop_zero, Int.sub_zero, Int.toNat_ofNat, List.take_length]
  rfl

/-- C24: an endpoint that evaluates to -1 stands for an absent one. With a left
endpoint node that evaluates to -1, `a[-1:r]` is `a[:r]`; with a right endpoint
node that evaluates to -1, `a[l:-1]` is `a[l:]`; with both, `a[-1:-1]` is `a[:]`,
the whole list; in each case for the slice access and for the splice assignment,
whatever the other endpoint and the right-hand side are. After `a = [1,2,3]`
the slices `a[-1:2]`, `a[1:-1]`, `a[-1:-1]` are `[1, 2]`, `[2, 3]`, `[1, 2, 3]`,
and `a[-1:2] = [7,8]` leaves `a = [7, 8, 3]`. -/
theorem minus_one_endpoint_is_absent (ev : Eval) (a : String) (env : Nat) (s : State)
    (lnode rnode : Ast) (hl : lnode.tag = "leftSp") (hr : rnode.tag = "rightSp") :
    (ev lnode env s = .ok (.long (-1), s) →
      access_list ev (sliceAccess a [lnode, rnode]) env s =
          access_list ev (sliceAccess a [rnode]) env s ∧
        ∀ rhs : Ast, list_assign ev (spliceAssign a [lnode, rnode] rhs) env s =
          list_assign ev (spliceAssign a [rnode] rhs) env s) ∧
    (∀ (l : Int) (s1 : State), ev lnode env s = .ok (.long l, s1) →
      ev rnode env s1 = .ok (.long (-1), s1) →
      access_list ev (sliceAccess a [lnode, rnode]) env s =
          access_list ev (sliceAccess a [lnode]) env s ∧
        ∀ rhs : Ast, list_assign ev (spliceAssign a [lnode, rnode] rhs) env s =
          list_assign ev (spliceAssign a [lnode] rhs) env s) ∧
    (ev lnode env s = .ok (.long (-1), s) → ev rnode env s = .ok (.long (-1), s) →
      access_list ev (sliceAccess a [lnode, rnode]) env s =
          access_list ev (sliceAccess a []) env s ∧
        (∀ rhs : Ast, list_assign ev (spliceAssign a [lnode, rnode] rhs) env s =
          list_assign ev (spliceAssign a [] rhs) env s) ∧
        ∀ L : List Value, get_value s.heap env a = .ok (.list L) → L.length < 2147483648 →
          access_list ev (sliceAccess a [lnode, rnode]) env s = .ok (.list L, s)) ∧
    finalStr 7 minusOneProgram "b" = .ok "[1, 2]" ∧
    finalStr 7 minusOneProgram "c" = .ok "[2, 3]" ∧
    finalStr 7 minusOneProgram "d" = .ok "[1, 2, 3]" ∧
    finalStr 7 minusOneProgram "a" = .ok "[7, 8, 3]" := by
  refine ⟨fun el => ?_, fun l s1 el er => ?_, fun el er => ?_, by decide!, by decide!,
    by decide!, by decide!⟩
  · have h := spliceEnds_left_minus_one ev env lnode [rnode] s hl el
    exact ⟨access_list_ends ev a _ _ env s h, fun rhs => list_assign_ends ev a _ _ rhs env s h⟩
  · have h := spliceEnds_right_minus_one ev env lnode rnode s s1 l hl hr el er
    exact ⟨access_list_ends ev a _ _ env s h, fun rhs => list_assign_ends ev a _ _ rhs env s h⟩
  · have h : spliceEnds ev env [lnode, rnode] (-1) (-1) s = spliceEnds ev env [] (-1) (-1) s := by
      rw [spliceEnds_left_minus_one ev env lnode [rnode] s hl el,
        spliceEnds_right ev env rnode s s (-1) hr er]
      rfl
    refine ⟨access_list_ends ev a _ _ env s h, fun rhs => list_assign_ends ev a _ _ rhs env s h,
      fun L ha hsize => ?_⟩
    rw [access_list_ends ev a _ _ env s h]
    exact access_list_whole ev a env s L ha hsize

theorem minus_one_endpoint_is_absent_witness :
    ((node "leftSp" [minusOne]).tag = "leftSp" ∧ (rightNumber "2").tag = "rightSp" ∧
      eval 3 (node "leftSp" [minusOne]) 0 threeElementState =
        .ok (.long (-1), threeElementState)) ∧
    access_list (eval 3) (sliceAccess "a" [node "leftSp" [minusOne], rightNumber "2"]) 0
        threeElementState =
      access_list (eval 3) (sliceAccess "a" [rightNumber "2"]) 0 threeElementState :=
  ⟨⟨rfl, rfl, rfl⟩,
    ((minus_one_endpoint_is_absent (eval 3) "a" 0 threeElementState (node "leftSp" [minusOne])
      (rightNumber "2") rfl rfl).1 rfl).1⟩

/-! ## Splice assignment -/

theorem spliceLoop_spec (R : List Value) (r : Int) (count : Nat) :
    ∀ (i : Int) (j : Nat) (v : List Value), 0 ≤ i → r = i + count → r ≤ v.length →
      j + count ≤ R.length →
      ∃ w : List Value, spliceLoop R r count i j v = .ok w ∧ w.length = v.length ∧
        (∀ p : Nat, i.toNat ≤ p → p < i.toNat + count → w[p]? = R[j + (p - i.toNat)]?) ∧
        (∀ p : Nat, p < i.toNat ∨ i.toNat + count ≤ p → w[p]? = v[p]?) := by
  induction count with
  | zero =>
    intro i j v _ _ _ _
    exact ⟨v, rfl, rfl, fun p h1 h2 => by omega, fun _ _ => rfl⟩
  | succ count ih =>
    intro i j v h0 hr hle hj
    have hir : i < r := by omega
    have hiv : i.toNat < v.length := by omega
    have hjR : j < R.length := by omega
    obtain ⟨w, hw, hlen, hin, hout⟩ := ih (i + 1) (j + 1) (v.set i.toNat R[j]) (by omega)
      (by push_cast at hr ⊢; omega) (by simp only [List.length_set]; exact hle) (by omega)
    have hi1 : (i + 1).toNat = i.toNat + 1 := by omega
    refine ⟨w, ?_, ?_, ?_, ?_⟩
    · rw [spliceLoop, if_pos hir, if_pos ⟨h0, hiv⟩]
      simp only [nodeAt, List.getElem?_eq_getElem hjR]
      exact hw
    · rw [hlen, List.length_set]
    · intro p h1 h2
      by_cases hp : p = i.toNat
      · subst hp
        rw [hout i.toNat (Or.inl (by omega)), List.getElem?_set_self hiv, Nat.sub_self,
          Nat.add_zero, List.getElem?_eq_getElem hjR]
      · rw [hin p (by omega) (by omega), hi1]
        congr 1
        omega
    · intro p hp
      rw [hout p (by omega), List.getElem?_set_ne (by omega)]

theorem spliceLoop_short (R : List Value) (r : Int) (count : Nat) :
    ∀ (i : Int) (j : Nat) (v : List Value), 0 ≤ i → r = i + count → r ≤ v.length →
      j ≤ R.length → R.length < j + count →
      spliceLoop R r count i j v = .error .undefined_behaviour := by
  induction count with
  | zero =>
    intro i j v _ _ _ h1 h2
    omega
  | succ count ih =>
    intro i j v h0 hr hle hj hshort
    have hir : i < r := by omega
    have hiv : i.toNat < v.length := by omega
    rw [spliceLoop, if_pos hir, if_pos ⟨h0, hiv⟩]
    by_cases hjR : j < R.length
    · simp only [nodeAt, List.getElem?_eq_getElem hjR]
      exact ih (i + 1) (j + 1) (v.set i.toNat R[j]) (by omega) (by push_cast at hr ⊢; omega)
        (by simp only [List.length_set]; exact hle) (by omega) (by omega)
    · simp only [nodeAt, List.getElem?_eq_none (Nat.le_of_not_lt hjR)]
      rfl

theorem list_assign_splice (ev : Eval) (a : String) (ends : List Ast) (rhs : Ast)
    (env : Addr) (s s1 s2 : State) (L R : List Value) (l r : Int)
    (ha : get_value s.heap env a = .ok (.list L))
    (hends : spliceEnds ev env ends (-1) (-1) s = .ok ((l, r), s1))
    (hrhs : ev rhs env s1 = .ok (.list R, s2)) :
    list_assign ev (spliceAssign a ends rhs) env s =
      (spliceLoop R (spliceRange l r L.length).2
        ((spliceRange l r L.length).2 - wrap32 (spliceRange l r L.length).1).toNat
        (wrap32 (spliceRange l r L.length).1) 0 L >>= fun w =>
          .ok (.nullptr, { s2 with heap := set_value s2.heap env a (.list w) })) := by
  unfold list_assign
  show (get_value s.heap env a >>= _) = _
  rw [ha]
  show (spliceEnds ev env ends (-1) (-1) s >>= _) = _
  rw [hends]
  show (ev rhs env s1 >>= _) = _
  rw [hrhs]
  rfl

/-- C23: for `a` bound to a List `L`, endpoints `0 ≤ l ≤ r ≤ |L|` and a
right-hand side evaluating to a List `R`, the splice assignment `a[l:r] = R`
succeeds when `R` has at least `r - l` elements: it rebinds `a` to a list of
the length of `L` in which position `l + j` holds `R[j]` for every `j < r - l`
and every other position keeps its value. When `R` has fewer than `r - l`
elements the loop reads `fromList[j]` past the end of `R`: the assignment has
no defined result, as in `a = [1,2,3]`, `a[0:2] = [9]`. -/
theorem list_assign_splice_reads_past_rhs (ev : Eval) (a : String) (lnode rnode rhs : Ast)
    (env : Nat) (s s1 s2 s3 : State) (L R : List Value) (l r : Int)
    (ha : get_value s.heap env a = .ok (.list L)) (hsize : L.length < 2147483648)
    (hl : lnode.tag = "leftSp") (hr : rnode.tag = "rightSp")
    (el : ev lnode env s = .ok (.long l, s1)) (er : ev rnode env s1 = .ok (.long r, s2))
    (h0 : 0 ≤ l) (h1 : l ≤ r) (h2 : r ≤ L.length)
    (hrhs : ev rhs env s2 = .ok (.list R, s3)) :
    (r - l ≤ R.length →
      ∃ w : List Value,
        list_assign ev (spliceAssign a [lnode, rnode] rhs) env s =
          .ok (.nullptr, { s3 with heap := set_value s3.heap env a (.list w) }) ∧
        w.length = L.length ∧
        (∀ j : Nat, j < (r - l).toNat → w[l.toNat + j]? = R[j]?) ∧
        (∀ p : Nat, p < l.toNat ∨ r.toNat ≤ p → w[p]? = L[p]?)) ∧
    ((R.length : Int) < r - l →
      list_assign ev (spliceAssign a [lnode, rnode] rhs) env s =
        .error .undefined_behaviour) ∧
    interpret 7 spliceShortProgram "" = .error .undefined_behaviour ∧
    finalStr 7 spliceProgram "a" = .ok "[1, 7, 8]" ∧
    finalStr 7 spliceProgram "b" = .ok "[7, 2, 3]" := by
  have hends := spliceEnds_both ev env lnode rnode s s1 s2 l r hl hr el er
  have hrange : spliceRange l r L.length = (l, r) := by
    unfold spliceRange
    rw [if_neg (by omega), if_neg (by omega), if_pos (by omega)]
  have hwrap : wrap32 l = l := wrap32_of_small l h0 (by omega)
  have key := list_assign_splice ev a [lnode, rnode] rhs env s s2 s3 L R l r ha hends hrhs
  rw [hrange] at key
  simp only [hwrap] at key
  refine ⟨fun hlong => ?_, fun hshort => ?_, by decide!, by decide!, by decide!⟩
  · obtain ⟨w, hw, hlen, hin, hout⟩ := spliceLoop_spec R r (r - l).toNat l 0 L h0 (by omega) h2
      (by omega)
    refine ⟨w, ?_, hlen, fun j hj => ?_, fun p hp => ?_⟩
    · rw [key, hw]
      rfl
    · rw [hin (l.toNat + j) (by omega) (by omega)]
      congr 1
      omega
    · exact hout p (by omega)
  · rw [key, spliceLoop_short R r (r - l).toNat l 0 L h0 (by omega) h2 (by omega) (by omega)]
    rfl

theorem list_assign_splice_reads_past_rhs_witness :
    (get_value threeElementState.heap 0 "a" = .ok (.list [.long 1, .long 2, .long 3]) ∧
      [Value.long 1, .long 2, .long 3].length < 2147483648 ∧
      (leftNumber "0").tag = "leftSp" ∧ (rightNumber "2").tag = "rightSp" ∧
      eval 4 (leftNumber "0") 0 threeElementState = .ok (.long 0, threeElementState) ∧
      eval 4 (rightNumber "2") 0 threeElementState = .ok (.long 2, threeElementState) ∧
      eval 4 (listExpr ["9"]) 0 threeElementState = .ok (.list [.long 9], threeElementState) ∧
      (([Value.long 9].length : Nat) : Int) < 2 - 0) ∧
    list_assign (eval 4) (spliceAssign "a" [leftNumber "0", rightNumber "2"] (listExpr ["9"])) 0
      threeElementState = .error .undefined_behaviour :=
  ⟨⟨rfl, by decide, rfl, rfl, rfl, rfl, rfl, by decide⟩,
    (list_assign_splice_reads_past_rhs (eval 4) "a" (leftNumber "0") (rightNumber "2")
      (listExpr ["9"]) 0 threeElementState threeElementState threeElementState
      threeElementState [.long 1, .long 2, .long 3] [.long 9] 0 2 rfl (by decide) rfl rfl rfl
      rfl (by decide) (by decide) (by decide) rfl).2.1 (by decide)⟩

/-! ## Closures: late binding -/

end MiniPy
